import Mathlib

/-!
Verification development for a two-subsystem C codebase: a segregated-fit
heap allocator with quick lists (sfmm) and a pipeline job runner plus a
small key/value data store (mush).  The C sources are shallowly embedded:
pure parsing code becomes Lean functions on `List Char`, the job table
becomes a Lean list of `Job` records, and the heap becomes an explicit
state (`SfState`) holding the physical block sequence, the segregated free
lists and the quick lists.  Machine integers are modelled as `Nat`/`Int`
with explicit reduction modulo 2^32 where the C code relies on `sf_size_t`
(32-bit) wrap-around.  Byte-level header/footer mirroring is represented by
the structured fields themselves; the XOR-with-MAGIC obfuscation is a
bijection on headers and is elided.  Fallible operations return `Option`
(`none` models `abort()` or a NULL result, as noted at each definition).
-/

namespace HW3

/-! ## Data store module (`store_get_string` / `store_get_int`)

Strings are modelled as `List Char` (C strings without the terminating
NUL).  `kvStrEq` mirrors the character loop of the C helper, including its
convention of returning -1 for inequality and 1 for equality. -/

/-- Key/value pair list, mirroring the `KVPair` linked list `lookup`. -/
def KVStore : Type := List (List Char × List Char)

/-- Mirrors `kvStrEq`: walks both strings until both are exhausted,
returning -1 at the first mismatching character (a NUL against a
non-NUL character is a mismatch), and 1 when both end together. -/
def kvStrEq : List Char → List Char → Int
  | [], [] => 1
  | [], _ :: _ => -1
  | _ :: _, [] => -1
  | c1 :: r1, c2 :: r2 => if c1 ≠ c2 then -1 else kvStrEq r1 r2

/-- Mirrors `store_get_string`: first pair whose key compares equal wins,
`none` models the NULL result. -/
def store_get_string (store : KVStore) (var : List Char) : Option (List Char) :=
  match store with
  | [] => none
  | (k, v) :: rest => if kvStrEq k var > 0 then some v else store_get_string rest var

/-- The digit-accumulation loop of `store_get_int`: returns `none` when a
non-digit character is met (the C code returns -1), otherwise the
accumulated value.  The C accumulator is a C `int`; the claims under
study only concern acceptance/rejection and small values, so the
accumulator is modelled as an unbounded `Int`. -/
def storeIntLoop : List Char → Int → Option Int
  | [], build => some build
  | c :: cs, build =>
    if c < '0' ∨ c > '9' then none
    else storeIntLoop cs (build * 10 + ((c.toNat : Int) - ('0'.toNat : Int)))

/-- The string-to-integer interpretation of `store_get_int` applied to a
non-NULL value string: strips one optional leading minus sign (the C
tests `val[0] == '-'`), then runs the digit loop, multiplying by the
recorded sign at the end. -/
def storeParseInt : List Char → Option Int
  | [] => (storeIntLoop [] 0).map (fun build => build * 1)
  | c :: rest =>
    if c = '-' then (storeIntLoop rest 0).map (fun build => build * (-1))
    else (storeIntLoop (c :: rest) 0).map (fun build => build * 1)

/-- Mirrors `store_get_int`: `none` models the -1 result (unset variable or
non-integer value); `some n` models returning 0 with `*valp = n`. -/
def store_get_int (store : KVStore) (var : List Char) : Option Int :=
  match store_get_string store var with
  | none => none
  | some val => storeParseInt val

/-- Modelled from the spec: the integer pattern the specification claims
`store_get_int` accepts, namely an optional leading minus sign followed by
one or more decimal digits. -/
def specIntPattern : List Char → Bool
  | [] => false
  | c :: rest =>
    if c = '-' then decide (rest ≠ []) && rest.all (fun x => '0' ≤ x && x ≤ '9')
    else (c :: rest).all (fun x => '0' ≤ x && x ≤ '9')

/-- The pattern the code actually accepts: an optional leading minus sign
followed by zero or more decimal digits (so the empty string and a lone
minus sign are both accepted, yielding 0). -/
def codeIntPattern : List Char → Bool
  | [] => true
  | c :: rest =>
    if c = '-' then rest.all (fun x => '0' ≤ x && x ≤ '9')
    else (c :: rest).all (fun x => '0' ≤ x && x ≤ '9')

/-! ## Jobs module

A `Job` mirrors `struct job`.  The pipeline and the captured-output buffer
are heap-owned resources; they are modelled by opaque numeric handles so
that freeing can be observed: the model state records, in `freed`, every
handle passed to `free_pipeline`/`free` by the code.  `killedPgs` records
every process group the code sends SIGKILL to via `killpg`. -/

inductive JobStatus
  | NEW
  | RUNNING
  | COMPLETED
  | ABORTED
  | CANCELED
deriving Repr, DecidableEq

/-- Terminal states, per the module documentation of the jobs module. -/
def JobStatus.terminal : JobStatus → Bool
  | .COMPLETED => true
  | .ABORTED => true
  | .CANCELED => true
  | _ => false

/-- Mirrors `struct job` (jobId, pgId, status, pipeline, capturedOutput,
canceled); the `next` link is the list structure itself. -/
structure Job where
  jobId : Int
  pgId : Int
  status : JobStatus
  pipelineH : Nat
  capturedOutputH : Option Nat
  canceled : Bool
deriving Repr, DecidableEq

/-- A pipeline argument for `jobs_run`: `numCommands` counts the command
list (`commands == NULL` is `numCommands = 0`), `captureOutput` mirrors
the `capture_output` flag, `handle` is the owned-resource handle. -/
structure Pipeline where
  handle : Nat
  numCommands : Nat
  captureOutput : Bool
deriving Repr, DecidableEq

/-- State of the jobs module: the `jobTable` list plus ghost observation
lists for freed resource handles and SIGKILLed process groups. -/
structure JobsState where
  table : List Job
  freed : List Nat
  killedPgs : List Int
deriving Repr, DecidableEq

/-- Mirrors the job-id selection loop of `jobs_run`: the loop body runs
only while the current node has a successor, so `lastJID` ends as the id
of the second-to-last node (or stays -2 for tables of length at most 1),
and the chosen id is `lastJID + 2`. -/
def lastJIDLoop : List Job → Int → Int
  | [], acc => acc
  | [_], acc => acc
  | j :: k :: rest, _ => lastJIDLoop (k :: rest) j.jobId

/-- The job id `jobs_run` assigns, as computed by the code. -/
def chooseJobId (table : List Job) : Int :=
  lastJIDLoop table (-2) + 2

/-- Modelled from the spec: the job id the specification says `jobs_run`
assigns, namely the maximum existing id plus one, or 0 on an empty table. -/
def specNextJobId (table : List Job) : Int :=
  match table with
  | [] => 0
  | j :: rest => (rest.foldl (fun acc k => max acc k.jobId) j.jobId) + 1

/-- Mirrors `jobs_run` as observed by the calling (parent) process.
`forkResult` is the value returned by `fork()` in the parent: the real
child pid on success or -1 on failure.  The C code treats every
`pid != 0` as the parent branch, so a fork failure still builds a job
(with `pgId = -1`, status RUNNING) and still returns the fresh job id. -/
def jobs_run (s : JobsState) (pline : Option Pipeline) (forkResult : Int) :
    JobsState × Int :=
  match pline with
  | none => (s, -1)
  | some pl =>
    if pl.numCommands = 0 then (s, -1)
    else
      let jobId := chooseJobId s.table
      let job : Job :=
        { jobId := jobId
          pgId := forkResult
          status := .RUNNING
          pipelineH := pl.handle
          capturedOutputH := none
          canceled := false }
      ({ s with table := s.table ++ [job] }, jobId)

/-- Mirrors `findJobById`: first job with a matching id. -/
def findJobById (table : List Job) (jobid : Int) : Option Job :=
  table.find? (fun j => j.jobId = jobid)

/-- Sets the `canceled` flag of the first job with the given id. -/
def setCanceledFirst : List Job → Int → List Job
  | [], _ => []
  | j :: rest, jobid =>
    if j.jobId = jobid then { j with canceled := true } :: rest
    else j :: setCanceledFirst rest jobid

/-- Mirrors `jobs_cancel`: -1 for an unknown job, a terminal job, or a job
whose `canceled` flag is already set; otherwise send SIGKILL to the
job's process group (recorded in `killedPgs`), set the flag, return 0.
The `sigaction` installation has no observable model state. -/
def jobs_cancel (s : JobsState) (jobid : Int) : JobsState × Int :=
  match findJobById s.table jobid with
  | none => (s, -1)
  | some j =>
    if (j.status ≠ .NEW ∧ j.status ≠ .RUNNING) ∨ j.canceled then (s, -1)
    else
      ({ s with
          table := setCanceledFirst s.table jobid
          killedPgs := s.killedPgs ++ [j.pgId] }, 0)

/-- Removes the first job with the given id (the unlink in `jobs_expunge`). -/
def removeFirstById : List Job → Int → List Job
  | [], _ => []
  | j :: rest, jobid =>
    if j.jobId = jobid then rest else j :: removeFirstById rest jobid

/-- Mirrors `jobs_expunge`: -1 when the job is unknown or non-terminal;
otherwise unlink it from the table and return 0.  Note that the C code
frees nothing here: neither `free_pipeline` nor `free` is called, so the
`freed` ghost list is untouched. -/
def jobs_expunge (s : JobsState) (jobid : Int) : JobsState × Int :=
  match findJobById s.table jobid with
  | none => (s, -1)
  | some j =>
    if j.status = .NEW ∨ j.status = .RUNNING then (s, -1)
    else ({ s with table := removeFirstById s.table jobid }, 0)

/-- Mirrors the job-freeing loop of `jobs_fini`: every job's pipeline and
captured-output buffer handles are passed to `free_pipeline`/`free`
(recorded in `freed`), and the table is emptied. -/
def jobs_fini (s : JobsState) : JobsState × Int :=
  ({ s with
      table := []
      freed := s.freed ++ s.table.foldr
        (fun j acc => j.pipelineH :: (match j.capturedOutputH with
          | some h => [h]
          | none => []) ++ acc) [] }, 0)

/-- Mirrors `jobs_poll`: 0 when the job is terminal, -1 otherwise. -/
def jobs_poll (s : JobsState) (jobid : Int) : Int :=
  match findJobById s.table jobid with
  | none => -1
  | some j => if j.status.terminal then 0 else -1

/-! ## Heap allocator (sfmm)

The heap is the byte range `[0, heapPages * PAGE_SZ)`.  Layout: an 8-byte
pad, the 32-byte prologue (block pointer 0), the block sequence (first
block pointer at offset 32), and the epilogue (block pointer at
`heapSize - 16`).  A block of size `s` with block pointer `addr` occupies
`[addr + 8, addr + 8 + s)`; the next block pointer is `addr + s`.

`Block` carries the header fields (payload size, block size, the three
flag bits) plus the block pointer.  Footers and the next block's
`prev_footer` are bit copies of headers used by the C code only for
physical navigation; in this embedding physical navigation is the list
order itself, so footer writes are no-ops and are noted where they occur.
The XOR with MAGIC is a bijection applied at every header read/write and
is elided.  Free-list / quick-list links stored inside free payloads are
modelled as membership in the corresponding address lists; the C guards
`links.prev/next == NULL` on entry to `insertIntoFreeList` /
`removeFromFreeList` are modelled as membership tests. -/

def ROW_SIZE : Nat := 8
def MIN_BLOCK_SIZE : Nat := 32
def BLOCK_ALIGN : Nat := 16

/-- Modelled from the spec: `sfmm.h` is not part of the sources; the spec
fixes `QUICK_LIST_MAX = 5` and page-granular growth.  `NUM_FREE_LISTS`
and `NUM_QUICK_LISTS` are only constrained to exist; the default sfmm
values are used.  None of the claims depends on their exact values. -/
def NUM_FREE_LISTS : Nat := 10

/-- Modelled from the spec: number of quick lists (see `NUM_FREE_LISTS`). -/
def NUM_QUICK_LISTS : Nat := 10

/-- Modelled from the spec: a quick list's bounded depth. -/
def QUICK_LIST_MAX : Nat := 5

/-- Modelled from the spec: page size for `sf_mem_grow`. -/
def PAGE_SZ : Nat := 4096

/-- Modelled from the spec: `sf_mem_grow` fails (OOM) once the heap has
reached a fixed capacity; the capacity value itself is irrelevant to the
claims, it only makes the allocation loop well-founded. -/
def MAX_PAGES : Nat := 1048576

/-- One past the largest `sf_size_t` (32-bit) value. -/
def U32 : Nat := 4294967296

/-- A heap block as described by its header: block pointer `addr`, block
size, payload size (upper header bits, meaningful when allocated), and
the three flag bits.  `prevAlloc` is the `PREV_BLOCK_ALLOCATED` bit. -/
structure Block where
  addr : Nat
  size : Nat
  payload : Nat
  alloc : Bool
  inQL : Bool
  prevAlloc : Bool
deriving Repr, DecidableEq

/-- Allocator state: physical block sequence (between prologue and
epilogue, in address order), the `NUM_FREE_LISTS` segregated free lists
and `NUM_QUICK_LISTS` quick lists as address stacks, the heap size in
pages, the epilogue's `PREV_BLOCK_ALLOCATED` bit, the statistic
`maxAggPayload` (the C `double` holds exact integer sums in this range,
so `Nat` is faithful), the ghost list `observations` recording the
aggregate payload at each `updateMaxAggPayload` call, and the
`sf_errno = ENOMEM` flag. -/
structure SfState where
  blocks : List Block
  freeLists : List (List Nat)
  quickLists : List (List Nat)
  heapPages : Nat
  epiloguePrevAlloc : Bool
  maxAggPayload : Nat
  observations : List Nat
  errnoENOMEM : Bool
deriving Repr, DecidableEq

/-- The empty, uninitialized heap (`sf_mem_start() == sf_mem_end()`). -/
def initialSfState : SfState :=
  { blocks := []
    freeLists := List.replicate NUM_FREE_LISTS []
    quickLists := List.replicate NUM_QUICK_LISTS []
    heapPages := 0
    epiloguePrevAlloc := false
    maxAggPayload := 0
    observations := []
    errnoENOMEM := false }

/-- List surgery: replace the element at an index (no-op out of range). -/
def modifyIdx {α : Type} : List α → Nat → (α → α) → List α
  | [], _, _ => []
  | a :: l, 0, f => f a :: l
  | a :: l, n + 1, f => a :: modifyIdx l n f

/-- The n-th address list of a free-list / quick-list array ([] out of
range). -/
def nthList : List (List Nat) → Nat → List Nat
  | [], _ => []
  | l :: _, 0 => l
  | _ :: ls, n + 1 => nthList ls n

/-- Decompose a block list at index `i` into prefix, element, suffix. -/
def splitAt3 (l : List Block) (i : Nat) : Option (List Block × Block × List Block) :=
  match l[i]? with
  | none => none
  | some b => some (l.take i, b, l.drop (i + 1))

/-- Replace the block at index `i` (no-op out of range). -/
def setIdx (l : List Block) (i : Nat) (f : Block → Block) : List Block :=
  match splitAt3 l i with
  | none => l
  | some (u, b, v) => u ++ f b :: v

/-- Mirrors pointer-to-block interpretation: the position of block
pointer `a` in the physical sequence (first match). -/
def blockIdx : List Block → Nat → Option Nat
  | [], _ => none
  | b :: l, a => if b.addr = a then some 0 else (blockIdx l a).map (· + 1)

/-- The block whose block pointer is `a`, if any. -/
def blockAtAddr (blocks : List Block) (a : Nat) : Option Block :=
  blocks.find? (fun b => b.addr = a)

/-- Mirrors `GET_B_SIZE` applied through a free-list address (reading the
header at that address). -/
def sizeAtAddr (blocks : List Block) (a : Nat) : Nat :=
  match blockAtAddr blocks a with
  | some b => b.size
  | none => 0

/-- Mirrors the loop of `bytesToFreeListIndex`; the fuel argument only
bounds the (≤ `NUM_FREE_LISTS - 1`) iterations structurally. -/
def b2fGo : Nat → Nat → Nat → Nat → Nat
  | 0, _, _, index => index
  | fuel + 1, size, binMax, index =>
    if binMax < size ∧ index < NUM_FREE_LISTS - 1 then
      b2fGo fuel size (binMax * 2) (index + 1)
    else index

/-- Mirrors `bytesToFreeListIndex`. -/
def bytesToFreeListIndex (size : Nat) : Nat :=
  b2fGo NUM_FREE_LISTS size MIN_BLOCK_SIZE 0

/-- Sum of payload sizes over allocated, non-quick-list blocks: the heap
walk of `updateMaxAggPayload`. -/
def aggPayload (blocks : List Block) : Nat :=
  blocks.foldr (fun b acc => if b.alloc && !b.inQL then b.payload + acc else acc) 0

/-- Mirrors `updateMaxAggPayload`: no-op on an empty heap; otherwise walk
the heap, and raise `maxAggPayload` to the observed aggregate if larger.
The ghost list `observations` records each observed aggregate. -/
def updateMaxAggPayload (s : SfState) : SfState :=
  if s.heapPages = 0 then s
  else
    let agg := aggPayload s.blocks
    { s with
        observations := s.observations ++ [agg]
        maxAggPayload := if s.maxAggPayload < agg then agg else s.maxAggPayload }

/-- Mirrors `removeFromFreeList`: unlink the address wherever it is
linked (the C guard on NULL links makes this a no-op for unlinked
blocks). -/
def removeFromFreeList (fls : List (List Nat)) (a : Nat) : List (List Nat) :=
  fls.map (fun l => l.filter (fun x => x ≠ a))

/-- Whether an address is linked into any free list (the C tests
`links.prev/next != NULL`). -/
def inAnyFreeList (fls : List (List Nat)) (a : Nat) : Bool :=
  fls.any (fun l => l.any (fun x => x = a))

/-- Mirrors `insertIntoFreeList`: LIFO insertion at the head of the size
class computed by `bytesToFreeListIndex`, guarded on the block not being
linked already. -/
def insertIntoFreeList (fls : List (List Nat)) (a : Nat) (size : Nat) : List (List Nat) :=
  if inAnyFreeList fls a then fls
  else modifyIdx fls (bytesToFreeListIndex size) (fun l => a :: l)

/-- Mirrors `coalesce` on the block at index `i`: a no-op on an
allocated block (the C returns NULL there); otherwise remove the block
and its free physical neighbours from the free lists, merge them (the
lowest-address participant survives, keeping its `PREV_BLOCK_ALLOCATED`
bit, with payload bits and flags cleared), and insert the survivor into
the free list for its new size.  The C's footer/`prev_footer` mirror
writes are navigation-only and have no model counterpart.  Physical
neighbours beyond the list ends are the prologue/epilogue, which are
allocated. -/
def coalesceIdx (s : SfState) (i : Nat) : SfState :=
  match splitAt3 s.blocks i with
  | none => s
  | some (u, b, v) =>
    if b.alloc then s
    else
      let fls0 := removeFromFreeList s.freeLists b.addr
      let pFree : Option Block :=
        match u.getLast? with
        | some p => if p.alloc then none else some p
        | none => none
      let nFree : Option Block :=
        match v.head? with
        | some n => if n.alloc then none else some n
        | none => none
      match pFree, nFree with
      | none, none =>
        { s with freeLists := insertIntoFreeList fls0 b.addr b.size }
      | none, some n =>
        let m : Block := ⟨b.addr, b.size + n.size, 0, false, false, b.prevAlloc⟩
        { s with
            blocks := u ++ m :: v.tail
            freeLists := insertIntoFreeList (removeFromFreeList fls0 n.addr) m.addr m.size }
      | some p, none =>
        let m : Block := ⟨p.addr, p.size + b.size, 0, false, false, p.prevAlloc⟩
        { s with
            blocks := u.dropLast ++ m :: v
            freeLists := insertIntoFreeList (removeFromFreeList fls0 p.addr) m.addr m.size }
      | some p, some n =>
        let m : Block := ⟨p.addr, p.size + b.size + n.size, 0, false, false, p.prevAlloc⟩
        { s with
            blocks := u.dropLast ++ m :: v.tail
            freeLists := insertIntoFreeList
              (removeFromFreeList (removeFromFreeList fls0 p.addr) n.addr) m.addr m.size }

/-- Mirrors `setPrevAllocd` applied to the physical successor of block
`i` (`pastBlock`/`nextBlock` in the C code); beyond the last block the
successor is the epilogue.  The footer mirror inside `setPrevAllocd` is
navigation-only. -/
def setPrevAllocdNext (s : SfState) (i : Nat) (bit : Bool) : SfState :=
  if i + 1 < s.blocks.length then
    { s with blocks := setIdx s.blocks (i + 1) (fun nb => { nb with prevAlloc := bit }) }
  else { s with epiloguePrevAlloc := bit }

/-- The effective-size computation at the top of `sf_malloc` and
`sf_realloc`, in 32-bit (`sf_size_t`) arithmetic: add the 8-byte header,
round up to a multiple of 16 (both mod 2^32), then clamp below at
`MIN_BLOCK_SIZE`. -/
def effectiveBlockSize (size : Nat) : Nat :=
  let e1 := (size + ROW_SIZE) % U32
  let e2 := (e1 + (BLOCK_ALIGN - e1 % BLOCK_ALIGN) % BLOCK_ALIGN) % U32
  if e2 < MIN_BLOCK_SIZE then MIN_BLOCK_SIZE else e2

/-- Mirrors `getQuickListBlock`: pop the head of the exact-size quick
list, if the index is in range and the list non-empty. -/
def getQuickListBlock (s : SfState) (size : Nat) : SfState × Option Nat :=
  let index := (size - MIN_BLOCK_SIZE) / BLOCK_ALIGN
  if NUM_QUICK_LISTS ≤ index then (s, none)
  else
    match nthList s.quickLists index with
    | [] => (s, none)
    | a :: rest =>
      ({ s with quickLists := modifyIdx s.quickLists index (fun _ => rest) }, some a)

/-- First-fit search of one free list: the first linked block whose
header size is at least the requested size. -/
def findFitIn (blocks : List Block) (size : Nat) (l : List Nat) : Option Nat :=
  l.find? (fun a => size ≤ sizeAtAddr blocks a)

/-- Mirrors `getFreeListBlock`: scan the size classes upward from
`bytesToFreeListIndex size`, first-fit inside each class, and unlink the
found block. -/
def getFreeListBlock (s : SfState) (size : Nat) : SfState × Option Nat :=
  match ((List.range NUM_FREE_LISTS).drop (bytesToFreeListIndex size)).findSome?
      (fun i => findFitIn s.blocks size (nthList s.freeLists i)) with
  | none => (s, none)
  | some a => ({ s with freeLists := removeFromFreeList s.freeLists a }, some a)

/-- Mirrors `splitBlock` at index `i`: the prefix becomes an allocated
block of `effSize` with the caller's payload size, the remainder becomes
a free fragment that is immediately passed to `coalesce` (which inserts
it into a free list).  The fragment header is
`remainderSize | PREV_BLOCK_ALLOCATED`. -/
def splitBlockIdx (s : SfState) (i : Nat) (payloadReq effSize remSize : Nat) : SfState :=
  match splitAt3 s.blocks i with
  | none => s
  | some (u, b, v) =>
    let b2 : Block := ⟨b.addr, effSize, payloadReq, true, false, b.prevAlloc⟩
    let frag : Block := ⟨b.addr + effSize, remSize, 0, false, false, true⟩
    let s2 := { s with
        blocks := u ++ b2 :: frag :: v
        freeLists := removeFromFreeList s.freeLists b.addr }
    coalesceIdx s2 (i + 1)

/-- Mirrors `initializeHeap`: one page, prologue, a single free block of
`PAGE_SZ - 48` bytes at block pointer 32 (inserted into its size class),
and an epilogue whose header is `THIS_BLOCK_ALLOCATED` only.  Returns -1
exactly when `sf_mem_grow` fails. -/
def initializeHeap (s : SfState) : SfState × Int :=
  if MAX_PAGES ≤ s.heapPages then (s, -1)
  else
    let blockSize := PAGE_SZ - 6 * ROW_SIZE
    let firstBlock : Block := ⟨4 * ROW_SIZE, blockSize, 0, false, false, true⟩
    let s2 := { s with
        heapPages := 1
        blocks := [firstBlock]
        epiloguePrevAlloc := false }
    ({ s2 with freeLists := insertIntoFreeList s2.freeLists firstBlock.addr blockSize }, 1)

/-- Mirrors `extendHeap`: grow by one page, convert the old epilogue into
a free block spanning the new page (keeping the epilogue's
`PREV_BLOCK_ALLOCATED` bit), write the new epilogue
(`THIS_BLOCK_ALLOCATED` only), and coalesce the new block backward. -/
def extendHeap (s : SfState) : SfState × Int :=
  if MAX_PAGES ≤ s.heapPages then (s, -1)
  else
    let oldEpilogueAddr := s.heapPages * PAGE_SZ - 2 * ROW_SIZE
    let newBlock : Block := ⟨oldEpilogueAddr, PAGE_SZ, 0, false, false, s.epiloguePrevAlloc⟩
    let idx := s.blocks.length
    let s2 := { s with
        heapPages := s.heapPages + 1
        blocks := s.blocks ++ [newBlock]
        epiloguePrevAlloc := false }
    (coalesceIdx s2 idx, 1)

/-- Result of `verifyPointer`: `abort` models `abort()`, `nullHeap`
models the NULL return on an uninitialized heap, `ok i` is the validated
block position. -/
inductive VerifyResult
  | abort
  | nullHeap
  | ok (i : Nat)
deriving Repr, DecidableEq

/-- Mirrors `verifyPointer`: abort on NULL or misaligned payload
pointers; NULL on an empty heap; abort when the block pointer is before
the first block position or within `sizeof(sf_block)` of the epilogue,
when the header size is under 32 or not 16-aligned, when the allocated
bit is clear, or when `PREV_BLOCK_ALLOCATED` is clear but the physical
predecessor's header says allocated.  A payload pointer that is not a
block boundary dereferences unmodelled bytes in C; it aborts here. -/
def verifyPointer (s : SfState) (pp : Nat) : VerifyResult :=
  if pp = 0 then .abort
  else if pp % BLOCK_ALIGN ≠ 0 then .abort
  else if s.heapPages = 0 then .nullHeap
  else
    let blockAddr := pp - 2 * ROW_SIZE
    if blockAddr < 4 * ROW_SIZE then .abort
    else if s.heapPages * PAGE_SZ - 2 * ROW_SIZE ≤ blockAddr + 4 * ROW_SIZE then .abort
    else
      match blockIdx s.blocks blockAddr with
      | none => .abort
      | some i =>
        match splitAt3 s.blocks i with
        | none => .abort
        | some (u, b, _v) =>
          if b.size < MIN_BLOCK_SIZE then .abort
          else if b.size % 16 ≠ 0 then .abort
          else if b.alloc = false then .abort
          else
            let prevActualAlloc : Bool :=
              match u.getLast? with
              | none => true
              | some p => p.alloc
            if b.prevAlloc = false ∧ prevActualAlloc = true then .abort
            else .ok i

/-- One iteration body of the quick-list flush: rewrite the header to
`blockSize | GET_PREV_ALLOCD` (free, not in quick list), mirror the
footer (no-op), and coalesce. -/
def flushOne (t : SfState) (a blockSize : Nat) : SfState :=
  match blockIdx t.blocks a with
  | none => t
  | some j =>
    let t2 := { t with
        blocks := setIdx t.blocks j
          (fun c => ⟨c.addr, blockSize, 0, false, false, c.prevAlloc⟩) }
    coalesceIdx t2 j

/-- Mirrors `insertIntoQuickList` on the block at index `i`: rewrite the
header to an allocated quick-list block, then either push (the C guard is
`length <= QUICK_LIST_MAX`, so a push still happens at depth
`QUICK_LIST_MAX`) or flush every current entry through `flushOne` and
make the new block the sole entry. -/
def insertIntoQuickListIdx (s : SfState) (i : Nat) (blockSize quickListI : Nat) : SfState :=
  match splitAt3 s.blocks i with
  | none => s
  | some (u, b, v) =>
    let b2 : Block := ⟨b.addr, blockSize, 0, true, true, b.prevAlloc⟩
    let s2 := { s with blocks := u ++ b2 :: v }
    let ql := nthList s2.quickLists quickListI
    if ql.length ≤ QUICK_LIST_MAX then
      { s2 with quickLists := modifyIdx s2.quickLists quickListI (fun l => b2.addr :: l) }
    else
      let s3 := ql.foldl (fun t a => flushOne t a blockSize) s2
      { s3 with quickLists := modifyIdx s3.quickLists quickListI (fun _ => [b2.addr]) }

/-- Mirrors `sf_free`: validate (abort is `none`), then either hand the
block to its exact-size quick list, or free it in place (clearing the
successor's `PREV_BLOCK_ALLOCATED` bit) and coalesce. -/
def sf_free (s : SfState) (pp : Nat) : Option SfState :=
  match verifyPointer s pp with
  | .abort => none
  | .nullHeap => none
  | .ok i =>
    match splitAt3 s.blocks i with
    | none => none
    | some (u, b, v) =>
      let blockSize := b.size
      let quickListI := (blockSize - MIN_BLOCK_SIZE) / BLOCK_ALIGN
      if quickListI < NUM_QUICK_LISTS then
        some (insertIntoQuickListIdx s i blockSize quickListI)
      else
        let s2 := { s with
            blocks := u ++ (⟨b.addr, blockSize, 0, false, false, b.prevAlloc⟩ : Block) :: v }
        let s3 := setPrevAllocdNext s2 i false
        some (coalesceIdx s3 i)

/-- The non-splitting allocation path of `sf_malloc`: rewrite the found
block's header to allocated with the caller's payload size, unlink it
(again — a no-op), and set the successor's `PREV_BLOCK_ALLOCATED`. -/
def allocWholeIdx (s : SfState) (i : Nat) (payloadReq : Nat) : SfState :=
  match splitAt3 s.blocks i with
  | none => s
  | some (u, b, v) =>
    let b2 : Block := ⟨b.addr, b.size, payloadReq, true, false, b.prevAlloc⟩
    let s2 := { s with
        blocks := u ++ b2 :: v
        freeLists := removeFromFreeList s.freeLists b.addr }
    setPrevAllocdNext s2 i true

/-- Allocation once `getFreeListBlock` found block pointer `a`: split if
the remainder can form a block, else consume whole; update the payload
statistic; return the payload pointer `a + 16`. -/
def allocateFound (s : SfState) (a effSize payloadReq : Nat) : SfState × Option Nat :=
  match blockIdx s.blocks a with
  | none => (s, none)
  | some i =>
    match splitAt3 s.blocks i with
    | none => (s, none)
    | some (_u, b, _v) =>
      let remainderSize := b.size - effSize
      let s2 :=
        if MIN_BLOCK_SIZE ≤ remainderSize then
          splitBlockIdx s i payloadReq effSize remainderSize
        else allocWholeIdx s i payloadReq
      (updateMaxAggPayload s2, some (a + 2 * ROW_SIZE))

/-- The search loop of `sf_malloc`: try the free lists, extend the heap
on failure (setting `ENOMEM` and returning NULL if growth fails), retry.
The fuel only bounds the loop structurally; `extendHeap` fails once
`MAX_PAGES` is reached, so fuel `MAX_PAGES + 1` is never exhausted. -/
def mallocLoop (effSize payloadReq : Nat) : Nat → SfState → SfState × Option Nat
  | 0, s => (s, none)
  | fuel + 1, s =>
    match (getFreeListBlock s effSize).2 with
    | some a => allocateFound (getFreeListBlock s effSize).1 a effSize payloadReq
    | none =>
      if (extendHeap (getFreeListBlock s effSize).1).2 < 0 then
        ({ (extendHeap (getFreeListBlock s effSize).1).1 with errnoENOMEM := true }, none)
      else mallocLoop effSize payloadReq fuel (extendHeap (getFreeListBlock s effSize).1).1

/-- The quick-list allocation path of `sf_malloc` once `getQuickListBlock`
popped block pointer `a`: rewrite the header to a normally allocated
block of the effective size with the caller's payload size, mirror the
successor's `prev_footer` (no-op) and set its `PREV_BLOCK_ALLOCATED`. -/
def mallocQuickPath (s2 : SfState) (a effectiveSize payloadReq : Nat) : SfState × Option Nat :=
  match blockIdx s2.blocks a with
  | none => (s2, none)
  | some i =>
    match splitAt3 s2.blocks i with
    | none => (s2, none)
    | some (u, b, v) =>
      let b2 : Block := ⟨b.addr, effectiveSize, payloadReq, true, false, b.prevAlloc⟩
      let s3 := { s2 with blocks := u ++ b2 :: v }
      let s4 := setPrevAllocdNext s3 i true
      (updateMaxAggPayload s4, some (a + 2 * ROW_SIZE))

/-- The body of `sf_malloc` after free-list-link and heap
initialization: compute the effective size, return NULL on rollover,
then try the quick lists and fall back to the free-list search loop. -/
def sfMallocCore (s1 : SfState) (size : Nat) : SfState × Option Nat :=
  let effectiveSize := effectiveBlockSize size
  if effectiveSize < size then (s1, none)
  else
    match (getQuickListBlock s1 effectiveSize).2 with
    | some a => mallocQuickPath (getQuickListBlock s1 effectiveSize).1 a effectiveSize size
    | none => mallocLoop effectiveSize size (MAX_PAGES + 1) (getQuickListBlock s1 effectiveSize).1

/-- Mirrors `sf_malloc`.  NULL results are `none`.  Note the C order:
the free-list links and the heap itself are initialized before the
effective size is computed, so the size-rollover path can still have
initialized the heap. -/
def sf_malloc (s : SfState) (size : Nat) : SfState × Option Nat :=
  if size = 0 then (s, none)
  else if s.heapPages = 0 then
    if (initializeHeap s).2 < 0 then
      ({ (initializeHeap s).1 with errnoENOMEM := true }, none)
    else sfMallocCore (initializeHeap s).1 size
  else sfMallocCore s size

/-- Rewrite only the payload-size field of the header at index `i` (the
realloc paths that keep the block). -/
def setPayloadIdx (s : SfState) (i : Nat) (payloadReq : Nat) : SfState :=
  { s with blocks := setIdx s.blocks i (fun b => { b with payload := payloadReq }) }

/-- Mirrors `sf_realloc`.  `none` models `abort()` (from `sf_free` /
`verifyPointer`); `some (s, none)` models a NULL return.  The growing
path is malloc + copy (`memcpy` of bytes is unmodelled) + free. -/
def sf_realloc (s : SfState) (pp rsize : Nat) : Option (SfState × Option Nat) :=
  if rsize = 0 then
    match sf_free s pp with
    | none => none
    | some s1 => some (s1, none)
  else
    match verifyPointer s pp with
    | .abort => none
    | .nullHeap => some (s, none)
    | .ok i =>
      let reffectiveSize := effectiveBlockSize rsize
      if reffectiveSize < rsize then some (s, none)
      else
        match splitAt3 s.blocks i with
        | none => some (s, none)
        | some (_u, b, _v) =>
          if b.size < reffectiveSize then
            match (sf_malloc s rsize).2 with
            | none => some ((sf_malloc s rsize).1, none)
            | some newp =>
              match sf_free (sf_malloc s rsize).1 pp with
              | none => none
              | some s2 => some (s2, some newp)
          else if reffectiveSize = b.size then
            some (setPayloadIdx s i rsize, some pp)
          else
            let remainderSize := b.size - reffectiveSize
            if remainderSize < MIN_BLOCK_SIZE then
              some (setPayloadIdx s i rsize, some pp)
            else
              some (splitBlockIdx s i rsize reffectiveSize remainderSize, some pp)

/-- Mirrors `sf_peak_utilization`: 0 on an empty heap; otherwise update
the statistic once more and return `maxAggPayload / heapSize` as an
exact rational (the C `double` is exact at these magnitudes). -/
def sf_peak_utilization (s : SfState) : SfState × ℚ :=
  if s.heapPages = 0 then (s, 0)
  else
    let s1 := updateMaxAggPayload s
    (s1, (s1.maxAggPayload : ℚ) / ((s1.heapPages * PAGE_SZ : Nat) : ℚ))

/-! ## Operation sequences over the allocator -/

/-- A public allocator call. -/
inductive SfOp
  | malloc (size : Nat)
  | free (pp : Nat)
  | realloc (pp : Nat) (rsize : Nat)
  | peakUtil
deriving Repr, DecidableEq

/-- Execute one public call; `none` means the call aborted the process
(so there is no "after the call returns" state). -/
def execOp (s : SfState) : SfOp → Option SfState
  | .malloc n => some (sf_malloc s n).1
  | .free pp => sf_free s pp
  | .realloc pp n => (sf_realloc s pp n).map (fun r => r.1)
  | .peakUtil => some (sf_peak_utilization s).1

/-- The operation respects the public contract at this state: sizes fit
in `sf_size_t`, and `free`/`realloc` receive a payload pointer of a
currently allocated, not quick-listed block (a pointer previously
returned by malloc/realloc and not freed since). -/
def validOpB (s : SfState) (op : SfOp) : Bool :=
  match op with
  | .malloc n => decide (n < U32)
  | .free pp =>
    s.blocks.any (fun b => b.addr + 2 * ROW_SIZE = pp && b.alloc && !b.inQL)
  | .realloc pp n =>
    decide (n < U32) &&
      s.blocks.any (fun b => b.addr + 2 * ROW_SIZE = pp && b.alloc && !b.inQL)
  | .peakUtil => true

/-- All calls of the sequence return (none aborts), ending at `t`. -/
def execToB (s : SfState) : List SfOp → SfState → Bool
  | [], t => decide (t = s)
  | op :: ops, t =>
    match execOp s op with
    | none => false
    | some s1 => execToB s1 ops t

/-- As `execToB`, and additionally every call respects the public
contract at the state where it is issued. -/
def execValidToB (s : SfState) : List SfOp → SfState → Bool
  | [], t => decide (t = s)
  | op :: ops, t =>
    validOpB s op &&
      match execOp s op with
      | none => false
      | some s1 => execValidToB s1 ops t

/-! ## Invariants -/

/-- A free block that is not in a quick list (quick-list blocks keep
`THIS_BLOCK_ALLOCATED` set, so on coherent states this is simply "not
allocated"). -/
def freeNonQL (b : Block) : Bool := !b.alloc && !b.inQL

/-- Total size of a block sequence. -/
def sumSizes (blocks : List Block) : Nat :=
  blocks.foldr (fun b acc => b.size + acc) 0

/-- Walking from pointer `a` by adding block sizes visits exactly the
given blocks at their block pointers and stops at `stop`. -/
def WalkTiles : Nat → List Block → Nat → Prop
  | a, [], stop => a = stop
  | a, b :: l, stop => b.addr = a ∧ WalkTiles (a + b.size) l stop

/-- Claim C1's tiling property: walking from the prologue (pointer 0,
size 32) lands on the epilogue (pointer `heapSize - 16`). -/
def BlocksTile (s : SfState) : Prop :=
  0 < s.heapPages →
    WalkTiles (4 * ROW_SIZE) s.blocks (s.heapPages * PAGE_SZ - 2 * ROW_SIZE)

/-- Claim C1's coalescing property: no two physically adjacent free,
non-quick-list blocks. -/
def NoAdjacentFreeNonQL : List Block → Prop
  | [] => True
  | [_] => True
  | a :: b :: l => ¬(freeNonQL a = true ∧ freeNonQL b = true) ∧ NoAdjacentFreeNonQL (b :: l)

/-- The stronger physical-adjacency invariant actually maintained: of two
physically adjacent blocks at least one has `THIS_BLOCK_ALLOCATED`. -/
def ChainAlloc : List Block → Prop
  | [] => True
  | [_] => True
  | a :: b :: l => (a.alloc = true ∨ b.alloc = true) ∧ ChainAlloc (b :: l)

/-- Every block size is a positive multiple of 16, at least 32. -/
def SzOk (blocks : List Block) : Prop :=
  ∀ b ∈ blocks, 16 ∣ b.size ∧ MIN_BLOCK_SIZE ≤ b.size

/-- Quick-list coherence: each linked address is the block pointer of an
allocated quick-list block of exactly the class size `32 + 16·i`. -/
def QlOk (s : SfState) : Prop :=
  ∀ i, ∀ a ∈ nthList s.quickLists i,
    ∃ b ∈ s.blocks,
      b.addr = a ∧ b.size = MIN_BLOCK_SIZE + BLOCK_ALIGN * i ∧ b.alloc = true ∧ b.inQL = true

/-- No quick list links the same address twice. -/
def QlNodup (s : SfState) : Prop :=
  ∀ i, (nthList s.quickLists i).Nodup

/-- Free-list coherence: each linked address is the block pointer of a
free, non-quick-list block. -/
def FlOk (s : SfState) : Prop :=
  ∀ l ∈ s.freeLists, ∀ a ∈ l,
    ∃ b ∈ s.blocks, b.addr = a ∧ b.alloc = false ∧ b.inQL = false

/-- An uninitialized heap has no blocks and empty lists. -/
def Pages0Empty (s : SfState) : Prop :=
  s.heapPages = 0 →
    s.blocks = [] ∧ (∀ l ∈ s.freeLists, l = []) ∧ (∀ l ∈ s.quickLists, l = [])

/-- The free-list and quick-list arrays keep their C array lengths. -/
def LensOk (s : SfState) : Prop :=
  s.freeLists.length = NUM_FREE_LISTS ∧ s.quickLists.length = NUM_QUICK_LISTS

/-- The inductive heap invariant. -/
structure Inv (s : SfState) : Prop where
  pages0 : Pages0Empty s
  walk : BlocksTile s
  chain : ChainAlloc s.blocks
  szok : SzOk s.blocks
  qlok : QlOk s
  qlnodup : QlNodup s
  flok : FlOk s
  lens : LensOk s

/-- The ghost relation for the statistics claims: `maxAggPayload` equals
the maximum observed aggregate payload (0 when nothing was observed). -/
def MaxObsOk (s : SfState) : Prop :=
  s.maxAggPayload = s.observations.foldr max 0

/-- The fields of a block header that the heap invariant reads: block
pointer, size, allocated bit, quick-list bit (`prevAlloc` and the
payload-size bits are invisible to it). -/
def blockKey (b : Block) : Nat × Nat × Bool × Bool := (b.addr, b.size, b.alloc, b.inQL)

/-- A currently allocated, non-quick-list block sits at payload pointer
`pp` (the shape of pointer `validOpB` demands for `free`/`realloc`). -/
def AllocAt (blocks : List Block) (pp : Nat) : Prop :=
  ∃ b ∈ blocks, b.addr + 2 * ROW_SIZE = pp ∧ b.alloc = true ∧ b.inQL = false

/-! ## Concrete traces used as witnesses and counterexamples -/

/-- The mathematical rounding-up to a multiple of 16 used by the spec's
effective-size formula. -/
def align16 (n : Nat) : Nat := 16 * ((n + 15) / 16)

/-- Run a sequence of calls, ignoring aborts (every demo trace below is
abort-free, as certified by `execToB`/`execValidToB` in the theorems). -/
def runOps (s : SfState) (ops : List SfOp) : SfState :=
  ops.foldl (fun t op => (execOp t op).getD t) s

/-- Six minimum-size allocations followed by six frees: the quick-list
depth scenario of claim C2. -/
def qlDemoOps : List SfOp :=
  [.malloc 16, .malloc 16, .malloc 16, .malloc 16, .malloc 16, .malloc 16,
   .free 48, .free 80, .free 112, .free 144, .free 176, .free 208]

/-- The state after `qlDemoOps`. -/
def qlDemoState : SfState := runOps initialSfState qlDemoOps

/-- State after one 3000-byte allocation (heap: one page). -/
def peakDemoS1 : SfState := runOps initialSfState [SfOp.malloc 3000]

/-- State after the allocation and one `sf_peak_utilization` call. -/
def peakDemoS1b : SfState := runOps initialSfState [SfOp.malloc 3000, SfOp.peakUtil]

/-- A trace whose later `sf_peak_utilization` call returns less than the
earlier one: allocate 3000 (peak 3000/4096), observe the peak, free, then
allocate 5000, which grows the heap to two pages (peak 5000/8192). -/
def peakDemoOps : List SfOp :=
  [.malloc 3000, .peakUtil, .free 48, .malloc 5000]

/-- The state after `peakDemoOps`. -/
def peakDemoS2 : SfState := runOps initialSfState peakDemoOps

/-- A small abort-free demo trace for the heap invariant. -/
def c1DemoOps : List SfOp := [.malloc 16, .free 48]

/-- The state after `c1DemoOps`. -/
def c1DemoState : SfState := runOps initialSfState c1DemoOps

/-- The state after the first call of `c1DemoOps`. -/
def c1DemoMid : SfState := runOps initialSfState [SfOp.malloc 16]

/-- A jobs state holding a single completed job with id 0. -/
def oneJob : Job :=
  { jobId := 0, pgId := 100, status := .COMPLETED, pipelineH := 1
    capturedOutputH := none, canceled := false }

/-- Jobs state containing only `oneJob`. -/
def oneJobState : JobsState := { table := [oneJob], freed := [], killedPgs := [] }

/-- The empty jobs state. -/
def emptyJobsState : JobsState := { table := [], freed := [], killedPgs := [] }

/-- A one-command pipeline without capture, resource handle 7. -/
def demoPipeline : Pipeline := { handle := 7, numCommands := 1, captureOutput := false }

/-- A command-less pipeline (`commands == NULL`). -/
def emptyPipeline : Pipeline := { handle := 8, numCommands := 0, captureOutput := false }

/-- A completed job owning pipeline handle 7 and captured-output buffer
handle 9. -/
def expungeDemoJob : Job :=
  { jobId := 0, pgId := 100, status := .COMPLETED, pipelineH := 7
    capturedOutputH := some 9, canceled := false }

/-- Jobs state containing only `expungeDemoJob`. -/
def expungeDemoState : JobsState :=
  { table := [expungeDemoJob], freed := [], killedPgs := [] }

/-- A key/value store binding variable `x` to the lone-minus string. -/
def dashStore : KVStore := [(['x'], ['-'])]

/-! ## Theorems: data store -/

/-- The digit loop succeeds exactly on all-digit strings (including the
empty one). -/
theorem storeIntLoop_isSome (cs : List Char) (b : Int) :
    (storeIntLoop cs b).isSome = cs.all (fun c => decide ('0' ≤ c) && decide (c ≤ '9')) := by
  induction cs generalizing b with
  | nil => rfl
  | cons c cs ih =>
    rw [List.all_cons]
    by_cases h : c < '0' ∨ c > '9'
    · have hfalse : (decide ('0' ≤ c) && decide (c ≤ '9')) = false := by
        rcases h with h | h
        · simp [not_le.mpr h]
        · simp [not_le.mpr h]
      rw [hfalse]
      simp [storeIntLoop, h]
    · push_neg at h
      have hcond : ¬(c < '0' ∨ c > '9') := by
        push_neg
        exact h
      have htrue : (decide ('0' ≤ c) && decide (c ≤ '9')) = true := by
        simp [h.1, h.2]
      rw [htrue]
      simp [storeIntLoop, hcond, ih]

/-- The value-parsing part of `store_get_int` succeeds exactly on an
optional minus sign followed by zero or more digits. -/
theorem storeParseInt_isSome (val : List Char) :
    (storeParseInt val).isSome = codeIntPattern val := by
  cases val with
  | nil => rfl
  | cons c rest =>
    by_cases hc : c = '-'
    · subst hc
      simp [storeParseInt, codeIntPattern, storeIntLoop_isSome]
    · simp [storeParseInt, codeIntPattern, hc, storeIntLoop_isSome]

/-- Claim C9 (corrected): concrete counterexample.  With variable `x`
bound to the string consisting of a lone minus sign, `store_get_int`
succeeds and yields 0, although the lone minus sign does not match the
claimed pattern (optional minus, then one or more digits). -/
theorem store_get_int_dash_counterexample :
    store_get_int dashStore ['x'] = some 0 ∧ specIntPattern ['-'] = false := by
  constructor <;> rfl

/-- Claim C9 (amended): `store_get_int` succeeds exactly when the stored
value consists of an optional leading minus sign followed by zero or
more decimal digits — so the empty string and the lone minus sign are
accepted (yielding 0), and any string containing another character is
rejected with -1. -/
theorem store_get_int_accepts_digit_star (store : KVStore) (var : List Char) :
    store_get_int store var ≠ none ↔
      ∃ val, store_get_string store var = some val ∧ codeIntPattern val = true := by
  cases hs : store_get_string store var with
  | none => simp [store_get_int, hs]
  | some val =>
    simp only [store_get_int, hs, Option.ne_none_iff_isSome, storeParseInt_isSome,
      Option.some.injEq]
    constructor
    · intro h
      exact ⟨val, rfl, h⟩
    · rintro ⟨val2, hv, h⟩
      cases hv
      exact h

/-! ## Theorems: jobs module -/

/-- Claim C5 (code bug): with a job table holding exactly the one job of
id 0, `jobs_run` assigns the fresh job id 0 — a duplicate of the
existing id — whereas the documented assignment (`max existing + 1`)
yields 1.  The id loop stops at the node that has no successor, so
`lastJID` stays at its -2 seed for tables of length 1. -/
theorem jobs_run_assigns_duplicate_id :
    (jobs_run oneJobState (some demoPipeline) 101).2 = 0 ∧
    specNextJobId oneJobState.table = 1 ∧
    findJobById oneJobState.table 0 = some oneJob := by
  refine ⟨rfl, rfl, rfl⟩

/-- Claim C6 (code bug): when `fork` fails (returns -1), `jobs_run` takes
the `pid != 0` parent branch anyway: it inserts a RUNNING job whose
process group is -1 and returns the fresh job id instead of -1.  The
empty-pipeline cases do return -1 as claimed. -/
theorem jobs_run_fork_failure_behavior :
    (jobs_run emptyJobsState (some demoPipeline) (-1)).2 = 0 ∧
    (jobs_run emptyJobsState (some demoPipeline) (-1)).1.table =
      [{ jobId := 0, pgId := -1, status := .RUNNING, pipelineH := 7
         capturedOutputH := none, canceled := false }] ∧
    (jobs_run emptyJobsState none 101).2 = -1 ∧
    (jobs_run emptyJobsState (some emptyPipeline) 101).2 = -1 := by
  refine ⟨rfl, rfl, rfl, rfl⟩

/-- Claim C7 (confirmed): `jobs_cancel` returns 0 exactly when the job
exists, is non-terminal, and carries no previous successful cancel
request; on success it sends SIGKILL to the job's process group and sets
the one-shot flag; on every failure (unknown id, terminal job, repeated
cancel) it returns -1 and leaves the state untouched. -/
theorem jobs_cancel_one_shot (s : JobsState) (jobid : Int) :
    ((jobs_cancel s jobid).2 = 0 ↔
      ∃ j, findJobById s.table jobid = some j ∧
        j.status.terminal = false ∧ j.canceled = false) ∧
    (∀ j, findJobById s.table jobid = some j → (jobs_cancel s jobid).2 = 0 →
      (jobs_cancel s jobid).1.table = setCanceledFirst s.table jobid ∧
      (jobs_cancel s jobid).1.killedPgs = s.killedPgs ++ [j.pgId]) ∧
    ((jobs_cancel s jobid).2 ≠ 0 → (jobs_cancel s jobid).1 = s) := by
  cases hf : findJobById s.table jobid with
  | none =>
    have hres : jobs_cancel s jobid = (s, -1) := by
      simp [jobs_cancel, hf]
    refine ⟨?_, ?_, ?_⟩
    · constructor
      · intro h
        rw [hres] at h
        norm_num at h
      · rintro ⟨j, hj, -, -⟩
        exact Option.noConfusion hj
    · intro j hj
      exact Option.noConfusion hj
    · intro _
      rw [hres]
  | some j =>
    have hterm : (j.status.terminal = false) ↔ (j.status = .NEW ∨ j.status = .RUNNING) := by
      cases j.status <;> simp [JobStatus.terminal]
    by_cases hcond : (j.status ≠ .NEW ∧ j.status ≠ .RUNNING) ∨ j.canceled = true
    · have hres : jobs_cancel s jobid = (s, -1) := by
        simp [jobs_cancel, hf, hcond]
      refine ⟨?_, ?_, ?_⟩
      · constructor
        · intro h
          rw [hres] at h
          norm_num at h
        · rintro ⟨j2, hj2, ht2, hc2⟩
          injection hj2 with hj2
          subst hj2
          exfalso
          rcases hcond with ⟨h1, h2⟩ | h3
          · rcases hterm.mp ht2 with h | h
            · exact h1 h
            · exact h2 h
          · rw [hc2] at h3
            exact Bool.noConfusion h3
      · intro j2 hj2 h0
        rw [hres] at h0
        norm_num at h0
      · intro _
        rw [hres]
    · have hres : jobs_cancel s jobid =
          ({ s with
              table := setCanceledFirst s.table jobid
              killedPgs := s.killedPgs ++ [j.pgId] }, 0) := by
        simp [jobs_cancel, hf, hcond]
      refine ⟨?_, ?_, ?_⟩
      · constructor
        · intro _
          have hnc : j.canceled = false := by
            rcases Bool.eq_false_or_eq_true j.canceled with h | h
            · exact absurd (Or.inr h) hcond
            · exact h
          have hnt : j.status.terminal = false := by
            rw [hterm]
            by_cases hN : j.status = .NEW
            · exact Or.inl hN
            · by_cases hR : j.status = .RUNNING
              · exact Or.inr hR
              · exact absurd (Or.inl ⟨hN, hR⟩) hcond
          exact ⟨j, rfl, hnt, hnc⟩
        · intro _
          rw [hres]
      · intro j2 hj2 h0
        injection hj2 with hj2
        subst hj2
        rw [hres]
        exact ⟨rfl, rfl⟩
      · intro h0
        rw [hres] at h0
        exact absurd rfl h0

/-- Claim C8 (code bug): expunging a terminal job unlinks it (the id is
no longer observable) and returns 0, but frees none of its resources:
the `freed` ghost list stays empty, although the same job's resources
are freed by `jobs_fini` (handles 7 and 9), showing that freeing is
observable in this model.  Expunging also leaves the table unchanged and
returns -1 for unknown jobs. -/
theorem jobs_expunge_leaks_resources :
    (jobs_expunge expungeDemoState 0).2 = 0 ∧
    (jobs_expunge expungeDemoState 0).1.table = [] ∧
    findJobById (jobs_expunge expungeDemoState 0).1.table 0 = none ∧
    (jobs_expunge expungeDemoState 0).1.freed = [] ∧
    (jobs_fini expungeDemoState).1.freed = [7, 9] ∧
    (jobs_expunge expungeDemoState 5).2 = -1 ∧
    (jobs_expunge expungeDemoState 5).1 = expungeDemoState := by
  refine ⟨rfl, rfl, rfl, rfl, rfl, rfl, rfl⟩

/-! ## Theorems: quick-list depth (claim C2) -/

/-- Claim C2 (code bug): after six consecutive frees of size-32 blocks
into an initially empty quick list 0, that quick list holds six blocks,
not one: the push guard is `length <= QUICK_LIST_MAX`, so the sixth free
is pushed at depth `QUICK_LIST_MAX = 5` and the flush would only fire on
the seventh.  The trace allocates six minimum-size blocks and frees all
six; every call returns (no abort) and respects the public contract. -/
theorem quick_list_holds_six_after_six_frees :
    execValidToB initialSfState qlDemoOps qlDemoState = true ∧
    nthList qlDemoState.quickLists 0 = [192, 160, 128, 96, 64, 32] ∧
    QUICK_LIST_MAX = 5 := by
  refine ⟨by decide, by decide, rfl⟩

/-! ## Theorems: effective size and the rollover path (claim C4) -/

/-- When the mathematically aligned size reaches 2^32, the 32-bit
computation wraps and the code's rollover test fires. -/
theorem effectiveBlockSize_rollover (size : Nat) (h1 : size < U32)
    (h2 : U32 ≤ align16 (size + ROW_SIZE)) : effectiveBlockSize size < size := by
  simp only [effectiveBlockSize, align16, U32, ROW_SIZE, BLOCK_ALIGN, MIN_BLOCK_SIZE] at *
  split <;> omega

/-- Without wrap-around the code's effective size is exactly
`max(32, align16(size + 8))`. -/
theorem effectiveBlockSize_eq_align (size : Nat)
    (h2 : align16 (size + ROW_SIZE) < U32) :
    effectiveBlockSize size = max MIN_BLOCK_SIZE (align16 (size + ROW_SIZE)) := by
  rw [max_def]
  simp only [effectiveBlockSize, align16, U32, ROW_SIZE, BLOCK_ALIGN, MIN_BLOCK_SIZE] at *
  split <;> split <;> omega

/-- Once the rollover test fires, `sf_malloc` returns NULL (whatever the
heap looked like). -/
theorem sf_malloc_none_of_rollover (s : SfState) (size : Nat) (h0 : size ≠ 0)
    (h : effectiveBlockSize size < size) : (sf_malloc s size).2 = none := by
  have hcore : ∀ t : SfState, (sfMallocCore t size).2 = none := by
    intro t
    simp only [sfMallocCore]
    rw [if_pos h]
  unfold sf_malloc
  rw [if_neg h0]
  by_cases hp : s.heapPages = 0
  · rw [if_pos hp]
    by_cases hi : (initializeHeap s).2 < 0
    · rw [if_pos hi]
    · rw [if_neg hi, hcore]
  · rw [if_neg hp, hcore]

/-- Claim C4 (corrected): concrete counterexample to the claim's
"without modifying any allocator state in the rollover case".  Calling
`sf_malloc` with size `2^32 - 1` on the fresh heap returns NULL through
the rollover test, but the heap has been initialized first (one page,
free lists populated), so the state is modified. -/
theorem sf_malloc_rollover_modifies_state :
    (sf_malloc initialSfState 4294967295).2 = none ∧
    initialSfState.heapPages = 0 ∧
    (sf_malloc initialSfState 4294967295).1.heapPages = 1 ∧
    (sf_malloc initialSfState 4294967295).1 ≠ initialSfState := by
  refine ⟨by decide, rfl, by decide, by decide⟩

/-- Claim C4 (amended): for every request, `sf_malloc` returns NULL when
`size == 0` and when the effective-size computation wraps (in which case
the heap may nevertheless have just been initialized), and in the
non-wrapping case the effective size it uses is exactly
`max(32, align16(size + 8))`. -/
theorem sf_malloc_effective_size_and_null (s : SfState) (size : Nat) (h : size < U32) :
    (size = 0 → (sf_malloc s size).2 = none) ∧
    (U32 ≤ align16 (size + ROW_SIZE) → (sf_malloc s size).2 = none) ∧
    (align16 (size + ROW_SIZE) < U32 →
      effectiveBlockSize size = max MIN_BLOCK_SIZE (align16 (size + ROW_SIZE))) := by
  refine ⟨?_, ?_, ?_⟩
  · intro h0
    subst h0
    rfl
  · intro h2
    have h0 : size ≠ 0 := by
      simp only [align16, U32, ROW_SIZE] at h2
      omega
    exact sf_malloc_none_of_rollover s size h0 (effectiveBlockSize_rollover size h h2)
  · exact effectiveBlockSize_eq_align size

/-- Witness for the claim C4 theorem at the concrete size 16. -/
theorem sf_malloc_effective_size_and_null_witness :
    ((16 : Nat) = 0 → (sf_malloc initialSfState 16).2 = none) ∧
    (U32 ≤ align16 (16 + ROW_SIZE) → (sf_malloc initialSfState 16).2 = none) ∧
    (align16 (16 + ROW_SIZE) < U32 →
      effectiveBlockSize 16 = max MIN_BLOCK_SIZE (align16 (16 + ROW_SIZE))) :=
  sf_malloc_effective_size_and_null initialSfState 16 (by decide)

/-! ## Theorems: the peak-payload statistic (claims C10 and C3)

`GhostStep s t` abstracts what every allocator step does to the
statistic: `maxAggPayload` never decreases, and the relation "it equals
the maximum recorded observation" is preserved. -/

/-- One allocator step's effect on the statistic. -/
def GhostStep (s t : SfState) : Prop :=
  s.maxAggPayload ≤ t.maxAggPayload ∧ (MaxObsOk s → MaxObsOk t)

/-- A step that does not touch the statistic fields is a `GhostStep`. -/
theorem ghostStep_of_untouched {s t : SfState}
    (h1 : t.maxAggPayload = s.maxAggPayload) (h2 : t.observations = s.observations) :
    GhostStep s t := by
  constructor
  · exact le_of_eq h1.symm
  · intro h
    unfold MaxObsOk at *
    rw [h1, h2]
    exact h

/-- Reflexivity of `GhostStep`. -/
theorem ghostStep_rfl (s : SfState) : GhostStep s s :=
  ghostStep_of_untouched rfl rfl

/-- Transitivity of `GhostStep`. -/
theorem ghostStep_trans {s t u : SfState} (h1 : GhostStep s t) (h2 : GhostStep t u) :
    GhostStep s u :=
  ⟨le_trans h1.1 h2.1, fun h => h2.2 (h1.2 h)⟩

/-- Appending one observation folds into a binary max. -/
theorem foldr_max_append (l : List Nat) (a : Nat) :
    (l ++ [a]).foldr max 0 = max (l.foldr max 0) a := by
  induction l with
  | nil => simp
  | cons x l ih =>
    simp only [List.cons_append, List.foldr_cons, ih]
    omega

/-- `updateMaxAggPayload` is a `GhostStep`. -/
theorem ghostStep_update (s : SfState) : GhostStep s (updateMaxAggPayload s) := by
  unfold updateMaxAggPayload
  by_cases h : s.heapPages = 0
  · rw [if_pos h]
    exact ghostStep_rfl s
  · rw [if_neg h]
    constructor
    · dsimp only
      split <;> omega
    · intro hobs
      unfold MaxObsOk at *
      dsimp only
      rw [foldr_max_append, ← hobs]
      split <;> omega

/-- `updateMaxAggPayload` does not change the heap size. -/
theorem updateMaxAggPayload_heapPages (s : SfState) :
    (updateMaxAggPayload s).heapPages = s.heapPages := by
  unfold updateMaxAggPayload
  split <;> rfl

/-- Change-of-source for `GhostStep`: the relation only inspects the
statistic fields, so a step from any state with the same statistic
fields is a step from `s`. -/
theorem ghostStep_via {t u s : SfState} (h : GhostStep t u)
    (h1 : s.maxAggPayload = t.maxAggPayload) (h2 : s.observations = t.observations) :
    GhostStep s u := by
  constructor
  · rw [h1]
    exact h.1
  · intro m
    apply h.2
    unfold MaxObsOk at *
    rw [← h1, ← h2]
    exact m

/-- `coalesce` never touches the statistic. -/
theorem ghostStep_coalesceIdx (s : SfState) (i : Nat) : GhostStep s (coalesceIdx s i) := by
  unfold coalesceIdx
  repeat' split
  all_goals exact ghostStep_rfl s

/-- `setPrevAllocd` on the successor never touches the statistic. -/
theorem ghostStep_setPrevAllocdNext (s : SfState) (i : Nat) (bit : Bool) :
    GhostStep s (setPrevAllocdNext s i bit) := by
  unfold setPrevAllocdNext
  split <;> exact ghostStep_rfl s

/-- `splitBlock` never touches the statistic. -/
theorem ghostStep_splitBlockIdx (s : SfState) (i payloadReq effSize remSize : Nat) :
    GhostStep s (splitBlockIdx s i payloadReq effSize remSize) := by
  unfold splitBlockIdx
  split
  · exact ghostStep_rfl s
  · dsimp only
    exact ghostStep_via (ghostStep_coalesceIdx _ _) rfl rfl

/-- `initializeHeap` never touches the statistic. -/
theorem ghostStep_initializeHeap (s : SfState) : GhostStep s (initializeHeap s).1 := by
  unfold initializeHeap
  by_cases h : MAX_PAGES ≤ s.heapPages
  · rw [if_pos h]
    exact ghostStep_rfl s
  · rw [if_neg h]
    exact ghostStep_rfl s

/-- `extendHeap` never touches the statistic. -/
theorem ghostStep_extendHeap (s : SfState) : GhostStep s (extendHeap s).1 := by
  unfold extendHeap
  by_cases h : MAX_PAGES ≤ s.heapPages
  · rw [if_pos h]
    exact ghostStep_rfl s
  · rw [if_neg h]
    dsimp only
    exact ghostStep_via (ghostStep_coalesceIdx _ _) rfl rfl

/-- `getQuickListBlock` never touches the statistic. -/
theorem ghostStep_getQuickListBlock (s : SfState) (size : Nat) :
    GhostStep s (getQuickListBlock s size).1 := by
  unfold getQuickListBlock
  dsimp only
  repeat' split
  all_goals exact ghostStep_rfl s

/-- `getFreeListBlock` never touches the statistic. -/
theorem ghostStep_getFreeListBlock (s : SfState) (size : Nat) :
    GhostStep s (getFreeListBlock s size).1 := by
  unfold getFreeListBlock
  split <;> exact ghostStep_rfl s

/-- The whole-block allocation path never touches the statistic. -/
theorem ghostStep_allocWholeIdx (s : SfState) (i payloadReq : Nat) :
    GhostStep s (allocWholeIdx s i payloadReq) := by
  unfold allocWholeIdx
  split
  · exact ghostStep_rfl s
  · dsimp only
    exact ghostStep_via (ghostStep_setPrevAllocdNext _ _ _) rfl rfl

/-- `allocateFound` performs one statistic update. -/
theorem ghostStep_allocateFound (s : SfState) (a effSize payloadReq : Nat) :
    GhostStep s (allocateFound s a effSize payloadReq).1 := by
  unfold allocateFound
  split
  · exact ghostStep_rfl s
  · split
    · exact ghostStep_rfl s
    · dsimp only
      split
      · exact ghostStep_trans (ghostStep_splitBlockIdx _ _ _ _ _) (ghostStep_update _)
      · exact ghostStep_trans (ghostStep_allocWholeIdx _ _ _) (ghostStep_update _)

/-- The malloc search loop only updates the statistic monotonically. -/
theorem ghostStep_mallocLoop (effSize payloadReq fuel : Nat) (s : SfState) :
    GhostStep s (mallocLoop effSize payloadReq fuel s).1 := by
  induction fuel generalizing s with
  | zero => exact ghostStep_rfl s
  | succ fuel ih =>
    unfold mallocLoop
    split
    · exact ghostStep_trans (ghostStep_getFreeListBlock _ _) (ghostStep_allocateFound _ _ _ _)
    · split
      · exact ghostStep_trans (ghostStep_getFreeListBlock _ _) (ghostStep_extendHeap _)
      · exact ghostStep_trans (ghostStep_getFreeListBlock _ _)
          (ghostStep_trans (ghostStep_extendHeap _) (ih _))

/-- The quick-list allocation path performs one statistic update. -/
theorem ghostStep_mallocQuickPath (s : SfState) (a effSize payloadReq : Nat) :
    GhostStep s (mallocQuickPath s a effSize payloadReq).1 := by
  unfold mallocQuickPath
  split
  · exact ghostStep_rfl s
  · split
    · exact ghostStep_rfl s
    · dsimp only
      refine ghostStep_trans ?_ (ghostStep_update _)
      exact ghostStep_via (ghostStep_setPrevAllocdNext _ _ _) rfl rfl

/-- The body of `sf_malloc` only updates the statistic monotonically. -/
theorem ghostStep_sfMallocCore (s : SfState) (size : Nat) :
    GhostStep s (sfMallocCore s size).1 := by
  unfold sfMallocCore
  dsimp only
  split
  · exact ghostStep_rfl s
  · split
    · exact ghostStep_trans (ghostStep_getQuickListBlock _ _) (ghostStep_mallocQuickPath _ _ _ _)
    · exact ghostStep_trans (ghostStep_getQuickListBlock _ _) (ghostStep_mallocLoop _ _ _ _)

/-- `sf_malloc` only updates the statistic monotonically. -/
theorem ghostStep_sf_malloc (s : SfState) (size : Nat) :
    GhostStep s (sf_malloc s size).1 := by
  unfold sf_malloc
  split
  · exact ghostStep_rfl s
  · split
    · split
      · exact ghostStep_initializeHeap _
      · exact ghostStep_trans (ghostStep_initializeHeap _) (ghostStep_sfMallocCore _ _)
    · exact ghostStep_sfMallocCore _ _

/-- One flush iteration never touches the statistic. -/
theorem ghostStep_flushOne (t : SfState) (a blockSize : Nat) :
    GhostStep t (flushOne t a blockSize) := by
  unfold flushOne
  split
  · exact ghostStep_rfl t
  · dsimp only
    exact ghostStep_via (ghostStep_coalesceIdx _ _) rfl rfl

/-- Folding `GhostStep`-respecting steps over a list is a `GhostStep`. -/
theorem ghostStep_foldl (f : SfState → Nat → SfState)
    (hf : ∀ t a, GhostStep t (f t a)) :
    ∀ (l : List Nat) (s : SfState), GhostStep s (l.foldl f s) := by
  intro l
  induction l with
  | nil => exact fun s => ghostStep_rfl s
  | cons a l ih =>
    intro s
    exact ghostStep_trans (hf s a) (ih (f s a))

/-- `insertIntoQuickList` never touches the statistic. -/
theorem ghostStep_insertIntoQuickListIdx (s : SfState) (i blockSize quickListI : Nat) :
    GhostStep s (insertIntoQuickListIdx s i blockSize quickListI) := by
  unfold insertIntoQuickListIdx
  dsimp only
  repeat' split
  all_goals first
    | exact ghostStep_rfl s
    | exact ghostStep_via (ghostStep_foldl _ (fun t a => ghostStep_flushOne t a _) _ _) rfl rfl

/-- `sf_free` never touches the statistic. -/
theorem ghostStep_sf_free (s : SfState) (pp : Nat) :
    ∀ t, sf_free s pp = some t → GhostStep s t := by
  intro t ht
  unfold sf_free at ht
  dsimp only at ht
  repeat' split at ht
  all_goals try exact Option.noConfusion ht
  all_goals injection ht with ht
  all_goals subst ht
  all_goals first
    | exact ghostStep_insertIntoQuickListIdx _ _ _ _
    | (refine ghostStep_trans ?_ (ghostStep_via (ghostStep_coalesceIdx _ _) rfl rfl)
       exact ghostStep_via (ghostStep_setPrevAllocdNext _ _ _) rfl rfl)

/-- The payload-rewrite path of realloc never touches the statistic. -/
theorem ghostStep_setPayloadIdx (s : SfState) (i payloadReq : Nat) :
    GhostStep s (setPayloadIdx s i payloadReq) :=
  ghostStep_rfl s

/-- `sf_realloc` only updates the statistic monotonically. -/
theorem ghostStep_sf_realloc (s : SfState) (pp rsize : Nat) :
    ∀ r, sf_realloc s pp rsize = some r → GhostStep s r.1 := by
  intro r hr
  unfold sf_realloc at hr
  dsimp only at hr
  repeat' split at hr
  all_goals try exact Option.noConfusion hr
  all_goals injection hr with hr
  all_goals subst hr
  all_goals dsimp only
  all_goals first
    | exact ghostStep_rfl s
    | exact ghostStep_sf_free s pp _ (by assumption)
    | exact ghostStep_sf_malloc s rsize
    | exact ghostStep_trans (ghostStep_sf_malloc s rsize)
        (ghostStep_sf_free _ pp _ (by assumption))
    | exact ghostStep_setPayloadIdx _ _ _
    | exact ghostStep_splitBlockIdx _ _ _ _ _

/-- `sf_peak_utilization` performs one statistic update. -/
theorem ghostStep_sf_peak_utilization (s : SfState) :
    GhostStep s (sf_peak_utilization s).1 := by
  unfold sf_peak_utilization
  split
  · exact ghostStep_rfl s
  · exact ghostStep_update s

/-- Every public call that returns is a `GhostStep`. -/
theorem ghostStep_execOp (s : SfState) (op : SfOp) :
    ∀ t, execOp s op = some t → GhostStep s t := by
  intro t ht
  cases op with
  | malloc n =>
    injection ht with ht
    subst ht
    exact ghostStep_sf_malloc s n
  | free pp => exact ghostStep_sf_free s pp t ht
  | realloc pp n =>
    have ht2 : (sf_realloc s pp n).map (fun q => q.1) = some t := ht
    rcases Option.map_eq_some'.mp ht2 with ⟨q, hq, hqt⟩
    subst hqt
    exact ghostStep_sf_realloc s pp n q hq
  | peakUtil =>
    injection ht with ht
    subst ht
    exact ghostStep_sf_peak_utilization s

/-- Any abort-free call sequence is a `GhostStep`. -/
theorem ghostStep_execToB :
    ∀ (ops : List SfOp) (s t : SfState), execToB s ops t = true → GhostStep s t := by
  intro ops
  induction ops with
  | nil =>
    intro s t h
    have h2 : t = s := of_decide_eq_true h
    subst h2
    exact ghostStep_rfl t
  | cons op ops ih =>
    intro s t h
    unfold execToB at h
    cases hop : execOp s op with
    | none =>
      rw [hop] at h
      exact Bool.noConfusion h
    | some s1 =>
      rw [hop] at h
      exact ghostStep_trans (ghostStep_execOp s op s1 hop) (ih s1 t h)

/-- The initial statistic is the maximum of no observations. -/
theorem maxObsOk_initial : MaxObsOk initialSfState := rfl

/-- At every state reached from the fresh heap, `maxAggPayload` is the
maximum recorded observation. -/
theorem maxObsOk_reached (ops : List SfOp) (t : SfState)
    (h : execToB initialSfState ops t = true) : MaxObsOk t :=
  (ghostStep_execToB ops initialSfState t h).2 maxObsOk_initial

/-- Claim C10 (confirmed): the recorded peak statistic `maxAggPayload`
never decreases across any public call (`sf_malloc`, `sf_free`,
`sf_realloc`, `sf_peak_utilization`), and at every reachable state it
equals the maximum, over all observation points so far (the
`updateMaxAggPayload` calls, recorded in the ghost list
`observations`), of the aggregate payload of allocated non-quick-list
blocks, with 0 for no observations. -/
theorem maxAggPayload_monotone_and_peak_of_observations
    (ops1 : List SfOp) (t : SfState) (ops2 : List SfOp) (t2 : SfState)
    (h1 : execToB initialSfState ops1 t = true) (h2 : execToB t ops2 t2 = true) :
    t.maxAggPayload ≤ t2.maxAggPayload ∧
    t.maxAggPayload = t.observations.foldr max 0 :=
  ⟨(ghostStep_execToB ops2 t t2 h2).1, maxObsOk_reached ops1 t h1⟩

/-- Witness for the claim C10 theorem on a concrete two-call trace. -/
theorem maxAggPayload_monotone_witness :
    c1DemoMid.maxAggPayload ≤ c1DemoState.maxAggPayload ∧
    c1DemoMid.maxAggPayload = c1DemoMid.observations.foldr max 0 :=
  maxAggPayload_monotone_and_peak_of_observations
    [SfOp.malloc 16] c1DemoMid [SfOp.free 48] c1DemoState (by decide) (by decide)

/-! ## Theorems: peak utilization (claim C3) -/

/-- The value returned by `sf_peak_utilization` on a non-empty heap. -/
theorem sf_peak_utilization_val (s : SfState) (h : ¬s.heapPages = 0) :
    (sf_peak_utilization s).2 =
      ((updateMaxAggPayload s).maxAggPayload : ℚ) /
        (((updateMaxAggPayload s).heapPages * PAGE_SZ : Nat) : ℚ) := by
  unfold sf_peak_utilization
  rw [if_neg h]

/-- The value returned by `sf_peak_utilization` on an empty heap. -/
theorem sf_peak_utilization_val0 (s : SfState) (h : s.heapPages = 0) :
    (sf_peak_utilization s).2 = 0 := by
  unfold sf_peak_utilization
  rw [if_pos h]

/-- The state returned by `sf_peak_utilization` on a non-empty heap. -/
theorem sf_peak_utilization_fst (s : SfState) (h : ¬s.heapPages = 0) :
    (sf_peak_utilization s).1 = updateMaxAggPayload s := by
  unfold sf_peak_utilization
  rw [if_neg h]

/-- Claim C3 (corrected): concrete counterexample to "the value returned
by `sf_peak_utilization` is non-decreasing over the lifetime of the
heap".  Along the valid call sequence malloc 3000, peak, free, malloc
5000 the second allocation grows the heap to two pages; the earlier peak
call returns 3000/4096 while a later one returns 5000/8192, which is
smaller. -/
theorem peak_utilization_decreases_on_growth :
    execValidToB initialSfState peakDemoOps peakDemoS2 = true ∧
    (sf_peak_utilization peakDemoS2).2 < (sf_peak_utilization peakDemoS1).2 := by
  refine ⟨by decide, ?_⟩
  rw [sf_peak_utilization_val peakDemoS1 (by decide),
    sf_peak_utilization_val peakDemoS2 (by decide)]
  rw [show (updateMaxAggPayload peakDemoS1).maxAggPayload = 3000 from by decide]
  rw [show (updateMaxAggPayload peakDemoS1).heapPages = 1 from by decide]
  rw [show (updateMaxAggPayload peakDemoS2).maxAggPayload = 5000 from by decide]
  rw [show (updateMaxAggPayload peakDemoS2).heapPages = 2 from by decide]
  norm_num [PAGE_SZ]

/-- Claim C3 (amended): the value returned by `sf_peak_utilization` is
the peak recorded aggregate payload (the maximum over all observation
points, including this call's own observation) divided by the current
heap size, or 0 on an empty heap; and it is non-decreasing from one call
to a later call provided the heap size did not change in between.  (The
concrete counterexample shows it can decrease when the heap grows.) -/
theorem peak_utilization_value_and_monotone_without_growth
    (ops1 : List SfOp) (s : SfState) (ops2 : List SfOp) (t : SfState)
    (h1 : execToB initialSfState ops1 s = true)
    (h2 : execToB s (SfOp.peakUtil :: ops2) t = true)
    (hp : t.heapPages = s.heapPages) :
    (sf_peak_utilization s).2 ≤ (sf_peak_utilization t).2 ∧
    (sf_peak_utilization s).2 = (if s.heapPages = 0 then 0
      else (((updateMaxAggPayload s).observations.foldr max 0 : Nat) : ℚ) /
        ((s.heapPages * PAGE_SZ : Nat) : ℚ)) := by
  have hstep : execToB (sf_peak_utilization s).1 ops2 t = true := h2
  constructor
  · by_cases hp0 : s.heapPages = 0
    · have ht0 : t.heapPages = 0 := by rw [hp, hp0]
      rw [sf_peak_utilization_val0 s hp0, sf_peak_utilization_val0 t ht0]
    · have ht0 : ¬t.heapPages = 0 := by rw [hp]; exact hp0
      have hg : GhostStep (sf_peak_utilization s).1 t := ghostStep_execToB ops2 _ t hstep
      have hmono : (updateMaxAggPayload s).maxAggPayload ≤ t.maxAggPayload := by
        rw [← sf_peak_utilization_fst s hp0]
        exact hg.1
      have hmono2 : t.maxAggPayload ≤ (updateMaxAggPayload t).maxAggPayload :=
        (ghostStep_update t).1
      rw [sf_peak_utilization_val s hp0, sf_peak_utilization_val t ht0,
        updateMaxAggPayload_heapPages, updateMaxAggPayload_heapPages, hp]
      have hD : (0 : ℚ) < ((s.heapPages * PAGE_SZ : Nat) : ℚ) := by
        have h5 : 0 < s.heapPages * PAGE_SZ :=
          Nat.mul_pos (Nat.pos_of_ne_zero hp0) (by norm_num [PAGE_SZ])
        exact_mod_cast h5
      have hAB : ((updateMaxAggPayload s).maxAggPayload : ℚ) ≤
          ((updateMaxAggPayload t).maxAggPayload : ℚ) := by
        exact_mod_cast le_trans hmono hmono2
      exact (div_le_div_iff_of_pos_right hD).mpr hAB
  · by_cases hp0 : s.heapPages = 0
    · rw [if_pos hp0, sf_peak_utilization_val0 s hp0]
    · have hobs : (updateMaxAggPayload s).maxAggPayload =
          (updateMaxAggPayload s).observations.foldr max 0 :=
        (ghostStep_update s).2 (maxObsOk_reached ops1 s h1)
      rw [if_neg hp0, sf_peak_utilization_val s hp0, updateMaxAggPayload_heapPages, hobs]

/-- Witness for the claim C3 amended theorem on a concrete trace. -/
theorem peak_utilization_monotone_witness :
    (sf_peak_utilization peakDemoS1).2 ≤ (sf_peak_utilization peakDemoS1b).2 ∧
    (sf_peak_utilization peakDemoS1).2 = (if peakDemoS1.heapPages = 0 then 0
      else (((updateMaxAggPayload peakDemoS1).observations.foldr max 0 : Nat) : ℚ) /
        ((peakDemoS1.heapPages * PAGE_SZ : Nat) : ℚ)) :=
  peak_utilization_value_and_monotone_without_growth
    [SfOp.malloc 3000] peakDemoS1 [] peakDemoS1b (by decide) (by decide) (by decide)

/-! ## Theorems: heap structural invariant (claim C1)

First a layer of list lemmas about the tiling walk, the adjacency chain,
and the index surgery used by the allocator operations. -/

/-- Sum of sizes distributes over append. -/
theorem sumSizes_append (u v : List Block) :
    sumSizes (u ++ v) = sumSizes u + sumSizes v := by
  induction u with
  | nil => simp [sumSizes]
  | cons b u ih =>
    simp only [sumSizes, List.foldr_cons, List.cons_append] at *
    omega

/-- The walk over a cons unfolds definitionally. -/
theorem walkTiles_cons_iff (a : Nat) (b : Block) (l : List Block) (stop : Nat) :
    WalkTiles a (b :: l) stop ↔ (b.addr = a ∧ WalkTiles (a + b.size) l stop) :=
  Iff.rfl

/-- The walk over an append decomposes at the boundary. -/
theorem walkTiles_append_iff (u : List Block) :
    ∀ (a : Nat) (v : List Block) (stop : Nat),
      WalkTiles a (u ++ v) stop ↔
        (WalkTiles a u (a + sumSizes u) ∧ WalkTiles (a + sumSizes u) v stop) := by
  induction u with
  | nil =>
    intro a v stop
    have e1 : sumSizes ([] : List Block) = 0 := rfl
    rw [e1, Nat.add_zero, List.nil_append]
    have e2 : WalkTiles a ([] : List Block) a ↔ True := by
      constructor
      · intro _; trivial
      · intro _; rfl
    rw [e2, true_and]
  | cons b u ih =>
    intro a v stop
    have e2 : a + sumSizes (b :: u) = a + b.size + sumSizes u := by
      have e1 : sumSizes (b :: u) = b.size + sumSizes u := rfl
      omega
    rw [e2]
    show (b.addr = a ∧ WalkTiles (a + b.size) (u ++ v) stop) ↔
        (b.addr = a ∧ WalkTiles (a + b.size) u (a + b.size + sumSizes u)) ∧
          WalkTiles (a + b.size + sumSizes u) v stop
    rw [ih (a + b.size) v stop]
    exact and_assoc.symm

/-- A walk determines its endpoint. -/
theorem walkTiles_stop_eq {a : Nat} {l : List Block} {stop : Nat}
    (h : WalkTiles a l stop) : a + sumSizes l = stop := by
  induction l generalizing a with
  | nil =>
    have e1 : sumSizes ([] : List Block) = 0 := rfl
    have h2 : a = stop := h
    omega
  | cons b l ih =>
    rw [walkTiles_cons_iff] at h
    have h3 := ih h.2
    have e1 : sumSizes (b :: l) = b.size + sumSizes l := rfl
    omega

/-- Replacing the middle block by one with the same pointer and size
preserves the walk. -/
theorem walkTiles_mid_subst {u v : List Block} {b b' : Block} {a stop : Nat}
    (hma : b'.addr = b.addr) (hms : b'.size = b.size)
    (h : WalkTiles a (u ++ b :: v) stop) : WalkTiles a (u ++ b' :: v) stop := by
  rw [walkTiles_append_iff, walkTiles_cons_iff] at h ⊢
  obtain ⟨h1, h2, h3⟩ := h
  refine ⟨h1, hma.trans h2, ?_⟩
  rw [hms]
  exact h3

/-- Splitting the middle block into two consecutive blocks covering it
preserves the walk. -/
theorem walkTiles_split {u v : List Block} {b b1 b2 : Block} {a stop : Nat}
    (h1 : b1.addr = b.addr) (hsum : b1.size + b2.size = b.size)
    (h2 : b2.addr = b.addr + b1.size)
    (h : WalkTiles a (u ++ b :: v) stop) : WalkTiles a (u ++ b1 :: b2 :: v) stop := by
  rw [walkTiles_append_iff, walkTiles_cons_iff] at h
  rw [walkTiles_append_iff, walkTiles_cons_iff]
  obtain ⟨hu, hb, hv⟩ := h
  refine ⟨hu, h1.trans hb, ?_⟩
  rw [walkTiles_cons_iff]
  constructor
  · rw [h2, hb]
  · rw [show a + sumSizes u + b1.size + b2.size = a + sumSizes u + b.size from by omega]
    exact hv

/-- Merging the middle block with its successor preserves the walk. -/
theorem walkTiles_merge2 {u v : List Block} {b n m : Block} {a stop : Nat}
    (hm : m.addr = b.addr) (hs : m.size = b.size + n.size)
    (h : WalkTiles a (u ++ b :: n :: v) stop) : WalkTiles a (u ++ m :: v) stop := by
  rw [walkTiles_append_iff, walkTiles_cons_iff] at h
  rw [walkTiles_append_iff, walkTiles_cons_iff]
  obtain ⟨hu, hb, hrest⟩ := h
  rw [walkTiles_cons_iff] at hrest
  obtain ⟨hn, hv⟩ := hrest
  refine ⟨hu, hm.trans hb, ?_⟩
  rw [show a + sumSizes u + m.size = a + sumSizes u + b.size + n.size from by omega]
  exact hv

/-- Merging three consecutive blocks preserves the walk. -/
theorem walkTiles_merge3 {u v : List Block} {p b n m : Block} {a stop : Nat}
    (hm : m.addr = p.addr) (hs : m.size = p.size + b.size + n.size)
    (h : WalkTiles a (u ++ p :: b :: n :: v) stop) : WalkTiles a (u ++ m :: v) stop := by
  rw [walkTiles_append_iff, walkTiles_cons_iff] at h
  rw [walkTiles_append_iff, walkTiles_cons_iff]
  obtain ⟨hu, hp, hrest⟩ := h
  rw [walkTiles_cons_iff] at hrest
  obtain ⟨hb, hrest⟩ := hrest
  rw [walkTiles_cons_iff] at hrest
  obtain ⟨hn, hv⟩ := hrest
  refine ⟨hu, hm.trans hp, ?_⟩
  rw [show a + sumSizes u + m.size
      = a + sumSizes u + p.size + b.size + n.size from by omega]
  exact hv

/-- Appending one block exactly at the old endpoint extends the walk. -/
theorem walkTiles_append_one {l : List Block} {new : Block} {a stop : Nat}
    (ha : new.addr = stop) (h : WalkTiles a l stop) :
    WalkTiles a (l ++ [new]) (stop + new.size) := by
  have h2 := walkTiles_stop_eq h
  rw [walkTiles_append_iff, h2]
  refine ⟨h, ?_⟩
  rw [walkTiles_cons_iff]
  exact ⟨ha, rfl⟩

/-- Every block of a walk starts at or after the walk origin. -/
theorem walkTiles_addr_ge {a : Nat} {l : List Block} {stop : Nat}
    (h : WalkTiles a l stop) : ∀ c ∈ l, a ≤ c.addr := by
  induction l generalizing a with
  | nil => intro c hc; cases hc
  | cons b l ih =>
    intro c hc
    rw [walkTiles_cons_iff] at h
    obtain ⟨h1, h2⟩ := h
    rcases List.mem_cons.mp hc with hc | hc
    · subst hc; omega
    · have h3 := ih h2 c hc
      omega

/-- Every block of a walk ends at or before the walk endpoint. -/
theorem walkTiles_addr_ub {a : Nat} {l : List Block} {stop : Nat}
    (h : WalkTiles a l stop) : ∀ c ∈ l, c.addr + c.size ≤ stop := by
  induction l generalizing a with
  | nil => intro c hc; cases hc
  | cons b l ih =>
    intro c hc
    rw [walkTiles_cons_iff] at h
    obtain ⟨h1, h2⟩ := h
    rcases List.mem_cons.mp hc with hc | hc
    · subst hc
      have h3 := walkTiles_stop_eq h2
      have h4 : stop = c.addr + c.size + sumSizes l := by omega
      omega
    · exact ih h2 c hc

/-- In a walk over positive-size blocks, block pointers are unique. -/
theorem walkTiles_unique {a : Nat} {l : List Block} {stop : Nat}
    (h : WalkTiles a l stop) (hpos : ∀ c ∈ l, 0 < c.size) :
    ∀ c1 ∈ l, ∀ c2 ∈ l, c1.addr = c2.addr → c1 = c2 := by
  induction l generalizing a with
  | nil => intro c1 hc1; cases hc1
  | cons b l ih =>
    intro c1 hc1 c2 hc2 heq
    rw [walkTiles_cons_iff] at h
    obtain ⟨h1, h2⟩ := h
    have hbpos : 0 < b.size := hpos b (List.mem_cons_self b l)
    rcases List.mem_cons.mp hc1 with hd1 | hd1
    · rcases List.mem_cons.mp hc2 with hd2 | hd2
      · rw [hd1, hd2]
      · exfalso
        have h3 := walkTiles_addr_ge h2 c2 hd2
        rw [hd1] at heq
        omega
    · rcases List.mem_cons.mp hc2 with hd2 | hd2
      · exfalso
        have h3 := walkTiles_addr_ge h2 c1 hd1
        rw [hd2] at heq
        omega
      · exact ih h2 (fun c hc => hpos c (List.mem_cons_of_mem b hc)) c1 hd1 c2 hd2 heq

/-- In a walk over positive-size blocks, no block pointer lies strictly
inside another block. -/
theorem walkTiles_no_interior {a : Nat} {l : List Block} {stop : Nat}
    (h : WalkTiles a l stop) (hpos : ∀ c ∈ l, 0 < c.size) :
    ∀ c ∈ l, ∀ d ∈ l, c.addr < d.addr → c.addr + c.size ≤ d.addr := by
  induction l generalizing a with
  | nil => intro c hc; cases hc
  | cons b l ih =>
    intro c hc d hd hlt
    rw [walkTiles_cons_iff] at h
    obtain ⟨h1, h2⟩ := h
    rcases List.mem_cons.mp hc with hd1 | hd1
    · rcases List.mem_cons.mp hd with hd2 | hd2
      · rw [hd1, hd2] at hlt
        omega
      · subst hd1
        have h3 := walkTiles_addr_ge h2 d hd2
        omega
    · rcases List.mem_cons.mp hd with hd2 | hd2
      · exfalso
        subst hd2
        have h3 := walkTiles_addr_ge h2 c hd1
        omega
      · exact ih h2 (fun x hx => hpos x (List.mem_cons_of_mem b hx)) c hd1 d hd2 hlt

/-- The adjacency chain over an append decomposes into the two chains
plus the junction condition. -/
theorem chainAlloc_append_iff (u : List Block) :
    ∀ v : List Block,
      ChainAlloc (u ++ v) ↔
        (ChainAlloc u ∧ ChainAlloc v ∧
          ∀ x, u.getLast? = some x → ∀ y, v.head? = some y →
            (x.alloc = true ∨ y.alloc = true)) := by
  induction u with
  | nil =>
    intro v
    simp [ChainAlloc]
  | cons b u ih =>
    intro v
    cases u with
    | nil =>
      cases v with
      | nil => simp [ChainAlloc]
      | cons c v =>
        simp only [List.nil_append, List.singleton_append, ChainAlloc, List.getLast?_singleton,
          List.head?_cons, Option.some.injEq]
        constructor
        · rintro ⟨h1, h2⟩
          exact ⟨trivial, h2, fun x hx y hy => by rw [← hx, ← hy]; exact h1⟩
        · rintro ⟨-, h2, h3⟩
          exact ⟨h3 b rfl c rfl, h2⟩
    | cons b2 u2 =>
      show (b.alloc = true ∨ b2.alloc = true) ∧ ChainAlloc ((b2 :: u2) ++ v) ↔
          ((b.alloc = true ∨ b2.alloc = true) ∧ ChainAlloc (b2 :: u2)) ∧
            ChainAlloc v ∧
            ∀ x, (b :: b2 :: u2).getLast? = some x → ∀ y, v.head? = some y →
              (x.alloc = true ∨ y.alloc = true)
      rw [ih v, List.getLast?_cons_cons]
      constructor
      · rintro ⟨h1, h2, h3, h4⟩
        exact ⟨⟨h1, h2⟩, h3, h4⟩
      · rintro ⟨⟨h1, h2⟩, h3, h4⟩
        exact ⟨h1, h2, h3, h4⟩

/-- The strong adjacency chain implies the claim's property: no two
physically adjacent free non-quick-list blocks. -/
theorem chainAlloc_noAdj : ∀ l : List Block, ChainAlloc l → NoAdjacentFreeNonQL l := by
  intro l
  induction l with
  | nil => intro h; exact h
  | cons b l ih =>
    intro h
    cases l with
    | nil => exact trivial
    | cons c l =>
      obtain ⟨h1, h2⟩ := h
      refine ⟨?_, ih h2⟩
      rintro ⟨hb, hc⟩
      unfold freeNonQL at hb hc
      rcases h1 with h1 | h1 <;> simp [h1] at hb hc

/-- Index surgery: decomposing at a valid index. -/
theorem getElem?_some_decomp :
    ∀ (l : List Block) (i : Nat) (b : Block), l[i]? = some b →
      l.take i ++ b :: l.drop (i + 1) = l ∧ (l.take i).length = i := by
  intro l
  induction l with
  | nil => intro i b h; simp at h
  | cons a l ih =>
    intro i b h
    cases i with
    | zero =>
      simp only [List.getElem?_cons_zero, Option.some.injEq] at h
      subst h
      simp
    | succ i =>
      simp only [List.getElem?_cons_succ] at h
      obtain ⟨h1, h2⟩ := ih i b h
      constructor
      · simp only [List.take_succ_cons, List.drop_succ_cons, List.cons_append]
        rw [h1]
      · simp [h2]

/-- `splitAt3` at a valid index yields the decomposition. -/
theorem splitAt3_decomp {l : List Block} {i : Nat} {u : List Block} {b : Block}
    {v : List Block} (h : splitAt3 l i = some (u, b, v)) :
    l = u ++ b :: v ∧ u.length = i := by
  unfold splitAt3 at h
  cases hg : l[i]? with
  | none => rw [hg] at h; exact Option.noConfusion h
  | some b0 =>
    rw [hg] at h
    injection h with h
    injection h with h1 h2
    injection h2 with h2 h3
    subst h1
    subst h2
    subst h3
    obtain ⟨hd, hl⟩ := getElem?_some_decomp l i b0 hg
    exact ⟨hd.symm, hl⟩

/-- Take of an append-cons decomposition. -/
theorem take_of_parts (u : List Block) (b : Block) (v : List Block) :
    (u ++ b :: v).take u.length = u := by
  induction u with
  | nil => simp
  | cons a u ih => simp [ih]

/-- Drop of an append-cons decomposition. -/
theorem drop_of_parts (u : List Block) (b : Block) (v : List Block) :
    (u ++ b :: v).drop (u.length + 1) = v := by
  induction u with
  | nil => simp
  | cons a u ih => simp

/-- Element of an append-cons decomposition. -/
theorem getElem?_of_parts (u : List Block) (b : Block) (v : List Block) :
    (u ++ b :: v)[u.length]? = some b := by
  induction u with
  | nil => simp
  | cons a u ih => simpa using ih

/-- `splitAt3` on an explicit decomposition. -/
theorem splitAt3_of_parts (u : List Block) (b : Block) (v : List Block) :
    splitAt3 (u ++ b :: v) u.length = some (u, b, v) := by
  unfold splitAt3
  rw [getElem?_of_parts, take_of_parts, drop_of_parts]

/-- `setIdx` on an explicit decomposition. -/
theorem setIdx_of_parts (u : List Block) (b : Block) (v : List Block) (f : Block → Block) :
    setIdx (u ++ b :: v) u.length f = u ++ f b :: v := by
  unfold setIdx
  rw [splitAt3_of_parts]

/-- A successful `blockIdx` lookup points at a block with that pointer. -/
theorem blockIdx_spec :
    ∀ (l : List Block) (a : Nat) (i : Nat), blockIdx l a = some i →
      ∃ b, l[i]? = some b ∧ b.addr = a := by
  intro l
  induction l with
  | nil => intro a i h; exact Option.noConfusion h
  | cons b l ih =>
    intro a i h
    unfold blockIdx at h
    by_cases hb : b.addr = a
    · rw [if_pos hb] at h
      injection h with h
      subst h
      exact ⟨b, by simp, hb⟩
    · rw [if_neg hb] at h
      rcases Option.map_eq_some'.mp h with ⟨j, hj, hji⟩
      subst hji
      rcases ih a j hj with ⟨c, hc1, hc2⟩
      exact ⟨c, by simpa using hc1, hc2⟩

/-- A block that is present is found by `blockIdx`. -/
theorem blockIdx_isSome_of_mem :
    ∀ (l : List Block) (c : Block) (a : Nat), c ∈ l → c.addr = a →
      (blockIdx l a).isSome = true := by
  intro l
  induction l with
  | nil => intro c a hc; cases hc
  | cons b l ih =>
    intro c a hc ha
    unfold blockIdx
    by_cases hb : b.addr = a
    · rw [if_pos hb]; rfl
    · rw [if_neg hb]
      rcases List.mem_cons.mp hc with hc | hc
      · subst hc; exact absurd ha hb
      · have h2 := ih c a hc ha
        cases hopt : blockIdx l a with
        | none => rw [hopt] at h2; exact Bool.noConfusion h2
        | some j => simp [hopt]

/-- Lengths are stable under `modifyIdx`. -/
theorem length_modifyIdx {α : Type} :
    ∀ (ls : List α) (i : Nat) (f : α → α), (modifyIdx ls i f).length = ls.length := by
  intro ls
  induction ls with
  | nil => intro i f; rfl
  | cons l ls ih =>
    intro i f
    cases i with
    | zero => rfl
    | succ i => simpa [modifyIdx] using ih i f

/-- Reading another index after `modifyIdx`. -/
theorem nthList_modifyIdx_ne :
    ∀ (ls : List (List Nat)) (i j : Nat) (f : List Nat → List Nat), i ≠ j →
      nthList (modifyIdx ls i f) j = nthList ls j := by
  intro ls
  induction ls with
  | nil => intro i j f h; rfl
  | cons l ls ih =>
    intro i j f h
    cases i with
    | zero =>
      cases j with
      | zero => exact absurd rfl h
      | succ j => rfl
    | succ i =>
      cases j with
      | zero => rfl
      | succ j => simpa [modifyIdx, nthList] using ih i j f (fun he => h (by rw [he]))

/-- Reading the modified index after `modifyIdx`. -/
theorem nthList_modifyIdx_self :
    ∀ (ls : List (List Nat)) (i : Nat) (f : List Nat → List Nat), i < ls.length →
      nthList (modifyIdx ls i f) i = f (nthList ls i) := by
  intro ls
  induction ls with
  | nil => intro i f h; cases h
  | cons l ls ih =>
    intro i f h
    cases i with
    | zero => rfl
    | succ i => simpa [modifyIdx, nthList] using ih i f (by simpa using h)

/-- `nthList` of an in-range index is a member. -/
theorem nthList_mem :
    ∀ (ls : List (List Nat)) (i : Nat), nthList ls i ∈ ls ∨ nthList ls i = [] := by
  intro ls
  induction ls with
  | nil => intro i; right; rfl
  | cons l ls ih =>
    intro i
    cases i with
    | zero => left; exact List.mem_cons_self l ls
    | succ i =>
      rcases ih i with h | h
      · left; exact List.mem_cons_of_mem l h
      · right; exact h

/-- Members of a `modifyIdx` result. -/
theorem mem_modifyIdx :
    ∀ (ls : List (List Nat)) (i : Nat) (f : List Nat → List Nat) (l : List Nat),
      l ∈ modifyIdx ls i f → l ∈ ls ∨ l = f (nthList ls i) := by
  intro ls
  induction ls with
  | nil => intro i f l h; cases h
  | cons l0 ls ih =>
    intro i f l h
    cases i with
    | zero =>
      rcases List.mem_cons.mp h with h | h
      · right; exact h
      · left; exact List.mem_cons_of_mem l0 h
    | succ i =>
      rcases List.mem_cons.mp h with h | h
      · left; rw [h]; exact List.mem_cons_self l0 ls
      · rcases ih i f l h with h2 | h2
        · left; exact List.mem_cons_of_mem l0 h2
        · right; exact h2

/-! ## Chain-of-allocation and free-list helper lemmas -/

/-- A list with a known head decomposes as head and tail. -/
theorem head_decomp {v : List Block} {n : Block} (h : v.head? = some n) :
    n :: v.tail = v := by
  cases v with
  | nil => exact Option.noConfusion h
  | cons a v =>
    rw [List.head?_cons] at h
    injection h with h
    rw [h]
    rfl

/-- A list with a known last element decomposes before it. -/
theorem dropLast_decomp {u : List Block} {p : Block} :
    u.getLast? = some p → u.dropLast ++ [p] = u := by
  induction u with
  | nil => intro h; exact Option.noConfusion h
  | cons a u ih =>
    intro h
    cases u with
    | nil =>
      rw [List.getLast?_singleton] at h
      injection h with h
      rw [h]
      rfl
    | cons b u =>
      rw [List.getLast?_cons_cons] at h
      have h2 := ih h
      show a :: ((b :: u).dropLast ++ [p]) = a :: (b :: u)
      rw [h2]

/-- The adjacency chain over a cons in junction form. -/
theorem chainAlloc_cons_iff (b : Block) (l : List Block) :
    ChainAlloc (b :: l) ↔
      ((∀ y, l.head? = some y → b.alloc = true ∨ y.alloc = true) ∧ ChainAlloc l) := by
  cases l with
  | nil =>
    constructor
    · intro _; exact ⟨fun y hy => Option.noConfusion hy, trivial⟩
    · intro _; trivial
  | cons c l =>
    constructor
    · rintro ⟨h1, h2⟩
      refine ⟨fun y hy => ?_, h2⟩
      rw [List.head?_cons] at hy
      injection hy with hy
      rw [← hy]
      exact h1
    · rintro ⟨h1, h2⟩
      exact ⟨h1 c rfl, h2⟩

/-- Disassembling the chain at a middle block. -/
theorem chainAlloc_parts {u : List Block} {b : Block} {v : List Block}
    (h : ChainAlloc (u ++ b :: v)) :
    ChainAlloc u ∧ ChainAlloc v ∧
      (∀ x, u.getLast? = some x → x.alloc = true ∨ b.alloc = true) ∧
      (∀ y, v.head? = some y → b.alloc = true ∨ y.alloc = true) := by
  rw [chainAlloc_append_iff] at h
  obtain ⟨hu, hbv, hj⟩ := h
  rw [chainAlloc_cons_iff] at hbv
  exact ⟨hu, hbv.2, fun x hx => hj x hx b rfl, hbv.1⟩

/-- Assembling the chain at a middle block from the junction facts. -/
theorem chainAlloc_of_parts {u : List Block} {b : Block} {v : List Block}
    (hu : ChainAlloc u) (hv : ChainAlloc v)
    (hx : ∀ x, u.getLast? = some x → x.alloc = true ∨ b.alloc = true)
    (hy : ∀ y, v.head? = some y → b.alloc = true ∨ y.alloc = true) :
    ChainAlloc (u ++ b :: v) := by
  rw [chainAlloc_append_iff]
  refine ⟨hu, ?_, ?_⟩
  · rw [chainAlloc_cons_iff]; exact ⟨hy, hv⟩
  · intro x hxx y hyy
    rw [List.head?_cons] at hyy
    injection hyy with hyy
    rw [← hyy]
    exact hx x hxx

/-- Replacing a middle block by one with the same allocation bit keeps
the chain. -/
theorem chainAlloc_mid_subst {u v : List Block} {b b2 : Block}
    (ha : b2.alloc = b.alloc) (h : ChainAlloc (u ++ b :: v)) :
    ChainAlloc (u ++ b2 :: v) := by
  obtain ⟨hu, hv, hx, hy⟩ := chainAlloc_parts h
  refine chainAlloc_of_parts hu hv (fun x hxx => ?_) (fun y hyy => ?_)
  · rw [ha]; exact hx x hxx
  · rw [ha]; exact hy y hyy

/-- An allocated middle block joins any two chains. -/
theorem chainAlloc_mid_alloc {u v : List Block} {b : Block}
    (hb : b.alloc = true) (hu : ChainAlloc u) (hv : ChainAlloc v) :
    ChainAlloc (u ++ b :: v) :=
  chainAlloc_of_parts hu hv (fun _ _ => Or.inr hb) (fun _ _ => Or.inl hb)

/-- `removeFromFreeList` keeps the array length. -/
theorem length_removeFromFreeList (fls : List (List Nat)) (a : Nat) :
    (removeFromFreeList fls a).length = fls.length := by
  unfold removeFromFreeList
  rw [List.length_map]

/-- `insertIntoFreeList` keeps the array length. -/
theorem length_insertIntoFreeList (fls : List (List Nat)) (a size : Nat) :
    (insertIntoFreeList fls a size).length = fls.length := by
  unfold insertIntoFreeList
  split
  · rfl
  · rw [length_modifyIdx]

/-- Entries after `removeFromFreeList` avoid the removed address and come
from the original lists. -/
theorem mem_removeFromFreeList {fls : List (List Nat)} {x : Nat} {l : List Nat}
    (hl : l ∈ removeFromFreeList fls x) :
    ∀ a ∈ l, a ≠ x ∧ ∃ l0 ∈ fls, a ∈ l0 := by
  unfold removeFromFreeList at hl
  rcases List.mem_map.mp hl with ⟨l0, hl0, hmap⟩
  intro a ha
  rw [← hmap] at ha
  rcases List.mem_filter.mp ha with ⟨ha0, hne⟩
  exact ⟨by simpa using hne, l0, hl0, ha0⟩

/-- Entries after `insertIntoFreeList` are the new address or come from
the original lists. -/
theorem mem_insertIntoFreeList {fls : List (List Nat)} {na size : Nat} {l : List Nat}
    (hl : l ∈ insertIntoFreeList fls na size) :
    ∀ a ∈ l, a = na ∨ ∃ l0 ∈ fls, a ∈ l0 := by
  unfold insertIntoFreeList at hl
  split at hl
  · intro a ha; exact Or.inr ⟨l, hl, ha⟩
  · intro a ha
    rcases mem_modifyIdx _ _ _ _ hl with h | h
    · exact Or.inr ⟨l, h, ha⟩
    · rw [h] at ha
      rcases List.mem_cons.mp ha with h2 | h2
      · exact Or.inl h2
      · rcases nthList_mem fls (bytesToFreeListIndex size) with h3 | h3
        · exact Or.inr ⟨_, h3, h2⟩
        · rw [h3] at h2; cases h2

/-- Every slot of an all-empty list array is empty. -/
theorem nthList_replicate (n : Nat) : ∀ i, nthList (List.replicate n ([] : List Nat)) i = [] := by
  induction n with
  | zero => intro i; rfl
  | succ n ih =>
    intro i
    cases i with
    | zero => rfl
    | succ i => exact ih i

/-- The heap invariant only reads `blocks`, the two list arrays and
`heapPages`; states equal there share it. -/
theorem inv_congr {s t : SfState} (hb : t.blocks = s.blocks)
    (hf : t.freeLists = s.freeLists) (hq : t.quickLists = s.quickLists)
    (hp : t.heapPages = s.heapPages) (hinv : Inv s) : Inv t := by
  obtain ⟨h1, h2, h3, h4, h5, h6, h7, h8⟩ := hinv
  constructor
  · unfold Pages0Empty at h1 ⊢
    rw [hb, hf, hq, hp]
    exact h1
  · unfold BlocksTile at h2 ⊢
    rw [hb, hp]
    exact h2
  · rw [hb]; exact h3
  · rw [hb]; exact h4
  · unfold QlOk at h5 ⊢
    rw [hq, hb]
    exact h5
  · unfold QlNodup at h6 ⊢
    rw [hq]
    exact h6
  · unfold FlOk at h7 ⊢
    rw [hf, hb]
    exact h7
  · unfold LensOk at h8 ⊢
    rw [hf, hq]
    exact h8

/-- Coherent block sizes are positive. -/
theorem szok_pos {l : List Block} (h : SzOk l) : ∀ c ∈ l, 0 < c.size := by
  intro c hc
  have h2 := (h c hc).2
  simp only [MIN_BLOCK_SIZE] at h2
  omega

/-- On an invariant state, block pointers identify blocks. -/
theorem inv_unique {s : SfState} (hinv : Inv s) :
    ∀ c1 ∈ s.blocks, ∀ c2 ∈ s.blocks, c1.addr = c2.addr → c1 = c2 := by
  by_cases hp : s.heapPages = 0
  · have he := (hinv.pages0 hp).1
    rw [he]
    intro c1 hc1
    cases hc1
  · have hw := hinv.walk (Nat.pos_of_ne_zero hp)
    exact walkTiles_unique hw (szok_pos hinv.szok)

/-- `blockIdx` run at the pointer of a present block finds exactly that
block on an invariant state, together with the decomposition. -/
theorem blockIdx_unique_target {s : SfState} (hinv : Inv s) {a i : Nat} {w : Block}
    (hw : w ∈ s.blocks) (hwa : w.addr = a)
    (h : blockIdx s.blocks a = some i) :
    ∃ u v, s.blocks = u ++ w :: v ∧ u.length = i ∧ splitAt3 s.blocks i = some (u, w, v) := by
  rcases blockIdx_spec s.blocks a i h with ⟨b, hb, hba⟩
  rcases getElem?_some_decomp s.blocks i b hb with ⟨hd, hl⟩
  have hbm : b ∈ s.blocks := by
    rw [← hd]
    exact List.mem_append.mpr (Or.inr (List.mem_cons_self _ _))
  have hbw : b = w := inv_unique hinv b hbm w hw (by rw [hba, hwa])
  subst hbw
  refine ⟨s.blocks.take i, s.blocks.drop (i + 1), hd.symm, hl, ?_⟩
  unfold splitAt3
  rw [hb]

/-- `sizeAtAddr` reads the present block's size on an invariant state. -/
theorem sizeAtAddr_eq {s : SfState} (hinv : Inv s) {w : Block} (hw : w ∈ s.blocks) :
    sizeAtAddr s.blocks w.addr = w.size := by
  unfold sizeAtAddr blockAtAddr
  cases hf : s.blocks.find? (fun b => b.addr = w.addr) with
  | none =>
    have h2 := List.find?_eq_none.mp hf w hw
    simp at h2
  | some b =>
    have h1 := List.find?_some hf
    have h2 := List.mem_of_find?_eq_some hf
    have h3 : b.addr = w.addr := by simpa using h1
    rw [inv_unique hinv b h2 w hw h3]

/-- The effective block size is 16-aligned and at least 32, for every
request. -/
theorem effectiveBlockSize_props (size : Nat) :
    16 ∣ effectiveBlockSize size ∧ 32 ≤ effectiveBlockSize size := by
  unfold effectiveBlockSize
  dsimp only
  simp only [ROW_SIZE, BLOCK_ALIGN, MIN_BLOCK_SIZE, U32]
  split <;> omega

/-- A coherent block size is recovered from its quick-list class. -/
theorem size_class_eq {n : Nat} (h1 : 16 ∣ n) (h2 : MIN_BLOCK_SIZE ≤ n) :
    n = MIN_BLOCK_SIZE + BLOCK_ALIGN * ((n - MIN_BLOCK_SIZE) / BLOCK_ALIGN) := by
  simp only [MIN_BLOCK_SIZE, BLOCK_ALIGN] at *
  omega

/-- A false Boolean is not true (the `if_neg` feeder). -/
theorem bool_ne_true {b : Bool} (h : b = false) : ¬b = true := by
  rw [h]
  exact Bool.false_ne_true

/-- `coalesce` shape lemma, no merge: both physical neighbours are
allocated (or absent), the block list is unchanged and the freed block
is linked into its size class. -/
theorem coalesce_shape_keep {s : SfState} {u : List Block} {b : Block} {v : List Block}
    {start stop : Nat}
    (hs : s.blocks = u ++ b :: v)
    (hfree : b.alloc = false) (hbql : b.inQL = false)
    (hwalk : WalkTiles start s.blocks stop)
    (hcu : ChainAlloc u) (hcv : ChainAlloc v)
    (hxu : ∀ x, u.getLast? = some x → x.alloc = true)
    (hyv : ∀ y, v.head? = some y → y.alloc = true)
    (hsz : SzOk s.blocks) (hfl : FlOk s) :
    s.heapPages = s.heapPages ∧ s.quickLists = s.quickLists ∧
    WalkTiles start s.blocks stop ∧ ChainAlloc s.blocks ∧ SzOk s.blocks ∧
    FlOk { s with
      freeLists := insertIntoFreeList (removeFromFreeList s.freeLists b.addr) b.addr b.size } ∧
    (insertIntoFreeList (removeFromFreeList s.freeLists b.addr) b.addr b.size).length
      = s.freeLists.length ∧
    (∀ w ∈ s.blocks, w.alloc = true → w ∈ s.blocks) := by
  have hbmem : b ∈ s.blocks := by
    rw [hs]
    exact List.mem_append.mpr (Or.inr (List.mem_cons_self _ _))
  refine ⟨rfl, rfl, hwalk, ?_, hsz, ?_, ?_, fun w hw _ => hw⟩
  · rw [hs]
    exact chainAlloc_of_parts hcu hcv (fun x hx => Or.inl (hxu x hx))
      (fun y hy => Or.inr (hyv y hy))
  · intro l hl a ha
    dsimp only at hl ⊢
    rcases mem_insertIntoFreeList hl a ha with h | ⟨l0, hl0, ha0⟩
    · exact ⟨b, hbmem, h.symm, hfree, hbql⟩
    · obtain ⟨-, l1, hl1, ha1⟩ := mem_removeFromFreeList hl0 a ha0
      exact hfl l1 hl1 a ha1
  · rw [length_insertIntoFreeList, length_removeFromFreeList]

/-- `coalesce` shape lemma, merge with the next block only. -/
theorem coalesce_shape_next {s : SfState} {u : List Block} {b n : Block} {v2 : List Block}
    {start stop : Nat}
    (hs : s.blocks = u ++ b :: n :: v2)
    (hfree : b.alloc = false) (hna : n.alloc = false)
    (hwalk : WalkTiles start s.blocks stop)
    (hcu : ChainAlloc u) (hcnv : ChainAlloc (n :: v2))
    (hxu : ∀ x, u.getLast? = some x → x.alloc = true)
    (hsz : SzOk s.blocks) (hfl : FlOk s) :
    WalkTiles start
      (u ++ (⟨b.addr, b.size + n.size, 0, false, false, b.prevAlloc⟩ : Block) :: v2) stop ∧
    ChainAlloc (u ++ (⟨b.addr, b.size + n.size, 0, false, false, b.prevAlloc⟩ : Block) :: v2) ∧
    SzOk (u ++ (⟨b.addr, b.size + n.size, 0, false, false, b.prevAlloc⟩ : Block) :: v2) ∧
    FlOk { s with
      blocks := u ++ (⟨b.addr, b.size + n.size, 0, false, false, b.prevAlloc⟩ : Block) :: v2
      freeLists := insertIntoFreeList
        (removeFromFreeList (removeFromFreeList s.freeLists b.addr) n.addr)
        b.addr (b.size + n.size) } ∧
    (insertIntoFreeList (removeFromFreeList (removeFromFreeList s.freeLists b.addr) n.addr)
        b.addr (b.size + n.size)).length = s.freeLists.length ∧
    (∀ w ∈ s.blocks, w.alloc = true →
      w ∈ u ++ (⟨b.addr, b.size + n.size, 0, false, false, b.prevAlloc⟩ : Block) :: v2) := by
  have hbmem : b ∈ s.blocks := by
    rw [hs]
    exact List.mem_append.mpr (Or.inr (List.mem_cons_self _ _))
  have hnmem : n ∈ s.blocks := by
    rw [hs]
    exact List.mem_append.mpr (Or.inr (List.mem_cons_of_mem _ (List.mem_cons_self _ _)))
  obtain ⟨hjn, hcv2⟩ := (chainAlloc_cons_iff n v2).mp hcnv
  have hyv2 : ∀ y, v2.head? = some y → y.alloc = true := by
    intro y hy
    rcases hjn y hy with h | h
    · exact absurd h (bool_ne_true hna)
    · exact h
  have hmm : (⟨b.addr, b.size + n.size, 0, false, false, b.prevAlloc⟩ : Block)
      ∈ u ++ (⟨b.addr, b.size + n.size, 0, false, false, b.prevAlloc⟩ : Block) :: v2 :=
    List.mem_append.mpr (Or.inr (List.mem_cons_self _ _))
  refine ⟨?_, ?_, ?_, ?_, ?_, ?_⟩
  · rw [hs] at hwalk
    refine walkTiles_merge2 ?_ ?_ hwalk
    · rfl
    · rfl
  · exact chainAlloc_of_parts hcu hcv2 (fun x hx => Or.inl (hxu x hx))
      (fun y hy => Or.inr (hyv2 y hy))
  · intro w hw
    rcases List.mem_append.mp hw with hwu | hwm
    · exact hsz w (by rw [hs]; exact List.mem_append.mpr (Or.inl hwu))
    · rcases List.mem_cons.mp hwm with hwm | hwv
      · subst hwm
        have h1 := hsz b hbmem
        have h2 := hsz n hnmem
        exact ⟨dvd_add h1.1 h2.1, le_trans h1.2 (Nat.le_add_right _ _)⟩
      · exact hsz w (by
          rw [hs]
          exact List.mem_append.mpr
            (Or.inr (List.mem_cons_of_mem _ (List.mem_cons_of_mem _ hwv))))
  · intro l hl a ha
    dsimp only at hl ⊢
    rcases mem_insertIntoFreeList hl a ha with h | ⟨l0, hl0, ha0⟩
    · exact ⟨_, hmm, h.symm, rfl, rfl⟩
    · obtain ⟨hnen, l1, hl1, ha1⟩ := mem_removeFromFreeList hl0 a ha0
      obtain ⟨hneb, l2, hl2, ha2⟩ := mem_removeFromFreeList hl1 a ha1
      obtain ⟨c, hcmem, hca, hcal, hcql⟩ := hfl l2 hl2 a ha2
      rw [hs] at hcmem
      rcases List.mem_append.mp hcmem with hcu2 | hcm
      · exact ⟨c, List.mem_append.mpr (Or.inl hcu2), hca, hcal, hcql⟩
      · rcases List.mem_cons.mp hcm with hcb | hcm2
        · exact absurd hca.symm (by rw [hcb]; exact fun h2 => hneb h2)
        · rcases List.mem_cons.mp hcm2 with hcn | hcv2m
          · exact absurd hca.symm (by rw [hcn]; exact fun h2 => hnen h2)
          · exact ⟨c, List.mem_append.mpr (Or.inr (List.mem_cons_of_mem _ hcv2m)), hca, hcal, hcql⟩
  · rw [length_insertIntoFreeList, length_removeFromFreeList, length_removeFromFreeList]
  · intro w hw hal
    rw [hs] at hw
    rcases List.mem_append.mp hw with h | h
    · exact List.mem_append.mpr (Or.inl h)
    · rcases List.mem_cons.mp h with h | h2
      · rw [h] at hal
        exact absurd hal (bool_ne_true hfree)
      · rcases List.mem_cons.mp h2 with h3 | h3
        · rw [h3] at hal
          exact absurd hal (bool_ne_true hna)
        · exact List.mem_append.mpr (Or.inr (List.mem_cons_of_mem _ h3))

/-- `coalesce` shape lemma, merge with the previous block only. -/
theorem coalesce_shape_prev {s : SfState} {u : List Block} {p b : Block} {v : List Block}
    {start stop : Nat}
    (hgl : u.getLast? = some p)
    (hs : s.blocks = u ++ b :: v)
    (hfree : b.alloc = false) (hpa : p.alloc = false)
    (hwalk : WalkTiles start s.blocks stop)
    (hcu : ChainAlloc u) (hcv : ChainAlloc v)
    (hyv : ∀ y, v.head? = some y → y.alloc = true)
    (hsz : SzOk s.blocks) (hfl : FlOk s) :
    WalkTiles start
      (u.dropLast ++ (⟨p.addr, p.size + b.size, 0, false, false, p.prevAlloc⟩ : Block) :: v)
      stop ∧
    ChainAlloc
      (u.dropLast ++ (⟨p.addr, p.size + b.size, 0, false, false, p.prevAlloc⟩ : Block) :: v) ∧
    SzOk
      (u.dropLast ++ (⟨p.addr, p.size + b.size, 0, false, false, p.prevAlloc⟩ : Block) :: v) ∧
    FlOk { s with
      blocks := u.dropLast ++ (⟨p.addr, p.size + b.size, 0, false, false, p.prevAlloc⟩ : Block) :: v
      freeLists := insertIntoFreeList
        (removeFromFreeList (removeFromFreeList s.freeLists b.addr) p.addr)
        p.addr (p.size + b.size) } ∧
    (insertIntoFreeList (removeFromFreeList (removeFromFreeList s.freeLists b.addr) p.addr)
        p.addr (p.size + b.size)).length = s.freeLists.length ∧
    (∀ w ∈ s.blocks, w.alloc = true →
      w ∈ u.dropLast ++ (⟨p.addr, p.size + b.size, 0, false, false, p.prevAlloc⟩ : Block) :: v) := by
  have hud : u.dropLast ++ [p] = u := dropLast_decomp hgl
  have hbmem : b ∈ s.blocks := by
    rw [hs]
    exact List.mem_append.mpr (Or.inr (List.mem_cons_self _ _))
  have hpmem : p ∈ s.blocks := by
    rw [hs, ← hud]
    exact List.mem_append.mpr (Or.inl (List.mem_append.mpr (Or.inr (List.mem_cons_self _ _))))
  have hsd : s.blocks = u.dropLast ++ p :: b :: v := by
    rw [hs]
    nth_rewrite 1 [← hud]
    rw [List.append_assoc, List.singleton_append]
  have hcudec : ChainAlloc (u.dropLast ++ p :: []) := by
    rw [hud]
    exact hcu
  obtain ⟨hcu2, -, hxup, -⟩ := chainAlloc_parts hcudec
  have hxu2 : ∀ x, u.dropLast.getLast? = some x → x.alloc = true := by
    intro x hx
    rcases hxup x hx with h | h
    · exact h
    · exact absurd h (bool_ne_true hpa)
  have hmm : (⟨p.addr, p.size + b.size, 0, false, false, p.prevAlloc⟩ : Block)
      ∈ u.dropLast ++ (⟨p.addr, p.size + b.size, 0, false, false, p.prevAlloc⟩ : Block) :: v :=
    List.mem_append.mpr (Or.inr (List.mem_cons_self _ _))
  refine ⟨?_, ?_, ?_, ?_, ?_, ?_⟩
  · rw [hsd] at hwalk
    refine walkTiles_merge2 ?_ ?_ hwalk
    · rfl
    · rfl
  · exact chainAlloc_of_parts hcu2 hcv (fun x hx => Or.inl (hxu2 x hx))
      (fun y hy => Or.inr (hyv y hy))
  · intro w hw
    rcases List.mem_append.mp hw with hwu | hwm
    · exact hsz w (by
        rw [hs, ← hud]
        exact List.mem_append.mpr (Or.inl (List.mem_append.mpr (Or.inl hwu))))
    · rcases List.mem_cons.mp hwm with hwm | hwv
      · subst hwm
        have h1 := hsz p hpmem
        have h2 := hsz b hbmem
        exact ⟨dvd_add h1.1 h2.1, le_trans h1.2 (Nat.le_add_right _ _)⟩
      · exact hsz w (by
          rw [hs]
          exact List.mem_append.mpr (Or.inr (List.mem_cons_of_mem _ hwv)))
  · intro l hl a ha
    dsimp only at hl ⊢
    rcases mem_insertIntoFreeList hl a ha with h | ⟨l0, hl0, ha0⟩
    · exact ⟨_, hmm, h.symm, rfl, rfl⟩
    · obtain ⟨hnep, l1, hl1, ha1⟩ := mem_removeFromFreeList hl0 a ha0
      obtain ⟨hneb, l2, hl2, ha2⟩ := mem_removeFromFreeList hl1 a ha1
      obtain ⟨c, hcmem, hca, hcal, hcql⟩ := hfl l2 hl2 a ha2
      rw [hsd] at hcmem
      rcases List.mem_append.mp hcmem with hcu3 | hcm
      · exact ⟨c, List.mem_append.mpr (Or.inl hcu3), hca, hcal, hcql⟩
      · rcases List.mem_cons.mp hcm with hcp | hcm2
        · exact absurd hca.symm (by rw [hcp]; exact fun h2 => hnep h2)
        · rcases List.mem_cons.mp hcm2 with hcb | hcvm
          · exact absurd hca.symm (by rw [hcb]; exact fun h2 => hneb h2)
          · exact ⟨c, List.mem_append.mpr (Or.inr (List.mem_cons_of_mem _ hcvm)), hca, hcal, hcql⟩
  · rw [length_insertIntoFreeList, length_removeFromFreeList, length_removeFromFreeList]
  · intro w hw hal
    rw [hsd] at hw
    rcases List.mem_append.mp hw with h | h
    · exact List.mem_append.mpr (Or.inl h)
    · rcases List.mem_cons.mp h with h | h2
      · rw [h] at hal
        exact absurd hal (bool_ne_true hpa)
      · rcases List.mem_cons.mp h2 with h3 | h3
        · rw [h3] at hal
          exact absurd hal (bool_ne_true hfree)
        · exact List.mem_append.mpr (Or.inr (List.mem_cons_of_mem _ h3))

/-- `coalesce` shape lemma, merge with both neighbours. -/
theorem coalesce_shape_both {s : SfState} {u : List Block} {p b n : Block} {v2 : List Block}
    {start stop : Nat}
    (hgl : u.getLast? = some p)
    (hs : s.blocks = u ++ b :: n :: v2)
    (hfree : b.alloc = false)
    (hpa : p.alloc = false) (hna : n.alloc = false)
    (hwalk : WalkTiles start s.blocks stop)
    (hcu : ChainAlloc u) (hcnv : ChainAlloc (n :: v2))
    (hsz : SzOk s.blocks) (hfl : FlOk s) :
    WalkTiles start
      (u.dropLast ++
        (⟨p.addr, p.size + b.size + n.size, 0, false, false, p.prevAlloc⟩ : Block) :: v2)
      stop ∧
    ChainAlloc
      (u.dropLast ++
        (⟨p.addr, p.size + b.size + n.size, 0, false, false, p.prevAlloc⟩ : Block) :: v2) ∧
    SzOk
      (u.dropLast ++
        (⟨p.addr, p.size + b.size + n.size, 0, false, false, p.prevAlloc⟩ : Block) :: v2) ∧
    FlOk { s with
      blocks := u.dropLast ++
        (⟨p.addr, p.size + b.size + n.size, 0, false, false, p.prevAlloc⟩ : Block) :: v2
      freeLists := insertIntoFreeList
        (removeFromFreeList (removeFromFreeList (removeFromFreeList s.freeLists b.addr)
          p.addr) n.addr)
        p.addr (p.size + b.size + n.size) } ∧
    (insertIntoFreeList
      (removeFromFreeList (removeFromFreeList (removeFromFreeList s.freeLists b.addr)
        p.addr) n.addr)
      p.addr (p.size + b.size + n.size)).length = s.freeLists.length ∧
    (∀ w ∈ s.blocks, w.alloc = true →
      w ∈ u.dropLast ++
        (⟨p.addr, p.size + b.size + n.size, 0, false, false, p.prevAlloc⟩ : Block) :: v2) := by
  have hud : u.dropLast ++ [p] = u := dropLast_decomp hgl
  have hbmem : b ∈ s.blocks := by
    rw [hs]
    exact List.mem_append.mpr (Or.inr (List.mem_cons_self _ _))
  have hnmem : n ∈ s.blocks := by
    rw [hs]
    exact List.mem_append.mpr (Or.inr (List.mem_cons_of_mem _ (List.mem_cons_self _ _)))
  have hpmem : p ∈ s.blocks := by
    rw [hs, ← hud]
    exact List.mem_append.mpr (Or.inl (List.mem_append.mpr (Or.inr (List.mem_cons_self _ _))))
  have hsd : s.blocks = u.dropLast ++ p :: b :: n :: v2 := by
    rw [hs]
    nth_rewrite 1 [← hud]
    rw [List.append_assoc, List.singleton_append]
  have hcudec : ChainAlloc (u.dropLast ++ p :: []) := by
    rw [hud]
    exact hcu
  obtain ⟨hcu2, -, hxup, -⟩ := chainAlloc_parts hcudec
  have hxu2 : ∀ x, u.dropLast.getLast? = some x → x.alloc = true := by
    intro x hx
    rcases hxup x hx with h | h
    · exact h
    · exact absurd h (bool_ne_true hpa)
  obtain ⟨hjn, hcv2⟩ := (chainAlloc_cons_iff n v2).mp hcnv
  have hyv2 : ∀ y, v2.head? = some y → y.alloc = true := by
    intro y hy
    rcases hjn y hy with h | h
    · exact absurd h (bool_ne_true hna)
    · exact h
  have hmm : (⟨p.addr, p.size + b.size + n.size, 0, false, false, p.prevAlloc⟩ : Block)
      ∈ u.dropLast ++
        (⟨p.addr, p.size + b.size + n.size, 0, false, false, p.prevAlloc⟩ : Block) :: v2 :=
    List.mem_append.mpr (Or.inr (List.mem_cons_self _ _))
  refine ⟨?_, ?_, ?_, ?_, ?_, ?_⟩
  · rw [hsd] at hwalk
    refine walkTiles_merge3 ?_ ?_ hwalk
    · rfl
    · rfl
  · exact chainAlloc_of_parts hcu2 hcv2 (fun x hx => Or.inl (hxu2 x hx))
      (fun y hy => Or.inr (hyv2 y hy))
  · intro w hw
    rcases List.mem_append.mp hw with hwu | hwm
    · exact hsz w (by
        rw [hs, ← hud]
        exact List.mem_append.mpr (Or.inl (List.mem_append.mpr (Or.inl hwu))))
    · rcases List.mem_cons.mp hwm with hwm | hwv
      · subst hwm
        have h1 := hsz p hpmem
        have h2 := hsz b hbmem
        have h3 := hsz n hnmem
        exact ⟨dvd_add (dvd_add h1.1 h2.1) h3.1,
          le_trans h1.2 (le_trans (Nat.le_add_right _ _) (Nat.le_add_right _ _))⟩
      · exact hsz w (by
          rw [hs]
          exact List.mem_append.mpr
            (Or.inr (List.mem_cons_of_mem _ (List.mem_cons_of_mem _ hwv))))
  · intro l hl a ha
    dsimp only at hl ⊢
    rcases mem_insertIntoFreeList hl a ha with h | ⟨l0, hl0, ha0⟩
    · exact ⟨_, hmm, h.symm, rfl, rfl⟩
    · obtain ⟨hnen, l1, hl1, ha1⟩ := mem_removeFromFreeList hl0 a ha0
      obtain ⟨hnep, l2, hl2, ha2⟩ := mem_removeFromFreeList hl1 a ha1
      obtain ⟨hneb, l3, hl3, ha3⟩ := mem_removeFromFreeList hl2 a ha2
      obtain ⟨c, hcmem, hca, hcal, hcql⟩ := hfl l3 hl3 a ha3
      rw [hsd] at hcmem
      rcases List.mem_append.mp hcmem with hcu3 | hcm
      · exact ⟨c, List.mem_append.mpr (Or.inl hcu3), hca, hcal, hcql⟩
      · rcases List.mem_cons.mp hcm with hcp | hcm2
        · exact absurd hca.symm (by rw [hcp]; exact fun h2 => hnep h2)
        · rcases List.mem_cons.mp hcm2 with hcb | hcm3
          · exact absurd hca.symm (by rw [hcb]; exact fun h2 => hneb h2)
          · rcases List.mem_cons.mp hcm3 with hcn | hcvm
            · exact absurd hca.symm (by rw [hcn]; exact fun h2 => hnen h2)
            · exact ⟨c, List.mem_append.mpr (Or.inr (List.mem_cons_of_mem _ hcvm)),
                hca, hcal, hcql⟩
  · rw [length_insertIntoFreeList, length_removeFromFreeList, length_removeFromFreeList,
      length_removeFromFreeList]
  · intro w hw hal
    rw [hsd] at hw
    rcases List.mem_append.mp hw with h | h
    · exact List.mem_append.mpr (Or.inl h)
    · rcases List.mem_cons.mp h with h | h2
      · rw [h] at hal
        exact absurd hal (bool_ne_true hpa)
      · rcases List.mem_cons.mp h2 with h3 | h4
        · rw [h3] at hal
          exact absurd hal (bool_ne_true hfree)
        · rcases List.mem_cons.mp h4 with h5 | h5
          · rw [h5] at hal
            exact absurd hal (bool_ne_true hna)
          · exact List.mem_append.mpr (Or.inr (List.mem_cons_of_mem _ h5))

/-- A Boolean that is not true is false. -/
theorem bool_eq_false {b : Bool} (h : ¬b = true) : b = false := by
  rcases Bool.eq_false_or_eq_true b with h2 | h2
  · exact absurd h2 h
  · exact h2

/-- Master preservation lemma for `coalesce` at a free, non-quick-list
block whose flanks each form an adjacency chain (the junctions may be
broken: coalescing is exactly what restores them).  Pages and quick
lists are untouched; the walk (to any endpoint), the full chain, size
coherence, free-list coherence and the free-list array length are
(re)established, and every allocated block survives unchanged. -/
theorem coalesce_master {s : SfState} {i : Nat} {u : List Block} {b : Block}
    {v : List Block} {start stop : Nat}
    (hdec : splitAt3 s.blocks i = some (u, b, v))
    (hfree : b.alloc = false) (hbql : b.inQL = false)
    (hwalk : WalkTiles start s.blocks stop)
    (hcu : ChainAlloc u) (hcv : ChainAlloc v)
    (hsz : SzOk s.blocks) (hfl : FlOk s) :
    (coalesceIdx s i).heapPages = s.heapPages ∧
    (coalesceIdx s i).quickLists = s.quickLists ∧
    WalkTiles start (coalesceIdx s i).blocks stop ∧
    ChainAlloc (coalesceIdx s i).blocks ∧
    SzOk (coalesceIdx s i).blocks ∧
    FlOk (coalesceIdx s i) ∧
    (coalesceIdx s i).freeLists.length = s.freeLists.length ∧
    (∀ w ∈ s.blocks, w.alloc = true → w ∈ (coalesceIdx s i).blocks) := by
  have hs := (splitAt3_decomp hdec).1
  unfold coalesceIdx
  rw [hdec]
  dsimp only
  rw [if_neg (bool_ne_true hfree)]
  cases hgl : u.getLast? with
  | none =>
    have hxu : ∀ x, u.getLast? = some x → x.alloc = true := by
      intro x hx
      rw [hgl] at hx
      exact Option.noConfusion hx
    cases hhd : v.head? with
    | none =>
      dsimp only
      exact coalesce_shape_keep hs hfree hbql hwalk hcu hcv hxu
        (fun y hy => by rw [hhd] at hy; exact Option.noConfusion hy)
        hsz hfl
    | some n =>
      have hvd : n :: v.tail = v := head_decomp hhd
      dsimp only
      by_cases hna : n.alloc = true
      · rw [if_pos hna]
        dsimp only
        exact coalesce_shape_keep hs hfree hbql hwalk hcu hcv hxu
          (fun y hy => by
            rw [hhd] at hy
            injection hy with hy
            rw [← hy]
            exact hna)
          hsz hfl
      · rw [if_neg hna]
        dsimp only
        rw [← hvd] at hs hcv
        obtain ⟨w1, w2, w3, w4, w5, w6⟩ :=
          coalesce_shape_next hs hfree (bool_eq_false hna) hwalk hcu hcv hxu hsz hfl
        exact ⟨rfl, rfl, w1, w2, w3, w4, w5, w6⟩
  | some p =>
    cases hhd : v.head? with
    | none =>
      have hyv : ∀ y, v.head? = some y → y.alloc = true := by
        intro y hy
        rw [hhd] at hy
        exact Option.noConfusion hy
      dsimp only
      by_cases hpa : p.alloc = true
      · rw [if_pos hpa]
        dsimp only
        exact coalesce_shape_keep hs hfree hbql hwalk hcu hcv
          (fun x hx => by
            rw [hgl] at hx
            injection hx with hx
            rw [← hx]
            exact hpa)
          hyv hsz hfl
      · rw [if_neg hpa]
        dsimp only
        obtain ⟨w1, w2, w3, w4, w5, w6⟩ :=
          coalesce_shape_prev hgl hs hfree (bool_eq_false hpa) hwalk hcu hcv hyv hsz hfl
        exact ⟨rfl, rfl, w1, w2, w3, w4, w5, w6⟩
    | some n =>
      have hvd : n :: v.tail = v := head_decomp hhd
      dsimp only
      by_cases hpa : p.alloc = true
      · rw [if_pos hpa]
        have hxu : ∀ x, u.getLast? = some x → x.alloc = true := by
          intro x hx
          rw [hgl] at hx
          injection hx with hx
          rw [← hx]
          exact hpa
        by_cases hna : n.alloc = true
        · rw [if_pos hna]
          dsimp only
          exact coalesce_shape_keep hs hfree hbql hwalk hcu hcv hxu
            (fun y hy => by
              rw [hhd] at hy
              injection hy with hy
              rw [← hy]
              exact hna)
            hsz hfl
        · rw [if_neg hna]
          dsimp only
          rw [← hvd] at hs hcv
          obtain ⟨w1, w2, w3, w4, w5, w6⟩ :=
            coalesce_shape_next hs hfree (bool_eq_false hna) hwalk hcu hcv hxu hsz hfl
          exact ⟨rfl, rfl, w1, w2, w3, w4, w5, w6⟩
      · rw [if_neg hpa]
        by_cases hna : n.alloc = true
        · rw [if_pos hna]
          dsimp only
          obtain ⟨w1, w2, w3, w4, w5, w6⟩ :=
            coalesce_shape_prev hgl hs hfree (bool_eq_false hpa) hwalk hcu hcv
              (fun y hy => by
                rw [hhd] at hy
                injection hy with hy
                rw [← hy]
                exact hna)
              hsz hfl
          exact ⟨rfl, rfl, w1, w2, w3, w4, w5, w6⟩
        · rw [if_neg hna]
          dsimp only
          rw [← hvd] at hs hcv
          obtain ⟨w1, w2, w3, w4, w5, w6⟩ :=
            coalesce_shape_both hgl hs hfree (bool_eq_false hpa) (bool_eq_false hna) hwalk hcu hcv hsz hfl
          exact ⟨rfl, rfl, w1, w2, w3, w4, w5, w6⟩

/-- Key-equal block lists contain matching blocks. -/
theorem mem_of_keys {bs : List Block} :
    ∀ {bs2 : List Block}, bs2.map blockKey = bs.map blockKey →
    ∀ c ∈ bs, ∃ c2 ∈ bs2, c2.addr = c.addr ∧ c2.size = c.size ∧
      c2.alloc = c.alloc ∧ c2.inQL = c.inQL := by
  induction bs with
  | nil => intro bs2 h c hc; cases hc
  | cons b bs ih =>
    intro bs2 h c hc
    cases bs2 with
    | nil => simp at h
    | cons b2 bs2 =>
      simp only [List.map_cons] at h
      injection h with h1 h2
      unfold blockKey at h1
      injection h1 with ha h1
      injection h1 with hsz h1
      injection h1 with hal hql
      rcases List.mem_cons.mp hc with hcb | hcm
      · refine ⟨b2, List.mem_cons_self _ _, ?_, ?_, ?_, ?_⟩ <;> rw [hcb]
        · exact ha
        · exact hsz
        · exact hal
        · exact hql
      · obtain ⟨c2, hc2, hrest⟩ := ih h2 c hcm
        exact ⟨c2, List.mem_cons_of_mem _ hc2, hrest⟩

/-- The tiling walk only reads block keys. -/
theorem walkTiles_of_keys {bs : List Block} :
    ∀ {bs2 : List Block} {start stop : Nat},
      bs2.map blockKey = bs.map blockKey → WalkTiles start bs stop →
      WalkTiles start bs2 stop := by
  induction bs with
  | nil =>
    intro bs2 start stop h hw
    cases bs2 with
    | nil => exact hw
    | cons b2 bs2 => simp at h
  | cons b bs ih =>
    intro bs2 start stop h hw
    cases bs2 with
    | nil => simp at h
    | cons b2 bs2 =>
      simp only [List.map_cons] at h
      injection h with h1 h2
      unfold blockKey at h1
      injection h1 with ha h1
      injection h1 with hsz h1
      obtain ⟨hwa, hwr⟩ := hw
      refine ⟨by rw [ha, hwa], ?_⟩
      rw [hsz]
      exact ih h2 hwr

/-- The adjacency chain only reads block keys. -/
theorem chainAlloc_of_keys {bs : List Block} :
    ∀ {bs2 : List Block}, bs2.map blockKey = bs.map blockKey →
      ChainAlloc bs → ChainAlloc bs2 := by
  induction bs with
  | nil =>
    intro bs2 h hc
    cases bs2 with
    | nil => trivial
    | cons b2 bs2 => simp at h
  | cons b bs ih =>
    intro bs2 h hc
    cases bs2 with
    | nil => trivial
    | cons b2 bs2 =>
      simp only [List.map_cons] at h
      injection h with h1 h2
      unfold blockKey at h1
      injection h1 with ha h1
      injection h1 with hsz h1
      injection h1 with hal hql
      rw [chainAlloc_cons_iff] at hc ⊢
      refine ⟨?_, ih h2 hc.2⟩
      intro y2 hy2
      cases bs with
      | nil =>
        cases bs2 with
        | nil => exact Option.noConfusion hy2
        | cons c2 cs2 => simp at h2
      | cons n bs3 =>
        cases bs2 with
        | nil => simp at h2
        | cons n2 bs4 =>
          simp only [List.map_cons] at h2
          injection h2 with h3 h4
          unfold blockKey at h3
          injection h3 with hna h3
          injection h3 with hns h3
          injection h3 with hnal hnql
          rw [List.head?_cons] at hy2
          injection hy2 with hy2
          rcases hc.1 n rfl with hL | hR
          · rw [hal]
            exact Or.inl hL
          · rw [← hy2, hnal]
            exact Or.inr hR

/-- Size coherence only reads block keys. -/
theorem szok_of_keys {bs bs2 : List Block}
    (h : bs2.map blockKey = bs.map blockKey) (hsz : SzOk bs) : SzOk bs2 := by
  intro c2 hc2
  obtain ⟨c, hc, -, hcs, -, -⟩ := mem_of_keys h.symm c2 hc2
  have h2 := hsz c hc
  rw [hcs] at h2
  exact h2

/-- The heap invariant transports along key-equal blocks when the list
arrays and page count agree. -/
theorem inv_of_keys {s t : SfState} (hinv : Inv s)
    (hb : t.blocks.map blockKey = s.blocks.map blockKey)
    (hf : t.freeLists = s.freeLists) (hq : t.quickLists = s.quickLists)
    (hp : t.heapPages = s.heapPages) : Inv t := by
  constructor
  · intro h0
    rw [hp] at h0
    obtain ⟨h1, h2, h3⟩ := hinv.pages0 h0
    refine ⟨?_, ?_, ?_⟩
    · have h4 : t.blocks.map blockKey = [] := by rw [hb, h1]; rfl
      exact List.map_eq_nil_iff.mp h4
    · rw [hf]; exact h2
    · rw [hq]; exact h3
  · intro h0
    rw [hp] at h0 ⊢
    exact walkTiles_of_keys hb (hinv.walk h0)
  · exact chainAlloc_of_keys hb hinv.chain
  · exact szok_of_keys hb hinv.szok
  · intro i a ha
    rw [hq] at ha
    obtain ⟨c, hc, hca, hcs, hcal, hcql⟩ := hinv.qlok i a ha
    obtain ⟨c2, hc2, h1, h2, h3, h4⟩ := mem_of_keys hb c hc
    refine ⟨c2, hc2, ?_, ?_, ?_, ?_⟩
    · rw [h1, hca]
    · rw [h2, hcs]
    · rw [h3, hcal]
    · rw [h4, hcql]
  · intro i
    rw [hq]
    exact hinv.qlnodup i
  · intro l hl a ha
    rw [hf] at hl
    obtain ⟨c, hc, hca, hcal, hcql⟩ := hinv.flok l hl a ha
    obtain ⟨c2, hc2, h1, h2, h3, h4⟩ := mem_of_keys hb c hc
    refine ⟨c2, hc2, ?_, ?_, ?_⟩
    · rw [h1, hca]
    · rw [h3, hcal]
    · rw [h4, hcql]
  · obtain ⟨h1, h2⟩ := hinv.lens
    exact ⟨by rw [hf]; exact h1, by rw [hq]; exact h2⟩

/-- `setIdx` with a key-preserving rewrite keeps the key list. -/
theorem keys_setIdx (bs : List Block) (j : Nat) (f : Block → Block)
    (hf : ∀ c, blockKey (f c) = blockKey c) :
    (setIdx bs j f).map blockKey = bs.map blockKey := by
  unfold setIdx
  cases hd : splitAt3 bs j with
  | none => rfl
  | some t =>
    obtain ⟨u, c, v⟩ := t
    obtain ⟨hdec, -⟩ := splitAt3_decomp hd
    dsimp only
    rw [hdec]
    simp only [List.map_append, List.map_cons]
    rw [hf c]

/-- `setPrevAllocd` on the physical successor (or the epilogue) keeps
the whole invariant and all key-visible state. -/
theorem inv_setPrevAllocdNext {s : SfState} (hinv : Inv s) (i : Nat) (bit : Bool) :
    Inv (setPrevAllocdNext s i bit) ∧
    (setPrevAllocdNext s i bit).blocks.map blockKey = s.blocks.map blockKey ∧
    (setPrevAllocdNext s i bit).freeLists = s.freeLists ∧
    (setPrevAllocdNext s i bit).quickLists = s.quickLists ∧
    (setPrevAllocdNext s i bit).heapPages = s.heapPages := by
  unfold setPrevAllocdNext
  split
  · have hk : (setIdx s.blocks (i + 1)
        (fun nb => { nb with prevAlloc := bit })).map blockKey = s.blocks.map blockKey :=
      keys_setIdx s.blocks (i + 1) _ (fun c => rfl)
    exact ⟨inv_of_keys hinv hk rfl rfl rfl, hk, rfl, rfl, rfl⟩
  · refine ⟨inv_congr ?_ ?_ ?_ ?_ hinv, rfl, rfl, rfl, rfl⟩ <;> rfl

/-- `updateMaxAggPayload` leaves all key-visible state unchanged. -/
theorem updateMaxAggPayload_fields (s : SfState) :
    (updateMaxAggPayload s).blocks = s.blocks ∧
    (updateMaxAggPayload s).freeLists = s.freeLists ∧
    (updateMaxAggPayload s).quickLists = s.quickLists ∧
    (updateMaxAggPayload s).heapPages = s.heapPages := by
  unfold updateMaxAggPayload
  split
  · exact ⟨rfl, rfl, rfl, rfl⟩
  · exact ⟨rfl, rfl, rfl, rfl⟩

/-- `updateMaxAggPayload` keeps the heap invariant. -/
theorem inv_updateMaxAggPayload {s : SfState} (hinv : Inv s) :
    Inv (updateMaxAggPayload s) := by
  obtain ⟨h1, h2, h3, h4⟩ := updateMaxAggPayload_fields s
  exact inv_congr h1 h2 h3 h4 hinv

/-- `BlocksTile` from a walk to a stop known equal to the heap end. -/
theorem blocksTile_of_walk {t : SfState} {stop : Nat}
    (hw : WalkTiles (4 * ROW_SIZE) t.blocks stop)
    (hstop : stop = t.heapPages * PAGE_SZ - 2 * ROW_SIZE) : BlocksTile t := by
  intro _
  rw [← hstop]
  exact hw

/-- Rewriting a middle block to an allocated, non-quick-list block of
the same pointer and size while unlinking its address from the free
lists keeps the heap invariant, provided no quick list links the
address; allocated non-quick-list addresses stay covered. -/
theorem inv_mid_alloc_subst {s : SfState} {u : List Block} {b b2 : Block} {v : List Block}
    (hinv : Inv s) (hs : s.blocks = u ++ b :: v)
    (haddr : b2.addr = b.addr) (hsize : b2.size = b.size)
    (hal : b2.alloc = true) (hql2 : b2.inQL = false)
    (hnoql : ∀ j, ∀ a ∈ nthList s.quickLists j, a ≠ b.addr) :
    Inv { s with
      blocks := u ++ b2 :: v
      freeLists := removeFromFreeList s.freeLists b.addr } ∧
    (∀ pp, AllocAt s.blocks pp → AllocAt (u ++ b2 :: v) pp) := by
  have hbmem : b ∈ s.blocks := by
    rw [hs]
    exact List.mem_append.mpr (Or.inr (List.mem_cons_self _ _))
  have hb2mem : b2 ∈ u ++ b2 :: v := List.mem_append.mpr (Or.inr (List.mem_cons_self _ _))
  have hkeep : ∀ c ∈ s.blocks, c ≠ b → c ∈ u ++ b2 :: v := by
    intro c hc hne
    rw [hs] at hc
    rcases List.mem_append.mp hc with h | h
    · exact List.mem_append.mpr (Or.inl h)
    · rcases List.mem_cons.mp h with h | h
      · exact absurd h hne
      · exact List.mem_append.mpr (Or.inr (List.mem_cons_of_mem _ h))
  constructor
  · constructor
    · intro h0
      have h9 := (hinv.pages0 h0).1
      rw [hs] at h9
      simp at h9
    · intro h0
      have hw := hinv.walk h0
      rw [hs] at hw
      exact walkTiles_mid_subst haddr hsize hw
    · have hc := hinv.chain
      rw [hs] at hc
      obtain ⟨hcu, hcv, -, -⟩ := chainAlloc_parts hc
      exact chainAlloc_mid_alloc hal hcu hcv
    · intro w hw
      rcases List.mem_append.mp hw with h | h
      · exact hinv.szok w (by rw [hs]; exact List.mem_append.mpr (Or.inl h))
      · rcases List.mem_cons.mp h with h | h
        · rw [h, hsize]
          exact hinv.szok b hbmem
        · exact hinv.szok w (by
            rw [hs]
            exact List.mem_append.mpr (Or.inr (List.mem_cons_of_mem _ h)))
    · intro j a ha
      obtain ⟨c, hc, hca, hcs, hcal, hcql⟩ := hinv.qlok j a ha
      have hne : c ≠ b := by
        intro he
        exact hnoql j a ha (by rw [← hca, he])
      exact ⟨c, hkeep c hc hne, hca, hcs, hcal, hcql⟩
    · intro j
      exact hinv.qlnodup j
    · intro l hl a ha
      obtain ⟨hne, l0, hl0, ha0⟩ := mem_removeFromFreeList hl a ha
      obtain ⟨c, hc, hca, hcal, hcql⟩ := hinv.flok l0 hl0 a ha0
      have hneb : c ≠ b := by
        intro he
        rw [he] at hca
        exact hne hca.symm
      exact ⟨c, hkeep c hc hneb, hca, hcal, hcql⟩
    · obtain ⟨h1, h2⟩ := hinv.lens
      exact ⟨by rw [length_removeFromFreeList]; exact h1, h2⟩
  · rintro pp ⟨w, hw, hwpp, hwal, hwql⟩
    by_cases hne : w = b
    · refine ⟨b2, hb2mem, ?_, hal, hql2⟩
      rw [haddr, ← hne]
      exact hwpp
    · exact ⟨w, hkeep w hw hne, hwpp, hwal, hwql⟩

/-- `initializeHeap` on the empty heap establishes the invariant: one
page, a single free block at pointer 32 linked into its size class. -/
theorem inv_initializeHeap {s : SfState} (hinv : Inv s) (hp : s.heapPages = 0) :
    Inv (initializeHeap s).1 ∧ (initializeHeap s).1.heapPages = 1 ∧
    (initializeHeap s).2 = 1 := by
  obtain ⟨hbe, hfe, hqe⟩ := hinv.pages0 hp
  unfold initializeHeap
  rw [if_neg (by rw [hp]; simp only [MAX_PAGES]; omega)]
  dsimp only
  refine ⟨?_, rfl, rfl⟩
  constructor
  · intro h0
    exact absurd h0 one_ne_zero
  · intro _
    refine ⟨rfl, ?_⟩
    show 4 * ROW_SIZE + (PAGE_SZ - 6 * ROW_SIZE) = 1 * PAGE_SZ - 2 * ROW_SIZE
    decide
  · trivial
  · intro w hw
    rcases List.mem_cons.mp hw with h | h
    · rw [h]
      refine ⟨?_, ?_⟩ <;> simp only [PAGE_SZ, ROW_SIZE, MIN_BLOCK_SIZE] <;> omega
    · cases h
  · intro j a ha
    rcases nthList_mem s.quickLists j with h | h
    · rw [hqe _ h] at ha
      cases ha
    · rw [h] at ha
      cases ha
  · intro j
    rcases nthList_mem s.quickLists j with h | h
    · rw [hqe _ h]
      exact List.nodup_nil
    · rw [h]
      exact List.nodup_nil
  · intro l hl a ha
    rcases mem_insertIntoFreeList hl a ha with h | ⟨l0, hl0, ha0⟩
    · exact ⟨_, List.mem_cons_self _ _, h.symm, rfl, rfl⟩
    · rw [hfe l0 hl0] at ha0
      cases ha0
  · obtain ⟨h1, h2⟩ := hinv.lens
    exact ⟨by rw [length_insertIntoFreeList]; exact h1, h2⟩

/-- `extendHeap` keeps the invariant (converting the old epilogue to a
page-sized free block and coalescing backward), the heap stays
initialized, quick lists are untouched and allocated non-quick-list
addresses stay covered. -/
theorem inv_extendHeap {s : SfState} (hinv : Inv s) (hp : 0 < s.heapPages) :
    Inv (extendHeap s).1 ∧ 0 < (extendHeap s).1.heapPages ∧
    (extendHeap s).1.quickLists = s.quickLists ∧
    (∀ pp, AllocAt s.blocks pp → AllocAt (extendHeap s).1.blocks pp) := by
  unfold extendHeap
  split
  · exact ⟨hinv, hp, rfl, fun pp h => h⟩
  · dsimp only
    set nb : Block := ⟨s.heapPages * PAGE_SZ - 2 * ROW_SIZE, PAGE_SZ, 0, false, false,
      s.epiloguePrevAlloc⟩
    set s2 : SfState := { s with
      heapPages := s.heapPages + 1
      blocks := s.blocks ++ [nb]
      epiloguePrevAlloc := false }
    have hdec : splitAt3 s2.blocks s.blocks.length = some (s.blocks, nb, []) :=
      splitAt3_of_parts s.blocks nb []
    have hw2 : WalkTiles (4 * ROW_SIZE) s2.blocks
        ((s.heapPages + 1) * PAGE_SZ - 2 * ROW_SIZE) := by
      have h0 : WalkTiles (4 * ROW_SIZE) (s.blocks ++ [nb])
          ((s.heapPages * PAGE_SZ - 2 * ROW_SIZE) + PAGE_SZ) :=
        walkTiles_append_one rfl (hinv.walk hp)
      have heq : (s.heapPages * PAGE_SZ - 2 * ROW_SIZE) + PAGE_SZ
          = (s.heapPages + 1) * PAGE_SZ - 2 * ROW_SIZE := by
        simp only [PAGE_SZ, ROW_SIZE]
        omega
      rw [heq] at h0
      exact h0
    have hsz2 : SzOk s2.blocks := by
      intro w hw
      rcases List.mem_append.mp hw with h | h
      · exact hinv.szok w h
      · rcases List.mem_cons.mp h with h | h
        · rw [h]
          constructor
          · show 16 ∣ PAGE_SZ
            decide
          · show MIN_BLOCK_SIZE ≤ PAGE_SZ
            decide
        · cases h
    have hfl2 : FlOk s2 := by
      intro l hl a ha
      obtain ⟨c, hc, hca, hcal, hcql⟩ := hinv.flok l hl a ha
      exact ⟨c, List.mem_append.mpr (Or.inl hc), hca, hcal, hcql⟩
    have hcv0 : ChainAlloc ([] : List Block) := trivial
    obtain ⟨m1, m2, m3, m4, m5, m6, m7, m8⟩ :=
      coalesce_master hdec rfl rfl hw2 hinv.chain hcv0 hsz2 hfl2
    refine ⟨?_, ?_, ?_, ?_⟩
    · constructor
      · intro h0
        rw [m1] at h0
        have h1 : s2.heapPages = s.heapPages + 1 := rfl
        rw [h1] at h0
        exact absurd h0 (Nat.succ_ne_zero _)
      · refine blocksTile_of_walk m3 ?_
        rw [m1]
      · exact m4
      · exact m5
      · intro j a ha
        rw [m2] at ha
        obtain ⟨c, hc, hca, hcs, hcal, hcql⟩ := hinv.qlok j a ha
        exact ⟨c, m8 c (List.mem_append.mpr (Or.inl hc)) hcal, hca, hcs, hcal, hcql⟩
      · intro j
        rw [m2]
        exact hinv.qlnodup j
      · exact m6
      · refine ⟨?_, ?_⟩
        · rw [m7]
          exact hinv.lens.1
        · rw [m2]
          exact hinv.lens.2
    · rw [m1]
      show 0 < s.heapPages + 1
      omega
    · rw [m2]
    · rintro pp ⟨w, hw, hwpp, hwal, hwql⟩
      exact ⟨w, m8 w (List.mem_append.mpr (Or.inl hw)) hwal, hwpp, hwal, hwql⟩

/-- `getQuickListBlock` keeps the invariant, does not touch blocks,
free lists or pages, and a popped address is the pointer of an
allocated quick-list block of the exact class size whose address no
remaining quick-list entry repeats. -/
theorem getQuickListBlock_props {s : SfState} (hinv : Inv s) (size : Nat) :
    Inv (getQuickListBlock s size).1 ∧
    (getQuickListBlock s size).1.blocks = s.blocks ∧
    (getQuickListBlock s size).1.freeLists = s.freeLists ∧
    (getQuickListBlock s size).1.heapPages = s.heapPages ∧
    ((getQuickListBlock s size).2 = none → (getQuickListBlock s size).1 = s) ∧
    (∀ a, (getQuickListBlock s size).2 = some a →
      ∃ c ∈ s.blocks, c.addr = a ∧ c.alloc = true ∧ c.inQL = true ∧
        c.size = MIN_BLOCK_SIZE + BLOCK_ALIGN * ((size - MIN_BLOCK_SIZE) / BLOCK_ALIGN) ∧
        (∀ j, ∀ x ∈ nthList (getQuickListBlock s size).1.quickLists j, x ≠ a)) := by
  unfold getQuickListBlock
  dsimp only
  split
  · exact ⟨hinv, rfl, rfl, rfl, fun _ => rfl, fun a h => Option.noConfusion h⟩
  · rename_i hidx
    cases hql2 : nthList s.quickLists ((size - MIN_BLOCK_SIZE) / BLOCK_ALIGN) with
    | nil => exact ⟨hinv, rfl, rfl, rfl, fun _ => rfl, fun a h => Option.noConfusion h⟩
    | cons a rest =>
      dsimp only
      have hidx2 : (size - MIN_BLOCK_SIZE) / BLOCK_ALIGN < s.quickLists.length := by
        rw [hinv.lens.2]
        omega
      have hmema : a ∈ nthList s.quickLists ((size - MIN_BLOCK_SIZE) / BLOCK_ALIGN) := by
        rw [hql2]
        exact List.mem_cons_self _ _
      have hnodup := hinv.qlnodup ((size - MIN_BLOCK_SIZE) / BLOCK_ALIGN)
      rw [hql2] at hnodup
      have hanotin : a ∉ rest := (List.nodup_cons.mp hnodup).1
      obtain ⟨c, hc, hca, hcs, hcal, hcql⟩ :=
        hinv.qlok ((size - MIN_BLOCK_SIZE) / BLOCK_ALIGN) a hmema
      refine ⟨?_, rfl, rfl, rfl, fun h => Option.noConfusion h, ?_⟩
      · constructor
        · intro h0
          obtain ⟨h1, h2, h3⟩ := hinv.pages0 h0
          refine ⟨h1, h2, ?_⟩
          intro l hl
          rcases mem_modifyIdx _ _ _ _ hl with h | h
          · exact h3 l h
          · rw [h]
            rcases nthList_mem s.quickLists ((size - MIN_BLOCK_SIZE) / BLOCK_ALIGN) with h4 | h4
            · rw [h3 _ h4] at hql2
              exact List.noConfusion hql2
            · rw [h4] at hql2
              exact List.noConfusion hql2
        · exact hinv.walk
        · exact hinv.chain
        · exact hinv.szok
        · intro j x hx
          by_cases hj : (size - MIN_BLOCK_SIZE) / BLOCK_ALIGN = j
          · rw [← hj, nthList_modifyIdx_self _ _ _ hidx2] at hx
            have hx2 : x ∈ nthList s.quickLists ((size - MIN_BLOCK_SIZE) / BLOCK_ALIGN) := by
              rw [hql2]
              exact List.mem_cons_of_mem _ hx
            rw [hj] at hx2
            exact hinv.qlok j x hx2
          · rw [nthList_modifyIdx_ne _ _ _ _ hj] at hx
            exact hinv.qlok j x hx
        · intro j
          by_cases hj : (size - MIN_BLOCK_SIZE) / BLOCK_ALIGN = j
          · rw [← hj, nthList_modifyIdx_self _ _ _ hidx2]
            exact (List.nodup_cons.mp hnodup).2
          · rw [nthList_modifyIdx_ne _ _ _ _ hj]
            exact hinv.qlnodup j
        · exact hinv.flok
        · obtain ⟨h1, h2⟩ := hinv.lens
          exact ⟨h1, by rw [length_modifyIdx]; exact h2⟩
      · intro a2 ha2
        injection ha2 with ha2
        subst ha2
        refine ⟨c, hc, hca, hcal, hcql, hcs, ?_⟩
        intro j x hx
        by_cases hj : (size - MIN_BLOCK_SIZE) / BLOCK_ALIGN = j
        · rw [← hj, nthList_modifyIdx_self _ _ _ hidx2] at hx
          intro he
          rw [he] at hx
          exact hanotin hx
        · rw [nthList_modifyIdx_ne _ _ _ _ hj] at hx
          intro he
          subst he
          obtain ⟨d, hd, hda, hds, hdal, hdql⟩ := hinv.qlok j x hx
          have hcd : c = d := inv_unique hinv c hc d hd (by rw [hca, hda])
          rw [← hcd] at hds
          rw [hcs] at hds
          have : (size - MIN_BLOCK_SIZE) / BLOCK_ALIGN = j := by
            simp only [MIN_BLOCK_SIZE, BLOCK_ALIGN] at hds ⊢
            omega
          exact hj this

/-- `getFreeListBlock` keeps the invariant, does not touch blocks,
quick lists or pages; a found address is the pointer of a free
non-quick-list block large enough for the request. -/
theorem getFreeListBlock_props {s : SfState} (hinv : Inv s) (size : Nat) :
    Inv (getFreeListBlock s size).1 ∧
    (getFreeListBlock s size).1.blocks = s.blocks ∧
    (getFreeListBlock s size).1.quickLists = s.quickLists ∧
    (getFreeListBlock s size).1.heapPages = s.heapPages ∧
    ((getFreeListBlock s size).2 = none → (getFreeListBlock s size).1 = s) ∧
    (∀ a, (getFreeListBlock s size).2 = some a →
      ∃ c ∈ s.blocks, c.addr = a ∧ c.alloc = false ∧ c.inQL = false ∧ size ≤ c.size ∧
      (getFreeListBlock s size).1.freeLists = removeFromFreeList s.freeLists a) := by
  unfold getFreeListBlock
  cases hfs : ((List.range NUM_FREE_LISTS).drop (bytesToFreeListIndex size)).findSome?
      (fun i => findFitIn s.blocks size (nthList s.freeLists i)) with
  | none => exact ⟨hinv, rfl, rfl, rfl, fun _ => rfl, fun a h => Option.noConfusion h⟩
  | some a =>
    dsimp only
    obtain ⟨i, -, hfit⟩ := List.exists_of_findSome?_eq_some hfs
    unfold findFitIn at hfit
    have hpred := List.find?_some hfit
    have hmem := List.mem_of_find?_eq_some hfit
    have hsize : size ≤ sizeAtAddr s.blocks a := by simpa using hpred
    rcases nthList_mem s.freeLists i with hin | hnil
    · obtain ⟨c, hc, hca, hcal, hcql⟩ := hinv.flok _ hin a hmem
      have hcsize : size ≤ c.size := by
        rw [← sizeAtAddr_eq hinv hc, hca]
        exact hsize
      refine ⟨?_, rfl, rfl, rfl, fun h => Option.noConfusion h, ?_⟩
      · constructor
        · intro h0
          obtain ⟨h1, h2, h3⟩ := hinv.pages0 h0
          refine ⟨h1, ?_, h3⟩
          intro l hl
          rcases List.mem_map.mp hl with ⟨l0, hl0, hmap⟩
          rw [h2 l0 hl0] at hmap
          rw [← hmap]
          rfl
        · exact hinv.walk
        · exact hinv.chain
        · exact hinv.szok
        · exact hinv.qlok
        · exact hinv.qlnodup
        · intro l hl x hx
          obtain ⟨-, l0, hl0, hx0⟩ := mem_removeFromFreeList hl x hx
          exact hinv.flok l0 hl0 x hx0
        · obtain ⟨h1, h2⟩ := hinv.lens
          exact ⟨by rw [length_removeFromFreeList]; exact h1, h2⟩
      · intro a2 ha2
        injection ha2 with ha2
        subst ha2
        exact ⟨c, hc, hca, hcal, hcql, hcsize, rfl⟩
    · rw [hnil] at hmem
      cases hmem

/-- A state with a block has an initialized heap. -/
theorem pages_pos_of_mem {s : SfState} (hinv : Inv s) {b : Block} (hb : b ∈ s.blocks) :
    0 < s.heapPages := by
  rcases Nat.eq_zero_or_pos s.heapPages with h | h
  · rw [(hinv.pages0 h).1] at hb
    cases hb
  · exact h

/-- No quick list links the pointer of a present non-quick-list block. -/
theorem noql_of_nql {s : SfState} (hinv : Inv s) {b : Block} (hb : b ∈ s.blocks)
    (hq : b.inQL = false) : ∀ j, ∀ a ∈ nthList s.quickLists j, a ≠ b.addr := by
  intro j a ha he
  obtain ⟨c, hc, hca, -, -, hcql⟩ := hinv.qlok j a ha
  have h2 : c = b := inv_unique hinv c hc b hb (by rw [hca, he])
  rw [h2, hq] at hcql
  exact Bool.noConfusion hcql

/-- `AllocAt` transports along key-equal block lists. -/
theorem allocAt_of_keys {bs bs2 : List Block}
    (h : bs2.map blockKey = bs.map blockKey) :
    ∀ pp, AllocAt bs pp → AllocAt bs2 pp := by
  rintro pp ⟨w, hw, hwpp, hwal, hwql⟩
  obtain ⟨w2, hw2, h1, -, h3, h4⟩ := mem_of_keys h w hw
  refine ⟨w2, hw2, ?_, ?_, ?_⟩
  · rw [h1]; exact hwpp
  · rw [h3]; exact hwal
  · rw [h4]; exact hwql

/-- Rewriting a middle allocated block to an allocated, non-quick-list
block of the same pointer and size (no free-list change) keeps the heap
invariant, provided no quick list links the address. -/
theorem inv_mid_subst_noflist {s : SfState} {u : List Block} {b b2 : Block} {v : List Block}
    (hinv : Inv s) (hs : s.blocks = u ++ b :: v)
    (haddr : b2.addr = b.addr) (hsize : b2.size = b.size)
    (hal : b2.alloc = true) (hql2 : b2.inQL = false) (hbal : b.alloc = true)
    (hnoql : ∀ j, ∀ a ∈ nthList s.quickLists j, a ≠ b.addr) :
    Inv { s with blocks := u ++ b2 :: v } ∧
    (∀ pp, AllocAt s.blocks pp → AllocAt (u ++ b2 :: v) pp) := by
  have hbmem : b ∈ s.blocks := by
    rw [hs]
    exact List.mem_append.mpr (Or.inr (List.mem_cons_self _ _))
  have hb2mem : b2 ∈ u ++ b2 :: v := List.mem_append.mpr (Or.inr (List.mem_cons_self _ _))
  have hkeep : ∀ c ∈ s.blocks, c ≠ b → c ∈ u ++ b2 :: v := by
    intro c hc hne
    rw [hs] at hc
    rcases List.mem_append.mp hc with h | h
    · exact List.mem_append.mpr (Or.inl h)
    · rcases List.mem_cons.mp h with h | h
      · exact absurd h hne
      · exact List.mem_append.mpr (Or.inr (List.mem_cons_of_mem _ h))
  constructor
  · constructor
    · intro h0
      have h9 := (hinv.pages0 h0).1
      rw [hs] at h9
      simp at h9
    · intro h0
      have hw := hinv.walk h0
      rw [hs] at hw
      exact walkTiles_mid_subst haddr hsize hw
    · have hc := hinv.chain
      rw [hs] at hc
      obtain ⟨hcu, hcv, -, -⟩ := chainAlloc_parts hc
      exact chainAlloc_mid_alloc hal hcu hcv
    · intro w hw
      rcases List.mem_append.mp hw with h | h
      · exact hinv.szok w (by rw [hs]; exact List.mem_append.mpr (Or.inl h))
      · rcases List.mem_cons.mp h with h | h
        · rw [h, hsize]
          exact hinv.szok b hbmem
        · exact hinv.szok w (by
            rw [hs]
            exact List.mem_append.mpr (Or.inr (List.mem_cons_of_mem _ h)))
    · intro j a ha
      obtain ⟨c, hc, hca, hcs, hcal, hcql⟩ := hinv.qlok j a ha
      have hne : c ≠ b := by
        intro he
        exact hnoql j a ha (by rw [← hca, he])
      exact ⟨c, hkeep c hc hne, hca, hcs, hcal, hcql⟩
    · intro j
      exact hinv.qlnodup j
    · intro l hl a ha
      obtain ⟨c, hc, hca, hcal, hcql⟩ := hinv.flok l hl a ha
      have hne : c ≠ b := by
        intro he
        rw [he, hbal] at hcal
        exact Bool.noConfusion hcal
      exact ⟨c, hkeep c hc hne, hca, hcal, hcql⟩
    · exact hinv.lens
  · rintro pp ⟨w, hw, hwpp, hwal, hwql⟩
    by_cases hne : w = b
    · refine ⟨b2, hb2mem, ?_, hal, hql2⟩
      rw [haddr, ← hne]
      exact hwpp
    · exact ⟨w, hkeep w hw hne, hwpp, hwal, hwql⟩

/-- The non-splitting allocation path keeps the heap invariant and
allocated non-quick-list addresses stay covered. -/
theorem inv_allocWholeIdx {s : SfState} {i : Nat} {u : List Block} {b : Block} {v : List Block}
    (hinv : Inv s) (hdec : splitAt3 s.blocks i = some (u, b, v))
    (hbql : b.inQL = false) (payloadReq : Nat) :
    Inv (allocWholeIdx s i payloadReq) ∧
    (∀ pp, AllocAt s.blocks pp → AllocAt (allocWholeIdx s i payloadReq).blocks pp) := by
  have hs := (splitAt3_decomp hdec).1
  have hbmem : b ∈ s.blocks := by
    rw [hs]
    exact List.mem_append.mpr (Or.inr (List.mem_cons_self _ _))
  have hnoql := noql_of_nql hinv hbmem hbql
  unfold allocWholeIdx
  rw [hdec]
  dsimp only
  set b2 : Block := ⟨b.addr, b.size, payloadReq, true, false, b.prevAlloc⟩
  obtain ⟨hinv2, htrans⟩ := @inv_mid_alloc_subst s u b b2 v hinv hs rfl rfl rfl rfl hnoql
  obtain ⟨hinv3, hkeys3, -, -, -⟩ := inv_setPrevAllocdNext hinv2 i true
  refine ⟨hinv3, ?_⟩
  intro pp hpp
  exact allocAt_of_keys hkeys3 pp (htrans pp hpp)

/-- The splitting allocation path keeps the heap invariant (the
fragment is coalesced immediately) and allocated non-quick-list
addresses stay covered. -/
theorem inv_splitBlockIdx {s : SfState} {i : Nat} {u : List Block} {b : Block} {v : List Block}
    {effSize remSize : Nat}
    (hinv : Inv s) (hdec : splitAt3 s.blocks i = some (u, b, v))
    (hbql : b.inQL = false) (payloadReq : Nat)
    (hd16 : 16 ∣ effSize) (h32 : MIN_BLOCK_SIZE ≤ effSize)
    (heq : b.size = effSize + remSize) (hrem : MIN_BLOCK_SIZE ≤ remSize) :
    Inv (splitBlockIdx s i payloadReq effSize remSize) ∧
    (∀ pp, AllocAt s.blocks pp →
      AllocAt (splitBlockIdx s i payloadReq effSize remSize).blocks pp) := by
  have hs := (splitAt3_decomp hdec).1
  have hi := (splitAt3_decomp hdec).2
  have hbmem : b ∈ s.blocks := by
    rw [hs]
    exact List.mem_append.mpr (Or.inr (List.mem_cons_self _ _))
  have hnoql := noql_of_nql hinv hbmem hbql
  have hp := pages_pos_of_mem hinv hbmem
  have hszb := hinv.szok b hbmem
  have hrem16 : 16 ∣ remSize := by
    obtain ⟨hb16, -⟩ := hszb
    omega
  unfold splitBlockIdx
  rw [hdec]
  dsimp only
  set b2 : Block := ⟨b.addr, effSize, payloadReq, true, false, b.prevAlloc⟩
  set frag : Block := ⟨b.addr + effSize, remSize, 0, false, false, true⟩
  set s2 : SfState := { s with
    blocks := u ++ b2 :: frag :: v
    freeLists := removeFromFreeList s.freeLists b.addr }
  have hkeep2 : ∀ c ∈ s.blocks, c ≠ b → c ∈ s2.blocks := by
    intro c hc hne
    rw [hs] at hc
    rcases List.mem_append.mp hc with h | h
    · exact List.mem_append.mpr (Or.inl h)
    · rcases List.mem_cons.mp h with h | h
      · exact absurd h hne
      · exact List.mem_append.mpr
          (Or.inr (List.mem_cons_of_mem _ (List.mem_cons_of_mem _ h)))
  have hlen : (u ++ [b2]).length = i + 1 := by
    rw [List.length_append, hi]
    rfl
  have hb3 : (u ++ [b2]) ++ frag :: v = u ++ b2 :: frag :: v := by
    rw [List.append_assoc]
    rfl
  have hdec2 : splitAt3 s2.blocks (i + 1) = some (u ++ [b2], frag, v) := by
    have h0 := splitAt3_of_parts (u ++ [b2]) frag v
    rw [hb3, hlen] at h0
    exact h0
  have hw2 : WalkTiles (4 * ROW_SIZE) (u ++ b2 :: frag :: v)
      (s.heapPages * PAGE_SZ - 2 * ROW_SIZE) := by
    have hw := hinv.walk hp
    rw [hs] at hw
    refine walkTiles_split ?_ ?_ ?_ hw
    · rfl
    · show effSize + remSize = b.size
      omega
    · rfl
  have hc := hinv.chain
  rw [hs] at hc
  obtain ⟨hcu, hcv, -, -⟩ := chainAlloc_parts hc
  have hcu2 : ChainAlloc (u ++ [b2]) :=
    chainAlloc_of_parts hcu trivial (fun x hx => Or.inr rfl)
      (fun y hy => Option.noConfusion hy)
  have hsz2 : SzOk s2.blocks := by
    intro w hw
    rcases List.mem_append.mp hw with h | h
    · exact hinv.szok w (by rw [hs]; exact List.mem_append.mpr (Or.inl h))
    · rcases List.mem_cons.mp h with h | h
      · rw [h]
        exact ⟨hd16, h32⟩
      · rcases List.mem_cons.mp h with h | h
        · rw [h]
          exact ⟨hrem16, hrem⟩
        · exact hinv.szok w (by
            rw [hs]
            exact List.mem_append.mpr (Or.inr (List.mem_cons_of_mem _ h)))
  have hfl2 : FlOk s2 := by
    intro l hl a ha
    obtain ⟨hne, l0, hl0, ha0⟩ := mem_removeFromFreeList hl a ha
    obtain ⟨c, hc2, hca, hcal, hcql⟩ := hinv.flok l0 hl0 a ha0
    have hneb : c ≠ b := by
      intro he
      rw [he] at hca
      exact hne hca.symm
    exact ⟨c, hkeep2 c hc2 hneb, hca, hcal, hcql⟩
  obtain ⟨m1, m2, m3, m4, m5, m6, m7, m8⟩ :=
    coalesce_master hdec2 rfl rfl hw2 hcu2 hcv hsz2 hfl2
  constructor
  · constructor
    · intro h0
      rw [m1] at h0
      have h2 : s.heapPages = 0 := h0
      omega
    · refine blocksTile_of_walk m3 ?_
      rw [m1]
    · exact m4
    · exact m5
    · intro j a ha
      rw [m2] at ha
      obtain ⟨c, hc2, hca, hcs, hcal, hcql⟩ := hinv.qlok j a ha
      have hne : c ≠ b := by
        intro he
        exact hnoql j a ha (by rw [← hca, he])
      exact ⟨c, m8 c (hkeep2 c hc2 hne) hcal, hca, hcs, hcal, hcql⟩
    · intro j
      rw [m2]
      exact hinv.qlnodup j
    · exact m6
    · refine ⟨?_, ?_⟩
      · rw [m7]
        rw [show s2.freeLists = removeFromFreeList s.freeLists b.addr from rfl]
        rw [length_removeFromFreeList]
        exact hinv.lens.1
      · rw [m2]
        exact hinv.lens.2
  · rintro pp ⟨w, hw, hwpp, hwal, hwql⟩
    by_cases hne : w = b
    · have hb2m : b2 ∈ s2.blocks := List.mem_append.mpr (Or.inr (List.mem_cons_self _ _))
      refine ⟨b2, m8 b2 hb2m rfl, ?_, rfl, rfl⟩
      show b.addr + 2 * ROW_SIZE = pp
      rw [← hne]
      exact hwpp
    · exact ⟨w, m8 w (hkeep2 w hw hne) hwal, hwpp, hwal, hwql⟩

/-- `allocateFound` (split or consume whole, then update the statistic)
keeps the heap invariant; allocated non-quick-list addresses stay
covered. -/
theorem inv_allocateFound {s : SfState} (hinv : Inv s) {a effSize : Nat} (payloadReq : Nat)
    (hfound : ∃ c ∈ s.blocks, c.addr = a ∧ c.alloc = false ∧ c.inQL = false ∧
      effSize ≤ c.size)
    (hd16 : 16 ∣ effSize) (h32 : MIN_BLOCK_SIZE ≤ effSize) :
    Inv (allocateFound s a effSize payloadReq).1 ∧
    (∀ pp, AllocAt s.blocks pp →
      AllocAt (allocateFound s a effSize payloadReq).1.blocks pp) := by
  obtain ⟨c, hc, hca, hcal, hcql, hcs⟩ := hfound
  unfold allocateFound
  cases hbi : blockIdx s.blocks a with
  | none => exact ⟨hinv, fun pp h => h⟩
  | some i =>
    obtain ⟨u, v, hs, hi, hdec⟩ := blockIdx_unique_target hinv hc hca hbi
    dsimp only
    rw [hdec]
    dsimp only
    split
    · rename_i hrem
      obtain ⟨h1, h2⟩ := inv_splitBlockIdx hinv hdec hcql payloadReq hd16 h32
        (by omega) hrem
      refine ⟨inv_updateMaxAggPayload h1, ?_⟩
      intro pp hpp
      rw [(updateMaxAggPayload_fields _).1]
      exact h2 pp hpp
    · obtain ⟨h1, h2⟩ := inv_allocWholeIdx hinv hdec hcql payloadReq
      refine ⟨inv_updateMaxAggPayload h1, ?_⟩
      intro pp hpp
      rw [(updateMaxAggPayload_fields _).1]
      exact h2 pp hpp

/-- The quick-list allocation path keeps the heap invariant; allocated
non-quick-list addresses stay covered. -/
theorem inv_mallocQuickPath {s : SfState} (hinv : Inv s) {a effSize : Nat} (payloadReq : Nat)
    (hfound : ∃ c ∈ s.blocks, c.addr = a ∧ c.alloc = true ∧ c.inQL = true ∧
      c.size = effSize)
    (hnoql : ∀ j, ∀ x ∈ nthList s.quickLists j, x ≠ a) :
    Inv (mallocQuickPath s a effSize payloadReq).1 ∧
    (∀ pp, AllocAt s.blocks pp →
      AllocAt (mallocQuickPath s a effSize payloadReq).1.blocks pp) := by
  obtain ⟨c, hc, hca, hcal, hcql, hcs⟩ := hfound
  unfold mallocQuickPath
  cases hbi : blockIdx s.blocks a with
  | none => exact ⟨hinv, fun pp h => h⟩
  | some i =>
    obtain ⟨u, v, hs, hi, hdec⟩ := blockIdx_unique_target hinv hc hca hbi
    dsimp only
    rw [hdec]
    dsimp only
    set b2 : Block := ⟨c.addr, effSize, payloadReq, true, false, c.prevAlloc⟩
    have hnoql2 : ∀ j, ∀ x ∈ nthList s.quickLists j, x ≠ c.addr := by
      intro j x hx
      rw [hca]
      exact hnoql j x hx
    obtain ⟨hinv2, htrans⟩ :=
      @inv_mid_subst_noflist s u c b2 v hinv hs rfl hcs.symm rfl rfl hcal hnoql2
    obtain ⟨hinv3, hkeys3, -, -, -⟩ := inv_setPrevAllocdNext hinv2 i true
    refine ⟨inv_updateMaxAggPayload hinv3, ?_⟩
    intro pp hpp
    rw [(updateMaxAggPayload_fields _).1]
    exact allocAt_of_keys hkeys3 pp (htrans pp hpp)

/-- The free-list search loop of `sf_malloc` keeps the heap invariant;
allocated non-quick-list addresses stay covered. -/
theorem inv_mallocLoop {effSize : Nat} (payloadReq : Nat)
    (hd16 : 16 ∣ effSize) (h32 : MIN_BLOCK_SIZE ≤ effSize) :
    ∀ (fuel : Nat) (s : SfState), Inv s → 0 < s.heapPages →
      Inv (mallocLoop effSize payloadReq fuel s).1 ∧
      (∀ pp, AllocAt s.blocks pp →
        AllocAt (mallocLoop effSize payloadReq fuel s).1.blocks pp) := by
  intro fuel
  induction fuel with
  | zero =>
    intro s hinv hp
    exact ⟨hinv, fun pp h => h⟩
  | succ fuel ih =>
    intro s hinv hp
    obtain ⟨hinvG, hbG, hqG, hpG, hnoneG, hsomeG⟩ := getFreeListBlock_props hinv effSize
    simp only [mallocLoop]
    cases hgf : (getFreeListBlock s effSize).2 with
    | some a =>
      dsimp only
      obtain ⟨c, hc, hca, hcal, hcql, hcs, -⟩ := hsomeG a hgf
      obtain ⟨hI, hT⟩ := inv_allocateFound hinvG payloadReq
        ⟨c, by rw [hbG]; exact hc, hca, hcal, hcql, hcs⟩ hd16 h32
      refine ⟨hI, ?_⟩
      intro pp hpp
      refine hT pp ?_
      rw [hbG]
      exact hpp
    | none =>
      dsimp only
      rw [hnoneG hgf]
      split
      · obtain ⟨hE, hpE, hqE, htE⟩ := inv_extendHeap hinv hp
        refine ⟨?_, ?_⟩
        · refine inv_congr ?_ ?_ ?_ ?_ hE <;> rfl
        · intro pp hpp
          show AllocAt (extendHeap s).1.blocks pp
          exact htE pp hpp
      · obtain ⟨hE, hpE, hqE, htE⟩ := inv_extendHeap hinv hp
        obtain ⟨hL, htL⟩ := ih (extendHeap s).1 hE hpE
        exact ⟨hL, fun pp hpp => htL pp (htE pp hpp)⟩

/-- The post-initialization body of `sf_malloc` keeps the heap
invariant; allocated non-quick-list addresses stay covered. -/
theorem inv_sfMallocCore {s1 : SfState} (hinv : Inv s1) (hp : 0 < s1.heapPages) (size : Nat) :
    Inv (sfMallocCore s1 size).1 ∧
    (∀ pp, AllocAt s1.blocks pp → AllocAt (sfMallocCore s1 size).1.blocks pp) := by
  obtain ⟨he16, he32⟩ := effectiveBlockSize_props size
  unfold sfMallocCore
  dsimp only
  split
  · exact ⟨hinv, fun pp h => h⟩
  · obtain ⟨hinvQ, hbQ, hfQ, hpQ, hnoneQ, hsomeQ⟩ :=
      getQuickListBlock_props hinv (effectiveBlockSize size)
    cases hgq : (getQuickListBlock s1 (effectiveBlockSize size)).2 with
    | some a =>
      dsimp only
      obtain ⟨c, hc, hca, hcal, hcql, hcs, hrest⟩ := hsomeQ a hgq
      have hcs2 : c.size = effectiveBlockSize size := by
        rw [hcs, ← size_class_eq he16 he32]
      obtain ⟨hI, hT⟩ := inv_mallocQuickPath hinvQ size
        ⟨c, by rw [hbQ]; exact hc, hca, hcal, hcql, hcs2⟩ hrest
      refine ⟨hI, ?_⟩
      intro pp hpp
      refine hT pp ?_
      rw [hbQ]
      exact hpp
    | none =>
      dsimp only
      rw [hnoneQ hgq]
      exact inv_mallocLoop size he16 he32 (MAX_PAGES + 1) s1 hinv hp

/-- `sf_malloc` keeps the heap invariant on every path (including heap
initialization and the rollover path); allocated non-quick-list
addresses stay covered. -/
theorem inv_sf_malloc {s : SfState} (hinv : Inv s) (size : Nat) :
    Inv (sf_malloc s size).1 ∧
    (∀ pp, AllocAt s.blocks pp → AllocAt (sf_malloc s size).1.blocks pp) := by
  unfold sf_malloc
  split
  · exact ⟨hinv, fun pp h => h⟩
  · split
    · rename_i hne h0
      have hbe := (hinv.pages0 h0).1
      have htriv : ∀ pp, AllocAt s.blocks pp → False := by
        rintro pp ⟨w, hw, -⟩
        rw [hbe] at hw
        cases hw
      obtain ⟨hinvI, hpI, h2I⟩ := inv_initializeHeap hinv h0
      split
      · refine ⟨?_, ?_⟩
        · refine inv_congr ?_ ?_ ?_ ?_ hinvI <;> rfl
        · intro pp hpp
          exact (htriv pp hpp).elim
      · obtain ⟨hc1, hc2⟩ := inv_sfMallocCore hinvI (by rw [hpI]; omega) size
        exact ⟨hc1, fun pp hpp => (htriv pp hpp).elim⟩
    · rename_i hne hne0
      exact inv_sfMallocCore hinv (Nat.pos_of_ne_zero hne0) size

/-- `setPrevAllocd` on the successor of the last block writes the
epilogue bit. -/
theorem setPrevAllocdNext_nil {s : SfState} {u : List Block} {b : Block} {i : Nat}
    (hs : s.blocks = u ++ [b]) (hi : u.length = i) (bit : Bool) :
    setPrevAllocdNext s i bit = { s with epiloguePrevAlloc := bit } := by
  unfold setPrevAllocdNext
  have hlen : s.blocks.length = i + 1 := by
    rw [hs, List.length_append, List.length_cons, List.length_nil, hi]
  rw [if_neg (by rw [hlen]; omega)]

/-- `setPrevAllocd` on the successor of a non-last block rewrites that
block's `PREV_BLOCK_ALLOCATED` bit. -/
theorem setPrevAllocdNext_cons {s : SfState} {u : List Block} {b n : Block}
    {v3 : List Block} {i : Nat}
    (hs : s.blocks = u ++ b :: n :: v3) (hi : u.length = i) (bit : Bool) :
    setPrevAllocdNext s i bit =
      { s with blocks := u ++ b :: ({ n with prevAlloc := bit }) :: v3 } := by
  unfold setPrevAllocdNext
  have hlen : i + 1 < s.blocks.length := by
    rw [hs, List.length_append, List.length_cons, List.length_cons, hi]
    omega
  rw [if_pos hlen]
  have h2 : setIdx s.blocks (i + 1) (fun nb => { nb with prevAlloc := bit }) =
      u ++ b :: ({ n with prevAlloc := bit }) :: v3 := by
    rw [hs]
    have h3 : u ++ b :: n :: v3 = (u ++ [b]) ++ n :: v3 := by
      rw [List.append_assoc]
      rfl
    rw [h3]
    have h4 : (u ++ [b]).length = i + 1 := by
      rw [List.length_append, List.length_cons, List.length_nil, hi]
    rw [← h4, setIdx_of_parts, List.append_assoc]
    rfl
  rw [h2]

/-- A pointer that `verifyPointer` accepts lies on an initialized heap
at the position `blockIdx` computes for it. -/
theorem verifyPointer_ok {s : SfState} {pp i : Nat} (h : verifyPointer s pp = .ok i) :
    s.heapPages ≠ 0 ∧ blockIdx s.blocks (pp - 2 * ROW_SIZE) = some i := by
  unfold verifyPointer at h
  by_cases h1 : pp = 0
  · rw [if_pos h1] at h
    exact VerifyResult.noConfusion h
  rw [if_neg h1] at h
  by_cases h2 : pp % BLOCK_ALIGN ≠ 0
  · rw [if_pos h2] at h
    exact VerifyResult.noConfusion h
  rw [if_neg h2] at h
  by_cases h3 : s.heapPages = 0
  · rw [if_pos h3] at h
    exact VerifyResult.noConfusion h
  rw [if_neg h3] at h
  dsimp only at h
  by_cases h4 : pp - 2 * ROW_SIZE < 4 * ROW_SIZE
  · rw [if_pos h4] at h
    exact VerifyResult.noConfusion h
  rw [if_neg h4] at h
  by_cases h5 : s.heapPages * PAGE_SZ - 2 * ROW_SIZE ≤ pp - 2 * ROW_SIZE + 4 * ROW_SIZE
  · rw [if_pos h5] at h
    exact VerifyResult.noConfusion h
  rw [if_neg h5] at h
  cases hbi : blockIdx s.blocks (pp - 2 * ROW_SIZE) with
  | none =>
    rw [hbi] at h
    exact VerifyResult.noConfusion h
  | some i2 =>
    rw [hbi] at h
    dsimp only at h
    cases hdec : splitAt3 s.blocks i2 with
    | none =>
      rw [hdec] at h
      exact VerifyResult.noConfusion h
    | some tpl =>
      obtain ⟨u, b, v⟩ := tpl
      rw [hdec] at h
      dsimp only at h
      split at h
      · exact VerifyResult.noConfusion h
      split at h
      · exact VerifyResult.noConfusion h
      split at h
      · exact VerifyResult.noConfusion h
      split at h
      · exact VerifyResult.noConfusion h
      injection h with h6
      subst h6
      exact ⟨h3, rfl⟩

/-- On a walk-unique block list, `blockIdx` at a present block's pointer
finds exactly that block. -/
theorem blockIdx_target_of_unique {bs : List Block}
    (huniq : ∀ c1 ∈ bs, ∀ c2 ∈ bs, c1.addr = c2.addr → c1 = c2)
    {a i : Nat} {w : Block} (hw : w ∈ bs) (hwa : w.addr = a)
    (h : blockIdx bs a = some i) :
    ∃ u v, bs = u ++ w :: v ∧ u.length = i ∧ splitAt3 bs i = some (u, w, v) := by
  rcases blockIdx_spec bs a i h with ⟨b, hb, hba⟩
  rcases getElem?_some_decomp bs i b hb with ⟨hd, hl⟩
  have hbm : b ∈ bs := by
    rw [← hd]
    exact List.mem_append.mpr (Or.inr (List.mem_cons_self _ _))
  have hbw : b = w := huniq b hbm w hw (by rw [hba, hwa])
  subst hbw
  refine ⟨bs.take i, bs.drop (i + 1), hd.symm, hl, ?_⟩
  unfold splitAt3
  rw [hb]

/-- The quick-list flush loop: folding `flushOne` over distinct
pointers of allocated quick-list blocks of the class size keeps the
walk, chain, sizes and free-list coherence, touches neither pages nor
quick lists, and preserves both the freshly quick-listed block and the
target blocks of every other quick list. -/
theorem flush_fold {blockSize qi baddr : Nat} {qls0 : List (List Nat)} {hpages : Nat}
    (hbs : blockSize = MIN_BLOCK_SIZE + BLOCK_ALIGN * qi) :
    ∀ (rest : List Nat) (t : SfState),
      rest.Nodup →
      (∀ x ∈ rest, x ≠ baddr) →
      (∀ x ∈ rest, ∃ c ∈ t.blocks, c.addr = x ∧ c.size = blockSize ∧
        c.alloc = true ∧ c.inQL = true) →
      t.heapPages = hpages → 0 < t.heapPages → t.quickLists = qls0 →
      BlocksTile t → ChainAlloc t.blocks → SzOk t.blocks → FlOk t →
      t.freeLists.length = NUM_FREE_LISTS →
      (∃ d ∈ t.blocks, d.addr = baddr ∧ d.size = blockSize ∧ d.alloc = true ∧
        d.inQL = true) →
      (∀ j2, j2 ≠ qi → ∀ x ∈ nthList t.quickLists j2,
        ∃ c ∈ t.blocks, c.addr = x ∧ c.size = MIN_BLOCK_SIZE + BLOCK_ALIGN * j2 ∧
          c.alloc = true ∧ c.inQL = true) →
      ((rest.foldl (fun t2 a => flushOne t2 a blockSize) t).heapPages = hpages ∧
       (rest.foldl (fun t2 a => flushOne t2 a blockSize) t).quickLists = qls0 ∧
       0 < (rest.foldl (fun t2 a => flushOne t2 a blockSize) t).heapPages ∧
       BlocksTile (rest.foldl (fun t2 a => flushOne t2 a blockSize) t) ∧
       ChainAlloc (rest.foldl (fun t2 a => flushOne t2 a blockSize) t).blocks ∧
       SzOk (rest.foldl (fun t2 a => flushOne t2 a blockSize) t).blocks ∧
       FlOk (rest.foldl (fun t2 a => flushOne t2 a blockSize) t) ∧
       (rest.foldl (fun t2 a => flushOne t2 a blockSize) t).freeLists.length
         = NUM_FREE_LISTS ∧
       (∃ d ∈ (rest.foldl (fun t2 a => flushOne t2 a blockSize) t).blocks,
         d.addr = baddr ∧ d.size = blockSize ∧ d.alloc = true ∧ d.inQL = true) ∧
       (∀ j2, j2 ≠ qi →
         ∀ x ∈ nthList (rest.foldl (fun t2 a => flushOne t2 a blockSize) t).quickLists j2,
         ∃ c ∈ (rest.foldl (fun t2 a => flushOne t2 a blockSize) t).blocks,
           c.addr = x ∧ c.size = MIN_BLOCK_SIZE + BLOCK_ALIGN * j2 ∧
           c.alloc = true ∧ c.inQL = true)) := by
  intro rest
  induction rest with
  | nil =>
    intro t h1 h2 h3 h4 h5 h6 h7 h8 h9 h10 h11 h12 h13
    exact ⟨h4, h6, h5, h7, h8, h9, h10, h11, h12, h13⟩
  | cons x rest ih =>
    intro t hnd hnb htg hhp hp hql hwt hch hsz hfl hlen hd hol
    rw [List.foldl_cons]
    obtain ⟨c, hcm, hca, hcs, hcal, hcql⟩ := htg x (List.mem_cons_self _ _)
    have huniq := walkTiles_unique (hwt hp) (szok_pos hsz)
    have hbi : (blockIdx t.blocks x).isSome = true :=
      blockIdx_isSome_of_mem t.blocks c x hcm hca
    cases hbidx : blockIdx t.blocks x with
    | none =>
      rw [hbidx] at hbi
      exact Bool.noConfusion hbi
    | some j =>
      obtain ⟨u, v, hs, hi, hdec⟩ := blockIdx_target_of_unique huniq hcm hca hbidx
      set cf : Block := ⟨c.addr, blockSize, 0, false, false, c.prevAlloc⟩
      set t2 : SfState := { t with blocks := u ++ cf :: v }
      have hset : setIdx t.blocks j
          (fun c0 => (⟨c0.addr, blockSize, 0, false, false, c0.prevAlloc⟩ : Block)) =
          u ++ cf :: v := by
        rw [hs, ← hi, setIdx_of_parts]
      have hstep : flushOne t x blockSize = coalesceIdx t2 j := by
        unfold flushOne
        rw [hbidx]
        dsimp only
        rw [hset]
      rw [hstep]
      have hkeep : ∀ d ∈ t.blocks, d ≠ c → d ∈ t2.blocks := by
        intro d hdm hne
        rw [hs] at hdm
        rcases List.mem_append.mp hdm with h | h
        · exact List.mem_append.mpr (Or.inl h)
        · rcases List.mem_cons.mp h with h | h
          · exact absurd h hne
          · exact List.mem_append.mpr (Or.inr (List.mem_cons_of_mem _ h))
      have hdec2 : splitAt3 t2.blocks j = some (u, cf, v) := by
        have h0 := splitAt3_of_parts u cf v
        rw [hi] at h0
        exact h0
      have hwalk2 : WalkTiles (4 * ROW_SIZE) t2.blocks
          (t.heapPages * PAGE_SZ - 2 * ROW_SIZE) := by
        have hw := hwt hp
        rw [hs] at hw
        refine walkTiles_mid_subst ?_ ?_ hw
        · rfl
        · exact hcs.symm
      rw [hs] at hch
      obtain ⟨hcu, hcv, -, -⟩ := chainAlloc_parts hch
      have hsz2 : SzOk t2.blocks := by
        intro w hw
        rcases List.mem_append.mp hw with h | h
        · exact hsz w (by rw [hs]; exact List.mem_append.mpr (Or.inl h))
        · rcases List.mem_cons.mp h with h | h
          · rw [h]
            have h2 := hsz c hcm
            rw [hcs] at h2
            exact h2
          · exact hsz w (by
              rw [hs]
              exact List.mem_append.mpr (Or.inr (List.mem_cons_of_mem _ h)))
      have hfl2 : FlOk t2 := by
        intro l hl a ha
        obtain ⟨d, hdm, hda, hdal, hdql⟩ := hfl l hl a ha
        have hne : d ≠ c := by
          intro he
          rw [he, hcal] at hdal
          exact Bool.noConfusion hdal
        exact ⟨d, hkeep d hdm hne, hda, hdal, hdql⟩
      obtain ⟨m1, m2, m3, m4, m5, m6, m7, m8⟩ :=
        coalesce_master hdec2 rfl rfl hwalk2 hcu hcv hsz2 hfl2
      have hxnotin : x ∉ rest := (List.nodup_cons.mp hnd).1
      refine ih (coalesceIdx t2 j) (List.nodup_cons.mp hnd).2
        (fun y hy => hnb y (List.mem_cons_of_mem _ hy)) ?_ ?_ ?_ ?_ ?_ m4 m5 m6 ?_ ?_ ?_
      · intro y hy
        obtain ⟨cy, hcym, hcya, hcys, hcyal, hcyql⟩ := htg y (List.mem_cons_of_mem _ hy)
        have hne : cy ≠ c := by
          intro he
          rw [he, hca] at hcya
          exact hxnotin (hcya ▸ hy)
        exact ⟨cy, m8 cy (hkeep cy hcym hne) hcyal, hcya, hcys, hcyal, hcyql⟩
      · rw [m1]
        exact hhp
      · rw [m1]
        exact hp
      · rw [m2]
        exact hql
      · refine blocksTile_of_walk m3 ?_
        rw [m1]
      · rw [m7]
        exact hlen
      · obtain ⟨d, hdm, hda, hds, hdal, hdql⟩ := hd
        have hne : d ≠ c := by
          intro he
          rw [he, hca] at hda
          exact hnb x (List.mem_cons_self _ _) hda
        exact ⟨d, m8 d (hkeep d hdm hne) hdal, hda, hds, hdal, hdql⟩
      · intro j2 hj2 y hy
        rw [m2] at hy
        obtain ⟨cy, hcym, hcya, hcys, hcyal, hcyql⟩ := hol j2 hj2 y hy
        have hne : cy ≠ c := by
          intro he
          rw [he, hcs, hbs] at hcys
          have : j2 = qi := by
            simp only [MIN_BLOCK_SIZE, BLOCK_ALIGN] at hcys
            omega
          exact hj2 this
        exact ⟨cy, m8 cy (hkeep cy hcym hne) hcyal, hcya, hcys, hcyal, hcyql⟩

/-- `insertIntoQuickList` on a freed block keeps the heap invariant,
whether it pushes or flushes. -/
theorem inv_insertIntoQuickListIdx {s : SfState} {i : Nat} {u : List Block} {w : Block}
    {v : List Block}
    (hinv : Inv s) (hdec : splitAt3 s.blocks i = some (u, w, v))
    (hwal : w.alloc = true) (hwql : w.inQL = false)
    (hqi : (w.size - MIN_BLOCK_SIZE) / BLOCK_ALIGN < NUM_QUICK_LISTS) :
    Inv (insertIntoQuickListIdx s i w.size ((w.size - MIN_BLOCK_SIZE) / BLOCK_ALIGN)) := by
  have hs := (splitAt3_decomp hdec).1
  have hwm : w ∈ s.blocks := by
    rw [hs]
    exact List.mem_append.mpr (Or.inr (List.mem_cons_self _ _))
  have hp := pages_pos_of_mem hinv hwm
  have hnoql := noql_of_nql hinv hwm hwql
  have hszw := hinv.szok w hwm
  have hbs : w.size = MIN_BLOCK_SIZE + BLOCK_ALIGN * ((w.size - MIN_BLOCK_SIZE) / BLOCK_ALIGN) :=
    size_class_eq hszw.1 hszw.2
  unfold insertIntoQuickListIdx
  rw [hdec]
  dsimp only
  set b2 : Block := ⟨w.addr, w.size, 0, true, true, w.prevAlloc⟩
  set s2 : SfState := { s with blocks := u ++ b2 :: v }
  have hkeep : ∀ d ∈ s.blocks, d ≠ w → d ∈ s2.blocks := by
    intro d hdm hne
    rw [hs] at hdm
    rcases List.mem_append.mp hdm with h | h
    · exact List.mem_append.mpr (Or.inl h)
    · rcases List.mem_cons.mp h with h | h
      · exact absurd h hne
      · exact List.mem_append.mpr (Or.inr (List.mem_cons_of_mem _ h))
  have hb2m : b2 ∈ s2.blocks := List.mem_append.mpr (Or.inr (List.mem_cons_self _ _))
  have hwt2 : BlocksTile s2 := by
    intro h0
    have hw := hinv.walk h0
    rw [hs] at hw
    refine walkTiles_mid_subst ?_ ?_ hw
    · rfl
    · rfl
  have hch2 : ChainAlloc s2.blocks := by
    have hc := hinv.chain
    rw [hs] at hc
    exact chainAlloc_mid_subst hwal.symm hc
  have hsz2 : SzOk s2.blocks := by
    intro d hdm
    rcases List.mem_append.mp hdm with h | h
    · exact hinv.szok d (by rw [hs]; exact List.mem_append.mpr (Or.inl h))
    · rcases List.mem_cons.mp h with h | h
      · rw [h]
        exact hszw
      · exact hinv.szok d (by
          rw [hs]
          exact List.mem_append.mpr (Or.inr (List.mem_cons_of_mem _ h)))
  have hfl2 : FlOk s2 := by
    intro l hl a ha
    obtain ⟨d, hdm, hda, hdal, hdql⟩ := hinv.flok l hl a ha
    have hne : d ≠ w := by
      intro he
      rw [he, hwal] at hdal
      exact Bool.noConfusion hdal
    exact ⟨d, hkeep d hdm hne, hda, hdal, hdql⟩
  have htgts : ∀ j, ∀ x ∈ nthList s.quickLists j,
      ∃ c ∈ s2.blocks, c.addr = x ∧ c.size = MIN_BLOCK_SIZE + BLOCK_ALIGN * j ∧
        c.alloc = true ∧ c.inQL = true := by
    intro j x hx
    obtain ⟨c, hcm, hca, hcs, hcal, hcql⟩ := hinv.qlok j x hx
    have hne : c ≠ w := by
      intro he
      exact hnoql j x hx (by rw [← hca, he])
    exact ⟨c, hkeep c hcm hne, hca, hcs, hcal, hcql⟩
  have hqilen : (w.size - MIN_BLOCK_SIZE) / BLOCK_ALIGN < s.quickLists.length := by
    rw [hinv.lens.2]
    exact hqi
  split
  · constructor
    · intro h0
      have h2 : s.heapPages = 0 := h0
      omega
    · exact hwt2
    · exact hch2
    · exact hsz2
    · intro j a ha
      by_cases hj : (w.size - MIN_BLOCK_SIZE) / BLOCK_ALIGN = j
      · rw [← hj, nthList_modifyIdx_self _ _ _ hqilen] at ha
        rcases List.mem_cons.mp ha with h | h
        · subst h
          refine ⟨b2, hb2m, rfl, ?_, rfl, rfl⟩
          rw [← hj]
          exact hbs
        · rw [hj] at h
          exact htgts j a h
      · rw [nthList_modifyIdx_ne _ _ _ _ hj] at ha
        exact htgts j a ha
    · intro j
      by_cases hj : (w.size - MIN_BLOCK_SIZE) / BLOCK_ALIGN = j
      · rw [← hj, nthList_modifyIdx_self _ _ _ hqilen]
        refine List.nodup_cons.mpr ⟨?_, ?_⟩
        · intro hmem
          exact hnoql _ _ hmem rfl
        · rw [hj]
          exact hinv.qlnodup j
      · rw [nthList_modifyIdx_ne _ _ _ _ hj]
        exact hinv.qlnodup j
    · exact hfl2
    · refine ⟨hinv.lens.1, ?_⟩
      rw [length_modifyIdx]
      exact hinv.lens.2
  · rename_i hover
    obtain ⟨f1, f2, f3, f4, f5, f6, f7, f8, f9, f10⟩ :=
      flush_fold hbs (nthList s.quickLists ((w.size - MIN_BLOCK_SIZE) / BLOCK_ALIGN)) s2
        (hinv.qlnodup _)
        (fun x hx => hnoql _ x hx)
        (fun x hx => by
          obtain ⟨c, hcm, hca, hcs, hcal, hcql⟩ := hinv.qlok _ x hx
          have hne : c ≠ w := by
            intro he
            exact hnoql _ x hx (by rw [← hca, he])
          refine ⟨c, hkeep c hcm hne, hca, ?_, hcal, hcql⟩
          rw [hcs, ← hbs])
        rfl hp rfl hwt2 hch2 hsz2 hfl2 hinv.lens.1
        ⟨b2, hb2m, rfl, rfl, rfl, rfl⟩
        (fun j2 hj2 x hx => htgts j2 x hx)
    constructor
    · intro h0
      rw [f1] at h0
      have h2 : s.heapPages = 0 := h0
      omega
    · exact f4
    · exact f5
    · exact f6
    · intro j a ha
      by_cases hj : (w.size - MIN_BLOCK_SIZE) / BLOCK_ALIGN = j
      · subst hj
        rw [nthList_modifyIdx_self] at ha
        · rcases List.mem_cons.mp ha with h | h
          · subst h
            obtain ⟨d, hdm, hda, hds, hdal, hdql⟩ := f9
            refine ⟨d, hdm, hda, ?_, hdal, hdql⟩
            rw [hds]
            exact hbs
          · cases h
        · rw [f2, hinv.lens.2]
          exact hqi
      · rw [nthList_modifyIdx_ne _ _ _ _ hj] at ha
        exact f10 j (fun he => hj he.symm) a ha
    · intro j
      by_cases hj : (w.size - MIN_BLOCK_SIZE) / BLOCK_ALIGN = j
      · rw [← hj, nthList_modifyIdx_self]
        · exact List.nodup_singleton _
        · rw [f2, hinv.lens.2]
          exact hqi
      · rw [nthList_modifyIdx_ne _ _ _ _ hj, f2]
        exact hinv.qlnodup j
    · exact f7
    · refine ⟨f8, ?_⟩
      rw [length_modifyIdx, f2]
      exact hinv.lens.2

/-- Freeing in place (header cleared, successor's
`PREV_BLOCK_ALLOCATED` cleared, then coalesce) keeps the heap
invariant. -/
theorem inv_free_direct {s : SfState} {i : Nat} {u : List Block} {w : Block} {v : List Block}
    (hinv : Inv s) (hdec : splitAt3 s.blocks i = some (u, w, v))
    (hwal : w.alloc = true) (hwql : w.inQL = false) :
    Inv (coalesceIdx (setPrevAllocdNext
      { s with blocks := u ++ (⟨w.addr, w.size, 0, false, false, w.prevAlloc⟩ : Block) :: v }
      i false) i) := by
  have hs := (splitAt3_decomp hdec).1
  have hi := (splitAt3_decomp hdec).2
  have hwm : w ∈ s.blocks := by
    rw [hs]
    exact List.mem_append.mpr (Or.inr (List.mem_cons_self _ _))
  have hp := pages_pos_of_mem hinv hwm
  have hnoql := noql_of_nql hinv hwm hwql
  set bf : Block := ⟨w.addr, w.size, 0, false, false, w.prevAlloc⟩
  have hc := hinv.chain
  rw [hs] at hc
  obtain ⟨hcu, hcv, -, -⟩ := chainAlloc_parts hc
  cases v with
  | nil =>
    have hs2b : SfState.blocks { s with blocks := u ++ bf :: [] } = u ++ [bf] := rfl
    rw [setPrevAllocdNext_nil hs2b hi false]
    set s3 : SfState := { { s with blocks := u ++ bf :: [] } with epiloguePrevAlloc := false }
    have hdec3 : splitAt3 s3.blocks i = some (u, bf, []) := by
      have h0 := splitAt3_of_parts u bf []
      rw [hi] at h0
      exact h0
    have hwalk3 : WalkTiles (4 * ROW_SIZE) s3.blocks
        (s.heapPages * PAGE_SZ - 2 * ROW_SIZE) := by
      have hw := hinv.walk hp
      rw [hs] at hw
      refine walkTiles_mid_subst ?_ ?_ hw
      · rfl
      · rfl
    have hsz3 : SzOk s3.blocks := by
      intro d hdm
      rcases List.mem_append.mp hdm with h | h
      · exact hinv.szok d (by rw [hs]; exact List.mem_append.mpr (Or.inl h))
      · rcases List.mem_cons.mp h with h | h
        · rw [h]
          exact hinv.szok w hwm
        · cases h
    have hfl3 : FlOk s3 := by
      intro l hl a ha
      obtain ⟨d, hdm, hda, hdal, hdql⟩ := hinv.flok l hl a ha
      rw [hs] at hdm
      rcases List.mem_append.mp hdm with h | h
      · exact ⟨d, List.mem_append.mpr (Or.inl h), hda, hdal, hdql⟩
      · rcases List.mem_cons.mp h with h | h
        · rw [h, hwal] at hdal
          exact Bool.noConfusion hdal
        · cases h
    obtain ⟨m1, m2, m3, m4, m5, m6, m7, m8⟩ :=
      coalesce_master hdec3 rfl rfl hwalk3 hcu trivial hsz3 hfl3
    constructor
    · intro h0
      rw [m1] at h0
      have h2 : s.heapPages = 0 := h0
      omega
    · refine blocksTile_of_walk m3 ?_
      rw [m1]
    · exact m4
    · exact m5
    · intro j a ha
      rw [m2] at ha
      obtain ⟨c, hcm, hca, hcs, hcal, hcql⟩ := hinv.qlok j a ha
      have hne : c ≠ w := by
        intro he
        exact hnoql j a ha (by rw [← hca, he])
      have hcm3 : c ∈ s3.blocks := by
        rw [hs] at hcm
        rcases List.mem_append.mp hcm with h | h
        · exact List.mem_append.mpr (Or.inl h)
        · rcases List.mem_cons.mp h with h | h
          · exact absurd h hne
          · cases h
      exact ⟨c, m8 c hcm3 hcal, hca, hcs, hcal, hcql⟩
    · intro j
      rw [m2]
      exact hinv.qlnodup j
    · exact m6
    · refine ⟨?_, ?_⟩
      · rw [m7]
        exact hinv.lens.1
      · rw [m2]
        exact hinv.lens.2
  | cons n v3 =>
    have hs2b : SfState.blocks { s with blocks := u ++ bf :: n :: v3 } =
        u ++ bf :: n :: v3 := rfl
    rw [setPrevAllocdNext_cons hs2b hi false]
    set n2 : Block := { n with prevAlloc := false }
    set s3 : SfState :=
      { { s with blocks := u ++ bf :: n :: v3 } with blocks := u ++ bf :: n2 :: v3 }
    have hnm : n ∈ s.blocks := by
      rw [hs]
      exact List.mem_append.mpr (Or.inr (List.mem_cons_of_mem _ (List.mem_cons_self _ _)))
    have hdec3 : splitAt3 s3.blocks i = some (u, bf, n2 :: v3) := by
      have h0 := splitAt3_of_parts u bf (n2 :: v3)
      rw [hi] at h0
      exact h0
    have hwalk3 : WalkTiles (4 * ROW_SIZE) s3.blocks
        (s.heapPages * PAGE_SZ - 2 * ROW_SIZE) := by
      have hw := hinv.walk hp
      rw [hs] at hw
      have hw2 : WalkTiles (4 * ROW_SIZE) (u ++ bf :: n :: v3)
          (s.heapPages * PAGE_SZ - 2 * ROW_SIZE) := by
        refine walkTiles_mid_subst ?_ ?_ hw
        · rfl
        · rfl
      have h1 : u ++ bf :: n :: v3 = (u ++ [bf]) ++ n :: v3 := by
        rw [List.append_assoc]
        rfl
      rw [h1] at hw2
      have hw3 : WalkTiles (4 * ROW_SIZE) ((u ++ [bf]) ++ n2 :: v3)
          (s.heapPages * PAGE_SZ - 2 * ROW_SIZE) := by
        refine walkTiles_mid_subst ?_ ?_ hw2
        · rfl
        · rfl
      have h2 : (u ++ [bf]) ++ n2 :: v3 = u ++ bf :: n2 :: v3 := by
        rw [List.append_assoc]
        rfl
      rw [h2] at hw3
      exact hw3
    have hcv3 : ChainAlloc (n2 :: v3) := by
      have h0 : ChainAlloc ([] ++ n :: v3) := hcv
      have h1 : ChainAlloc ([] ++ n2 :: v3) := by
        refine chainAlloc_mid_subst ?_ h0
        rfl
      exact h1
    have hsz3 : SzOk s3.blocks := by
      intro d hdm
      rcases List.mem_append.mp hdm with h | h
      · exact hinv.szok d (by rw [hs]; exact List.mem_append.mpr (Or.inl h))
      · rcases List.mem_cons.mp h with h | h
        · rw [h]
          exact hinv.szok w hwm
        · rcases List.mem_cons.mp h with h | h
          · rw [h]
            exact hinv.szok n hnm
          · exact hinv.szok d (by
              rw [hs]
              exact List.mem_append.mpr
                (Or.inr (List.mem_cons_of_mem _ (List.mem_cons_of_mem _ h))))
    have hkeep3 : ∀ d ∈ s.blocks, d ≠ w → ∃ d2 ∈ s3.blocks,
        d2.addr = d.addr ∧ d2.size = d.size ∧ d2.alloc = d.alloc ∧ d2.inQL = d.inQL := by
      intro d hdm hne
      rw [hs] at hdm
      rcases List.mem_append.mp hdm with h | h
      · exact ⟨d, List.mem_append.mpr (Or.inl h), rfl, rfl, rfl, rfl⟩
      · rcases List.mem_cons.mp h with h | h
        · exact absurd h hne
        · rcases List.mem_cons.mp h with h | h
          · refine ⟨n2, List.mem_append.mpr
              (Or.inr (List.mem_cons_of_mem _ (List.mem_cons_self _ _))), ?_, ?_, ?_, ?_⟩
              <;> rw [h]
          · exact ⟨d, List.mem_append.mpr
              (Or.inr (List.mem_cons_of_mem _ (List.mem_cons_of_mem _ h))),
              rfl, rfl, rfl, rfl⟩
    have hfl3 : FlOk s3 := by
      intro l hl a ha
      obtain ⟨d, hdm, hda, hdal, hdql⟩ := hinv.flok l hl a ha
      have hne : d ≠ w := by
        intro he
        rw [he, hwal] at hdal
        exact Bool.noConfusion hdal
      obtain ⟨d2, hd2m, h1, -, h3, h4⟩ := hkeep3 d hdm hne
      refine ⟨d2, hd2m, ?_, ?_, ?_⟩
      · rw [h1]; exact hda
      · rw [h3]; exact hdal
      · rw [h4]; exact hdql
    obtain ⟨m1, m2, m3, m4, m5, m6, m7, m8⟩ :=
      coalesce_master hdec3 rfl rfl hwalk3 hcu hcv3 hsz3 hfl3
    constructor
    · intro h0
      rw [m1] at h0
      have h2 : s.heapPages = 0 := h0
      omega
    · refine blocksTile_of_walk m3 ?_
      rw [m1]
    · exact m4
    · exact m5
    · intro j a ha
      rw [m2] at ha
      obtain ⟨c, hcm, hca, hcs, hcal, hcql⟩ := hinv.qlok j a ha
      have hne : c ≠ w := by
        intro he
        exact hnoql j a ha (by rw [← hca, he])
      obtain ⟨c2, hc2m, h1, h2, h3, h4⟩ := hkeep3 c hcm hne
      refine ⟨c2, m8 c2 hc2m (by rw [h3]; exact hcal), ?_, ?_, ?_, ?_⟩
      · rw [h1]; exact hca
      · rw [h2]; exact hcs
      · rw [h3]; exact hcal
      · rw [h4]; exact hcql
    · intro j
      rw [m2]
      exact hinv.qlnodup j
    · exact m6
    · refine ⟨?_, ?_⟩
      · rw [m7]
        exact hinv.lens.1
      · rw [m2]
        exact hinv.lens.2

/-- `sf_free` on a pointer satisfying the public contract keeps the
heap invariant. -/
theorem inv_sf_free {s : SfState} (hinv : Inv s) {pp : Nat}
    (hvalid : AllocAt s.blocks pp) {t : SfState} (ht : sf_free s pp = some t) : Inv t := by
  unfold sf_free at ht
  cases hver : verifyPointer s pp with
  | abort =>
    rw [hver] at ht
    exact Option.noConfusion ht
  | nullHeap =>
    rw [hver] at ht
    exact Option.noConfusion ht
  | ok i =>
    rw [hver] at ht
    dsimp only at ht
    obtain ⟨hp0, hbi⟩ := verifyPointer_ok hver
    obtain ⟨w, hw, hwpp, hwal, hwql⟩ := hvalid
    have hwaddr : w.addr = pp - 2 * ROW_SIZE := by omega
    obtain ⟨u, v, hs, hi, hdec⟩ := blockIdx_unique_target hinv hw hwaddr hbi
    rw [hdec] at ht
    dsimp only at ht
    split at ht
    · rename_i hqi
      injection ht with ht
      rw [← ht]
      exact inv_insertIntoQuickListIdx hinv hdec hwal hwql hqi
    · injection ht with ht
      rw [← ht]
      exact inv_free_direct hinv hdec hwal hwql

/-- Rewriting only the payload bits keeps the heap invariant. -/
theorem inv_setPayloadIdx {s : SfState} (hinv : Inv s) (i payloadReq : Nat) :
    Inv (setPayloadIdx s i payloadReq) := by
  unfold setPayloadIdx
  refine inv_of_keys hinv ?_ rfl rfl rfl
  exact keys_setIdx s.blocks i _ (fun c => rfl)

/-- `sf_realloc` on a pointer satisfying the public contract keeps the
heap invariant whenever it returns. -/
theorem inv_sf_realloc {s : SfState} (hinv : Inv s) {pp rsize : Nat}
    (hvalid : AllocAt s.blocks pp) {r : SfState × Option Nat}
    (hr : sf_realloc s pp rsize = some r) : Inv r.1 := by
  unfold sf_realloc at hr
  split at hr
  · cases hf : sf_free s pp with
    | none =>
      rw [hf] at hr
      exact Option.noConfusion hr
    | some s1 =>
      rw [hf] at hr
      injection hr with hr
      rw [← hr]
      exact inv_sf_free hinv hvalid hf
  · cases hver : verifyPointer s pp with
    | abort =>
      rw [hver] at hr
      exact Option.noConfusion hr
    | nullHeap =>
      rw [hver] at hr
      injection hr with hr
      rw [← hr]
      exact hinv
    | ok i =>
      rw [hver] at hr
      dsimp only at hr
      split at hr
      · injection hr with hr
        rw [← hr]
        exact hinv
      · rename_i hnoroll
        obtain ⟨hp0, hbi⟩ := verifyPointer_ok hver
        obtain ⟨w, hw, hwpp, hwal, hwql⟩ := hvalid
        have hwaddr : w.addr = pp - 2 * ROW_SIZE := by omega
        obtain ⟨u, v, hs, hi, hdec⟩ := blockIdx_unique_target hinv hw hwaddr hbi
        rw [hdec] at hr
        dsimp only at hr
        split at hr
        · cases hm : (sf_malloc s rsize).2 with
          | none =>
            rw [hm] at hr
            injection hr with hr
            rw [← hr]
            exact (inv_sf_malloc hinv rsize).1
          | some newp =>
            rw [hm] at hr
            obtain ⟨hminv, hmtrans⟩ := inv_sf_malloc hinv rsize
            cases hf2 : sf_free (sf_malloc s rsize).1 pp with
            | none =>
              rw [hf2] at hr
              exact Option.noConfusion hr
            | some s2 =>
              rw [hf2] at hr
              injection hr with hr
              rw [← hr]
              exact inv_sf_free hminv (hmtrans pp ⟨w, hw, hwpp, hwal, hwql⟩) hf2
        · rename_i hnogrow
          split at hr
          · injection hr with hr
            rw [← hr]
            exact inv_setPayloadIdx hinv i rsize
          · split at hr
            · injection hr with hr
              rw [← hr]
              exact inv_setPayloadIdx hinv i rsize
            · rename_i hremok
              injection hr with hr
              rw [← hr]
              obtain ⟨he16, he32⟩ := effectiveBlockSize_props rsize
              refine (inv_splitBlockIdx hinv hdec hwql rsize he16 he32 ?_ ?_).1
              · omega
              · simp only [MIN_BLOCK_SIZE] at hremok ⊢
                omega

/-- `sf_peak_utilization` keeps the heap invariant. -/
theorem inv_sf_peak_utilization {s : SfState} (hinv : Inv s) :
    Inv (sf_peak_utilization s).1 := by
  unfold sf_peak_utilization
  split
  · exact hinv
  · dsimp only
    exact inv_updateMaxAggPayload hinv

/-- Every public allocator call that returns and respects the public
contract keeps the heap invariant. -/
theorem inv_execOp {s : SfState} (hinv : Inv s) {op : SfOp} (hv : validOpB s op = true)
    {t : SfState} (ht : execOp s op = some t) : Inv t := by
  cases op with
  | malloc n =>
    simp only [execOp] at ht
    injection ht with ht
    rw [← ht]
    exact (inv_sf_malloc hinv n).1
  | free pp =>
    have hval : AllocAt s.blocks pp := by
      unfold validOpB at hv
      rcases List.any_eq_true.mp hv with ⟨b, hb, hpred⟩
      simp only [Bool.and_eq_true, decide_eq_true_eq, Bool.not_eq_true'] at hpred
      exact ⟨b, hb, hpred.1.1, hpred.1.2, hpred.2⟩
    simp only [execOp] at ht
    exact inv_sf_free hinv hval ht
  | realloc pp n =>
    have hval : AllocAt s.blocks pp := by
      unfold validOpB at hv
      simp only [Bool.and_eq_true] at hv
      obtain ⟨-, hv2⟩ := hv
      rcases List.any_eq_true.mp hv2 with ⟨b, hb, hpred⟩
      simp only [Bool.and_eq_true, decide_eq_true_eq, Bool.not_eq_true'] at hpred
      exact ⟨b, hb, hpred.1.1, hpred.1.2, hpred.2⟩
    simp only [execOp] at ht
    cases hrr : sf_realloc s pp n with
    | none =>
      rw [hrr] at ht
      exact Option.noConfusion ht
    | some r =>
      rw [hrr] at ht
      injection ht with ht
      rw [← ht]
      exact inv_sf_realloc hinv hval hrr
  | peakUtil =>
    simp only [execOp] at ht
    injection ht with ht
    rw [← ht]
    exact inv_sf_peak_utilization hinv

/-- The empty heap satisfies the invariant. -/
theorem inv_initial : Inv initialSfState := by
  constructor
  · intro _
    refine ⟨rfl, ?_, ?_⟩
    · intro l hl
      exact List.eq_of_mem_replicate hl
    · intro l hl
      exact List.eq_of_mem_replicate hl
  · intro h0
    exact absurd h0 (by decide)
  · exact trivial
  · intro b hb
    rw [show initialSfState.blocks = [] from rfl] at hb
    cases hb
  · intro j a ha
    rw [show initialSfState.quickLists = List.replicate NUM_QUICK_LISTS [] from rfl,
      nthList_replicate] at ha
    cases ha
  · intro j
    rw [show initialSfState.quickLists = List.replicate NUM_QUICK_LISTS [] from rfl,
      nthList_replicate]
    exact List.nodup_nil
  · intro l hl a ha
    rw [show initialSfState.freeLists = List.replicate NUM_FREE_LISTS [] from rfl] at hl
    rw [List.eq_of_mem_replicate hl] at ha
    cases ha
  · refine ⟨?_, ?_⟩
    · rw [show initialSfState.freeLists = List.replicate NUM_FREE_LISTS [] from rfl]
      exact List.length_replicate _ _
    · rw [show initialSfState.quickLists = List.replicate NUM_QUICK_LISTS [] from rfl]
      exact List.length_replicate _ _

/-- Contract-respecting, abort-free traces keep the heap invariant. -/
theorem inv_execValid : ∀ (ops : List SfOp) (s t : SfState), Inv s →
    execValidToB s ops t = true → Inv t := by
  intro ops
  induction ops with
  | nil =>
    intro s t hinv h
    have h2 : t = s := of_decide_eq_true h
    rw [h2]
    exact hinv
  | cons op ops ih =>
    intro s t hinv h
    unfold execValidToB at h
    simp only [Bool.and_eq_true] at h
    obtain ⟨hv, hrest⟩ := h
    cases hop : execOp s op with
    | none =>
      rw [hop] at hrest
      exact Bool.noConfusion hrest
    | some s1 =>
      rw [hop] at hrest
      exact ih s1 t (inv_execOp hinv hv hop) hrest

/-- Claim C1 (confirmed): after every public allocator call of a
contract-respecting trace returns, the heap blocks tile the heap
exactly — walking from the prologue by adding each block's size lands
on the epilogue — and no two physically adjacent free, non-quick-list
blocks exist. -/
theorem heap_tiles_and_no_adjacent_free (ops : List SfOp) (t : SfState)
    (h : execValidToB initialSfState ops t = true) :
    BlocksTile t ∧ NoAdjacentFreeNonQL t.blocks := by
  have hinv := inv_execValid ops initialSfState t inv_initial h
  exact ⟨hinv.walk, chainAlloc_noAdj t.blocks hinv.chain⟩

/-- Witness for C1: a concrete malloc/free trace satisfies the claim. -/
theorem heap_tiles_and_no_adjacent_free_witness :
    BlocksTile c1DemoState ∧ NoAdjacentFreeNonQL c1DemoState.blocks :=
  heap_tiles_and_no_adjacent_free c1DemoOps c1DemoState (by decide)

/-- Witness for C7: the cancel contract instantiated at a table holding
one running job. -/
theorem jobs_cancel_one_shot_witness :
    ((jobs_cancel oneJobState 0).2 = 0 ↔
      ∃ j, findJobById oneJobState.table 0 = some j ∧
        j.status.terminal = false ∧ j.canceled = false) ∧
    (∀ j, findJobById oneJobState.table 0 = some j → (jobs_cancel oneJobState 0).2 = 0 →
      (jobs_cancel oneJobState 0).1.table = setCanceledFirst oneJobState.table 0 ∧
      (jobs_cancel oneJobState 0).1.killedPgs = oneJobState.killedPgs ++ [j.pgId]) ∧
    ((jobs_cancel oneJobState 0).2 ≠ 0 → (jobs_cancel oneJobState 0).1 = oneJobState) :=
  jobs_cancel_one_shot oneJobState 0

/-- Witness for C9 (amended): the characterization instantiated at the
store holding the lone-minus value. -/
theorem store_get_int_accepts_digit_star_witness :
    (store_get_int dashStore ['x'] ≠ none ↔
      ∃ val, store_get_string dashStore ['x'] = some val ∧ codeIntPattern val = true) :=
  store_get_int_accepts_digit_star dashStore ['x']

end HW3
